import Mathlib

/-!
# Organic-Chemistry-Toolkit: the IUPAC naming pipeline of `IUPACnomenclature.cpp`

A shallow embedding of the formula parser, the ring heuristic, the chain finder,
the branch classifier, the chain orienter and the name synthesizer, followed by
theorems about them.

Conventions of the embedding.

* `std::string` is `String`; a character is one byte of the source string. The
  `<ctype.h>` tests are the ASCII ones (`Char.isAlpha`, `Char.isDigit`,
  `Char.isLower`), as in the C locale.
* `int` values are `Nat`: every id, counter and length of the program is
  non-negative, and the sentinel `-1` of `graphAtomId` is `none`.
* `std::unordered_map` and `std::unordered_set` are lists of entries in insertion
  order. The standard leaves their iteration order unspecified, so every loop that
  iterates over one takes its order from a `Traversal`, an arbitrary permutation.
* `at()` on a missing key throws `std::out_of_range`; that is the result
  `Outcome.outOfRange`.
* `return 0;` in `processMolecularGraph`, whose return type is `std::string`,
  constructs the string from a null pointer. That is undefined behaviour; the
  standard library throws `std::logic_error` there, and that is the result
  `Outcome.nullString`. `main` catches nothing, so after either throw the process
  ends and no later statement runs.
* The recursion of `dfsWithConditions` and the loop of `countBranchCarbons` are
  bounded by fuel computed from the adjacency; `dfsWithConditions_total` and
  `countLoop_ok` show that the bound is never reached.
* Text written to `std::cout` is not modelled.
-/

namespace IUPAC

/-! ## Unordered containers -/

/-- Value stored under key `k` (`find`), if any. -/
def mapFind {β : Type} (m : List (Nat × β)) (k : Nat) : Option β :=
  match m with
  | [] => none
  | (k1, v) :: rest => if k1 = k then some v else mapFind rest k

/-- Assignment `m[k] = v`: overwrites the entry of `k` or appends a new one. -/
def mapSet {β : Type} (m : List (Nat × β)) (k : Nat) (v : β) : List (Nat × β) :=
  match m with
  | [] => [(k, v)]
  | (k1, v1) :: rest => if k1 = k then (k1, v) :: rest else (k1, v1) :: mapSet rest k v

/-- In-place update `f(m[k])`: `operator[]` default-constructs a missing entry
first. -/
def mapModify {β : Type} (dflt : β) (f : β → β) (m : List (Nat × β)) (k : Nat) :
    List (Nat × β) :=
  match m with
  | [] => [(k, f dflt)]
  | (k1, v1) :: rest =>
    if k1 = k then (k1, f v1) :: rest else (k1, v1) :: mapModify dflt f rest k

/-- Insertion into an `unordered_set<int>`. -/
def setInsert (s : List Nat) (x : Nat) : List Nat :=
  if x ∈ s then s else s ++ [x]

/-- Removal from an `unordered_set<int>`. -/
def setErase (s : List Nat) (x : Nat) : List Nat :=
  s.filter (fun y => y ≠ x)

/-- The comparison `operator<` of two `std::vector` or two `std::string` values:
`std::lexicographical_compare`. -/
def lexLess {α : Type} [LT α] [DecidableRel (fun (a b : α) => a < b)] :
    List α → List α → Bool
  | _, [] => false
  | [], _ :: _ => true
  | a :: as, b :: bs => if a < b then true else if b < a then false else lexLess as bs

/-- Iteration orders of the unordered containers the program loops over. -/
structure Traversal (α : Type) where
  order : List α → List α
  order_perm : ∀ l, (order l).Perm l

/-- The traversal that visits entries in insertion order. -/
def Traversal.insertion (α : Type) : Traversal α :=
  ⟨fun l => l, fun l => List.Perm.refl l⟩

/-- The traversal that visits entries in reverse insertion order. -/
def Traversal.reversed (α : Type) : Traversal α :=
  ⟨fun l => l.reverse, fun l => List.reverse_perm l⟩

/-! ## Data model: `CarbonNode` and `MolecularGraph` -/

/-- Class `CarbonNode`. -/
structure CarbonNode where
  id : Nat
  C_C_bonds : Nat
  C_H_bonds : Nat
  C_X_bonds : Nat
  label : String
deriving DecidableEq

namespace CarbonNode

/-- Constructor `CarbonNode(int id, const string& label)`. -/
def mk1 (id : Nat) (label : String) : CarbonNode := ⟨id, 0, 0, 0, label⟩

/-- Default constructor `CarbonNode()`: id 0 and label "C". -/
def default : CarbonNode := ⟨0, 0, 0, 0, "C"⟩

def incrementC_C (c : CarbonNode) : CarbonNode := { c with C_C_bonds := c.C_C_bonds + 1 }

/-- Stores the hydrogen count; despite its name it does not add. -/
def incrementC_H (c : CarbonNode) (numH : Nat) : CarbonNode := { c with C_H_bonds := numH }

def incrementC_X (c : CarbonNode) : CarbonNode := { c with C_X_bonds := c.C_X_bonds + 1 }

def getTotalBonds (c : CarbonNode) : Nat := c.C_C_bonds + c.C_H_bonds + c.C_X_bonds

end CarbonNode

/-- Class `MolecularGraph`. -/
structure MolecularGraph where
  carbons : List (Nat × CarbonNode)
  adjacencyList : List (Nat × List Nat)
  edges : List (Nat × Nat)
  input : List (String × String)
  counter : Nat
deriving DecidableEq

namespace MolecularGraph

/-- A freshly constructed graph: nothing stored, `counter = 1`. -/
def fresh : MolecularGraph := ⟨[], [], [], [], 1⟩

def addCarbon (g : MolecularGraph) (label : String) : MolecularGraph :=
  { g with
    carbons := mapSet g.carbons g.counter (CarbonNode.mk1 g.counter label)
    counter := g.counter + 1 }

def addEdge (g : MolecularGraph) (id1 id2 : Nat) : MolecularGraph :=
  let carbons1 := mapModify CarbonNode.default CarbonNode.incrementC_C g.carbons id1
  let carbons2 := mapModify CarbonNode.default CarbonNode.incrementC_C carbons1 id2
  let adj1 := mapModify [] (fun l => l ++ [id2]) g.adjacencyList id1
  let adj2 := mapModify [] (fun l => l ++ [id1]) adj1 id2
  { g with carbons := carbons2, edges := g.edges ++ [(id1, id2)], adjacencyList := adj2 }

/-- The update `carbons[id].incrementC_X()`. -/
def incrementC_X (g : MolecularGraph) (id : Nat) : MolecularGraph :=
  { g with carbons := mapModify CarbonNode.default CarbonNode.incrementC_X g.carbons id }

/-- The update `carbons[id].incrementC_H(numH)`. -/
def incrementC_H (g : MolecularGraph) (id numH : Nat) : MolecularGraph :=
  { g with
    carbons := mapModify CarbonNode.default (fun c => c.incrementC_H numH) g.carbons id }

end MolecularGraph

/-! ## `MolecularGraph::parseMolecularFormula` -/

/-- Local variables of the parser loop, the graph under construction included. The
`branchPoints` stack has its top at the head. -/
structure ParseState where
  graph : MolecularGraph
  previousCarbon : Nat
  branchPoints : List Nat
deriving DecidableEq

/-- The optional `H` and digit after a `C`, read at the cursor: the hydrogen count
to store, if any, and the number of characters consumed. -/
def parseHydrogens (rest : List Char) : Option Nat × Nat :=
  match rest with
  | h :: r1 =>
    if h = 'H' then
      match r1 with
      | d :: _ => if d.isDigit then (some (d.toNat - '0'.toNat), 2) else (some 1, 1)
      | [] => (some 1, 1)
    else (none, 0)
  | [] => (none, 0)

/-- The check "Cl, Br, F, I right after CHx": the number of characters consumed,
0 when no halogen is recognised. The source makes the whole check only when at least
two characters remain (`i + 1 < formula.size()`). -/
def parseAttachedHalogen (rest : List Char) : Nat :=
  match rest with
  | a :: b :: _ =>
    if (a = 'C' ∧ b = 'l') ∨ (a = 'B' ∧ b = 'r') then 2
    else if a = 'F' ∨ a = 'I' then 1
    else 0
  | _ => 0

/-- The local `halogenLabel`: the character at the cursor, and the next one when it
is a lower-case letter. -/
def halogenLabelAt (ch : Char) (rest : List Char) : List Char :=
  match rest with
  | n :: _ => if n.isLower then [ch, n] else [ch]
  | [] => [ch]

/-- One iteration of the parser loop with the cursor at the start of `cs`: the
number of characters the cursor advances by, and the new state. -/
def parseStep (cs : List Char) (st : ParseState) : Nat × ParseState :=
  match cs with
  | [] => (1, st)
  | ch :: rest =>
    if "COOH".data.isPrefixOf cs then
      let g := st.graph.addCarbon "COOH"
      let currentCarbon := g.counter - 1
      let g := if st.previousCarbon ≠ 0 then g.addEdge st.previousCarbon currentCarbon else g
      (4, { st with graph := g, previousCarbon := currentCarbon })
    else if ch = 'C' then
      let g := st.graph.addCarbon "C"
      let currentCarbon := g.counter - 1
      let hyd := parseHydrogens rest
      let g := match hyd.1 with
        | some numH => g.incrementC_H currentCarbon numH
        | none => g
      let hal := parseAttachedHalogen (rest.drop hyd.2)
      let g := if hal ≠ 0 then g.incrementC_X currentCarbon else g
      let g := if st.previousCarbon ≠ 0 then g.addEdge st.previousCarbon currentCarbon else g
      (1 + hyd.2 + hal, { st with graph := g, previousCarbon := currentCarbon })
    else if ch = '(' then
      (1, { st with branchPoints := st.previousCarbon :: st.branchPoints })
    else if ch = ')' then
      match st.branchPoints with
      | top :: below => (1, { st with previousCarbon := top, branchPoints := below })
      | [] => (1, st)
    else if ch.isAlpha then
      let halogenLabel := halogenLabelAt ch rest
      if halogenLabel = ['C', 'l'] ∨ halogenLabel = ['B', 'r'] then
        let g := if st.previousCarbon ≠ 0 then st.graph.incrementC_X st.previousCarbon
          else st.graph
        (2, { st with graph := g })
      else if ch = 'F' ∨ ch = 'I' then
        let g := if st.previousCarbon ≠ 0 then st.graph.incrementC_X st.previousCarbon
          else st.graph
        (1, { st with graph := g })
      else
        let g := st.graph.addCarbon (String.mk halogenLabel)
        let currentAtom := g.counter - 1
        let g := if st.previousCarbon ≠ 0 then g.addEdge st.previousCarbon currentAtom else g
        (halogenLabel.length, { st with graph := g, previousCarbon := currentAtom })
    else (1, st)

/-- The loop `for (size_t i = 0; i < formula.size();)`. The list is the formula from
the cursor's character on; `skip` counts the characters that the last iteration
consumed beyond the first, which the cursor still has to pass. -/
def parseLoop : List Char → Nat → ParseState → ParseState
  | [], _, st => st
  | _ :: cs, skip + 1, st => parseLoop cs skip st
  | c :: cs, 0, st => parseLoop cs ((parseStep (c :: cs) st).1 - 1) (parseStep (c :: cs) st).2

namespace MolecularGraph

def parseMolecularFormula (g : MolecularGraph) (formula : String) : MolecularGraph :=
  (parseLoop formula.data 0 ⟨g, 0, []⟩).graph

end MolecularGraph

/-- The graph `main` builds for a formula: a new `MolecularGraph`, parsed into. -/
def parsed (formula : String) : MolecularGraph :=
  MolecularGraph.fresh.parseMolecularFormula formula

/-- Outcome of a computation that can end without a value. -/
inductive Outcome (α : Type) where
  /-- Normal return. -/
  | ok (value : α)
  /-- The statement `return 0;` of `processMolecularGraph`, taken when the ring
  heuristic fires: the returned `std::string` is constructed from a null pointer,
  which throws `std::logic_error`. No value is returned. -/
  | nullString
  /-- An `at()` lookup of a missing key threw `std::out_of_range`. -/
  | outOfRange
  /-- The model ran out of fuel; the theorems show this does not happen. -/
  | outOfFuel
deriving DecidableEq

namespace MolecularGraph

/-- The ring heuristic: collects the atoms whose total bond count is 3, in traversal
order of `carbons`, and bonds the first two when there are at least two. -/
def hasCyclicEdge (t : Traversal (Nat × CarbonNode)) (g : MolecularGraph) :
    Bool × MolecularGraph :=
  let candidates :=
    ((t.order g.carbons).filter (fun p => p.2.getTotalBonds = 3)).map (fun p => p.1)
  match candidates with
  | a :: b :: _ => (true, g.addEdge a b)
  | _ => (false, g)

/-- The loop of `printEdges`: appends one pair of formatted labels per edge to
`input`; `carbons.at` fails on an endpoint that is not an atom. -/
def printEdgesLoop (carbons : List (Nat × CarbonNode)) :
    List (Nat × Nat) → List (String × String) → Option (List (String × String))
  | [], input => some input
  | (a, b) :: rest, input =>
    match mapFind carbons a, mapFind carbons b with
    | some ca, some cb =>
      printEdgesLoop carbons rest (input ++ [(ca.label ++ toString a, cb.label ++ toString b)])
    | _, _ => none

def printEdges (g : MolecularGraph) : Option MolecularGraph :=
  match printEdgesLoop g.carbons g.edges g.input with
  | some input => some { g with input := input }
  | none => none

end MolecularGraph

/-! ## The process-wide adjacency `graph` and the chain finder -/

/-- The global `unordered_map<int, vector<int>> graph`. -/
abbrev Adjacency := List (Nat × List Nat)

/-- The free function `addEdge(u, v)` on the global adjacency. -/
def addEdge (graph : Adjacency) (u v : Nat) : Adjacency :=
  mapModify [] (fun l => l ++ [u]) (mapModify [] (fun l => l ++ [v]) graph u) v

/-- The vector `graph[node]`. Reading a missing key through `operator[]` stores an
empty vector for it, which no later read can tell from a missing key, so the read
is modelled without that store. -/
def neighbors (graph : Adjacency) (node : Nat) : List Nat :=
  (mapFind graph node).getD []

/-- The neighbour loop of `dfsWithConditions` for `node`; `recurse` is the recursive
call, `best` is the pair `(maxLength, longestPath)` and the set `visited` is shared
with the callee, as in the source. -/
def dfsLoop (recurse : Nat → List Nat → Option ((Nat × List Nat) × List Nat))
    (ignoredNodes : List Nat) (node : Nat) :
    List Nat → Nat × List Nat → List Nat → Option ((Nat × List Nat) × List Nat)
  | [], best, visited => some (best, visited)
  | neighbor :: rest, best, visited =>
    if neighbor ∉ visited ∧ neighbor ∉ ignoredNodes then
      match recurse neighbor visited with
      | none => none
      | some (res, visited1) =>
        if res.1 + 1 > best.1 then
          dfsLoop recurse ignoredNodes node rest (res.1 + 1, node :: res.2) visited1
        else
          dfsLoop recurse ignoredNodes node rest best visited1
    else
      dfsLoop recurse ignoredNodes node rest best visited

/-- The recursive `dfsWithConditions(node, visited, ignoredNodes)`, with the
recursion depth bounded by `fuel` (`none` when it is exceeded). Returns the pair
`(maxLength, longestPath)` and the set `visited` as the call leaves it. -/
def dfsWithConditions (graph : Adjacency) (ignoredNodes : List Nat) :
    Nat → Nat → List Nat → Option ((Nat × List Nat) × List Nat)
  | 0, _, _ => none
  | fuel + 1, node, visited =>
    match dfsLoop (dfsWithConditions graph ignoredNodes fuel) ignoredNodes node
        (neighbors graph node) (0, [node]) (setInsert visited node) with
    | none => none
    | some (best, visited1) => some (best, setErase visited1 node)

/-- Recursion depth that no search on `graph` exceeds: one more than the number of
stored neighbour entries. -/
def searchFuel (graph : Adjacency) : Nat :=
  (graph.map (fun p => p.2.length)).sum + 1

def findLongestCarbonChain (graph : Adjacency) (startNode : Nat) (ignoredNodes : List Nat) :
    Option (List Nat) :=
  match dfsWithConditions graph ignoredNodes (searchFuel graph) startNode [] with
  | none => none
  | some (res1, _) =>
    let farthestNode := res1.2.getLastD startNode
    match dfsWithConditions graph ignoredNodes (searchFuel graph) farthestNode [] with
    | none => none
    | some (res2, _) => some res2.2

/-- The loop of `findLongestChainWithCOOH` over the carboxyl nodes, in the order
given. -/
def coohLoop (graph : Adjacency) (ignoredNodes : List Nat) :
    List Nat → List Nat → Option (List Nat)
  | [], longestChain => some longestChain
  | coohNode :: rest, longestChain =>
    match dfsWithConditions graph ignoredNodes (searchFuel graph) coohNode [] with
    | none => none
    | some (res, _) =>
      if res.2.length > longestChain.length then coohLoop graph ignoredNodes rest res.2
      else coohLoop graph ignoredNodes rest longestChain

def findLongestChainWithCOOH (t : Traversal Nat) (graph : Adjacency) (coohNodes : List Nat)
    (ignoredNodes : List Nat) : Option (List Nat) :=
  match coohLoop graph ignoredNodes (t.order coohNodes) [] with
  | none => none
  | some longestChain => some longestChain.reverse

/-! ## Chain orienter -/

/-- Branch records: chain atom to its list of `(carbon count, halogen kind)`. -/
abbrev BranchInfo := List (Nat × List (Int × Int))

/-- The locant loops of `getOptimalChainDirection`: the 1-based positions, counted
from `i + 1`, of the atoms that have a key in `branchInfo`. -/
def locantsFrom (branchInfo : BranchInfo) : List Nat → Nat → List Nat
  | [], _ => []
  | atom :: rest, i =>
    if (mapFind branchInfo atom).isSome then (i + 1) :: locantsFrom branchInfo rest (i + 1)
    else locantsFrom branchInfo rest (i + 1)

def leftLocants (chain : List Nat) (branchInfo : BranchInfo) : List Nat :=
  locantsFrom branchInfo chain 0

def rightLocants (chain : List Nat) (branchInfo : BranchInfo) : List Nat :=
  locantsFrom branchInfo chain.reverse 0

def getOptimalChainDirection (chain : List Nat) (branchInfo : BranchInfo) : List Nat :=
  if lexLess (leftLocants chain branchInfo) (rightLocants chain branchInfo) then chain
  else chain.reverse

/-! ## Name synthesizer -/

def formatBranchName (numCarbons halogenType : Int) : String :=
  if halogenType > 0 then
    if halogenType = 1 then "chloro"
    else if halogenType = 2 then "bromo"
    else if halogenType = 3 then "fluoro"
    else if halogenType = 4 then "iodo"
    else "halo"
  else if numCarbons = 1 then "methyl"
  else if numCarbons = 2 then "ethyl"
  else if numCarbons = 3 then "propyl"
  else if numCarbons = 4 then "butyl"
  else ""

/-- Position of the first occurrence of `c` (`find(char)`), `none` for `npos`. -/
def findChar (c : Char) : List Char → Option Nat
  | [] => none
  | x :: xs => if x = c then some 0 else (findChar c xs).map (fun p => p + 1)

/-- Whether `pat` occurs in the text (`find(pat) != string::npos`). -/
def hasSubstring (pat : List Char) : List Char → Bool
  | [] => pat.isEmpty
  | x :: xs => pat.isPrefixOf (x :: xs) || hasSubstring pat xs

/-- The text `substr(0, dashPos)` of a token; the whole token when it has no dash. -/
def locantOf (token : String) : String :=
  match findChar '-' token.data with
  | some dashPos => String.mk (token.data.take dashPos)
  | none => token

/-- The text `substr(dashPos + 1)` of a token; the whole token when it has no dash
(`npos + 1` wraps to 0). -/
def branchNameOf (token : String) : String :=
  match findChar '-' token.data with
  | some dashPos => String.mk (token.data.drop (dashPos + 1))
  | none => token

/-- The inner loop of `combineBranches`: the locants of the tokens that directly
follow and contain "-" followed by `branchName`. -/
def collectRun (branchName : String) : List String → List String
  | [] => []
  | next :: rest =>
    if hasSubstring ("-" ++ branchName).data next.data then
      locantOf next :: collectRun branchName rest
    else []

/-- The token `combineBranches` pushes for the collected `locants`. -/
def combinedToken (locants : List String) (branchName : String) : String :=
  if locants.length > 1 then
    let multiplier :=
      if locants.length = 2 then "di"
      else if locants.length = 3 then "tri"
      else if locants.length > 3 then toString locants.length ++ "-"
      else ""
    let combinedLocants :=
      (locants.tail.foldl (fun acc l => acc ++ "," ++ l) ("(" ++ locants.headD "")) ++ ")"
    combinedLocants ++ "-" ++ multiplier ++ branchName
  else
    locants.headD "" ++ "-" ++ branchName

/-- The outer loop of `combineBranches`. The list is `branches` from index `i` on;
`skip` counts the tokens the inner loop has already consumed. -/
def combineLoop : List String → Nat → List String
  | [], _ => []
  | _ :: rest, skip + 1 => combineLoop rest skip
  | token :: rest, 0 =>
    combinedToken (locantOf token :: collectRun (branchNameOf token) rest) (branchNameOf token)
      :: combineLoop rest (collectRun (branchNameOf token) rest).length

def combineBranches (branches : List String) : List String :=
  combineLoop branches 0

/-- Insertion of a string into an ascending list. -/
def insertSorted (s : String) : List String → List String
  | [] => [s]
  | x :: xs => if lexLess s.data x.data then s :: x :: xs else x :: insertSorted s xs

/-- The call `sort(branches.begin(), branches.end())`: the ascending arrangement
under `operator<` of `std::string`. -/
def sortBranches (branches : List String) : List String :=
  branches.foldr insertSorted []

/-- The stem chosen from the chain length. -/
def stemName (numCarbons : Nat) : String :=
  if numCarbons = 1 then "Meth"
  else if numCarbons = 2 then "Eth"
  else if numCarbons = 3 then "Prop"
  else if numCarbons = 4 then "But"
  else if numCarbons = 5 then "Pent"
  else if numCarbons = 6 then "Hex"
  else if numCarbons = 7 then "Hept"
  else if numCarbons = 8 then "Oct"
  else if numCarbons = 9 then "Non"
  else if numCarbons = 10 then "Dec"
  else ""

/-- The suffix chosen from the mode `counter`. -/
def suffixName (counter : Nat) : String :=
  if counter = 0 then "ane"
  else if counter = 1 then "an"
  else if counter = 2 then "yl"
  else ""

/-- The loop "Generate branch names with locants": one token per branch entry of
each chain atom, the atom at index `i` having locant `i + 1`. -/
def branchTokens (branchInfo : BranchInfo) : List Nat → Nat → List String
  | [], _ => []
  | atom :: rest, i =>
    (match mapFind branchInfo atom with
      | some entries =>
        entries.map (fun branch => toString (i + 1) ++ "-" ++ formatBranchName branch.1 branch.2)
      | none => [])
    ++ branchTokens branchInfo rest (i + 1)

/-- The loop that joins the combined tokens with dashes into `finalName`. -/
def joinBranches (combinedBranches : List String) : String :=
  combinedBranches.foldl
    (fun finalName branch => (if finalName ≠ "" then finalName ++ "-" else finalName) ++ branch) ""

/-- The function `generateIUPACName`; its parameter `idToLabel` is never read and is
left out. -/
def generateIUPACName (longestChain : List Nat) (branchInfo : BranchInfo) (counter : Nat) :
    String :=
  let chainName := stemName longestChain.length ++ suffixName counter
  let branches := branchTokens branchInfo longestChain 0
  let combinedBranches := combineBranches (sortBranches branches)
  let finalName := joinBranches combinedBranches
  if finalName ≠ "" then finalName ++ chainName else chainName

/-! ## Branch classifier -/

/-- The label tests of `countBranchCarbons` for one node: the new values of
`carbonCount` and `halogenType`. -/
def classifyLabel (label : String) (carbonCount halogenType : Int) : Int × Int :=
  let cs := label.data
  if cs.head? = some 'C' ∧ (cs.drop 1).all Char.isDigit then (carbonCount + 1, halogenType)
  else if cs.take 2 = ['C', 'l'] ∧ cs.length > 2 ∧ (cs.getD 2 ' ').isDigit ∧ halogenType = 0 then
    (carbonCount, 1)
  else if cs.take 2 = ['B', 'r'] ∧ cs.length > 2 ∧ (cs.getD 2 ' ').isDigit ∧ halogenType = 0 then
    (carbonCount, 2)
  else if cs.take 1 = ['F'] ∧ cs.length > 1 ∧ (cs.getD 1 ' ').isDigit ∧ halogenType = 0 then
    (carbonCount, 3)
  else if cs.take 1 = ['I'] ∧ cs.length > 1 ∧ (cs.getD 1 ' ').isDigit ∧ halogenType = 0 then
    (carbonCount, 4)
  else (carbonCount, halogenType)

/-- The neighbour loop of `countBranchCarbons`: marks and pushes every neighbour that
is neither visited nor on the main chain. Returns `(visited, toVisit)`; the stack
`toVisit` has its top at the head. -/
def pushNeighbors (mainChainNodes : List Nat) :
    List Nat → List Nat → List Nat → List Nat × List Nat
  | [], visited, toVisit => (visited, toVisit)
  | neighbor :: rest, visited, toVisit =>
    if neighbor ∉ visited ∧ neighbor ∉ mainChainNodes then
      pushNeighbors mainChainNodes rest (setInsert visited neighbor) (neighbor :: toVisit)
    else
      pushNeighbors mainChainNodes rest visited toVisit

/-- The loop `while (!toVisit.empty())` of `countBranchCarbons`, bounded by `fuel`
iterations. -/
def countLoop (graph : Adjacency) (mainChainNodes : List Nat) (idToLabel : List (Nat × String)) :
    Nat → List Nat → List Nat → Int → Int → Outcome (Int × Int)
  | _, [], _, carbonCount, halogenType => Outcome.ok (carbonCount, halogenType)
  | 0, _ :: _, _, _, _ => Outcome.outOfFuel
  | fuel + 1, node :: toVisit, visited, carbonCount, halogenType =>
    match mapFind idToLabel node with
    | none => Outcome.outOfRange
    | some label =>
      let counts := classifyLabel label carbonCount halogenType
      let pushed := pushNeighbors mainChainNodes (neighbors graph node)
        (setInsert visited node) toVisit
      countLoop graph mainChainNodes idToLabel fuel pushed.2 pushed.1 counts.1 counts.2

def countBranchCarbons (graph : Adjacency) (start : Nat) (mainChainNodes : List Nat)
    (idToLabel : List (Nat × String)) : Outcome (Int × Int) :=
  countLoop graph mainChainNodes idToLabel (searchFuel graph + 1) [start] [] 0 0

/-- Whether the label is a carboxyl group followed by a digit. -/
def isCOOHGroup (label : String) : Bool :=
  label.data.take 4 = "COOH".data ∧ label.length > 4 ∧ (label.data.getD 4 ' ').isDigit

/-! ## `processMolecularGraph` -/

/-- Value of `labelToID.find(label)`, if any. -/
def labelFind (m : List (String × Nat)) (label : String) : Option Nat :=
  match m with
  | [] => none
  | (l, id) :: rest => if l = label then some id else labelFind rest label

/-- The locals that the loop "Assign IDs and build graph" of `processMolecularGraph`
updates, with the global adjacency `graph`. -/
structure Interned where
  labelToID : List (String × Nat)
  idToLabel : List (Nat × String)
  currentID : Nat
  coohNodes : List Nat
  ignoredNodes : List Nat
  graph : Adjacency
deriving DecidableEq

/-- The step "if the label has no id yet, give it `currentID`". -/
def internLabel (st : Interned) (node : String) : Interned :=
  match labelFind st.labelToID node with
  | some _ => st
  | none =>
    { st with
      labelToID := st.labelToID ++ [(node, st.currentID)]
      idToLabel := mapSet st.idToLabel st.currentID node
      currentID := st.currentID + 1 }

/-- One iteration of the loop "Assign IDs and build graph". -/
def internEdge (st : Interned) (edge : String × String) : Interned :=
  let nodeA := edge.1
  let nodeB := edge.2
  let st := internLabel (internLabel st nodeA) nodeB
  let idA := (labelFind st.labelToID nodeA).getD 0
  let idB := (labelFind st.labelToID nodeB).getD 0
  let graph := addEdge st.graph idA idB
  let cooh := if isCOOHGroup nodeA then setInsert st.coohNodes idA else st.coohNodes
  let cooh := if isCOOHGroup nodeB then setInsert cooh idB else cooh
  let ignored := if nodeA.data.head? ≠ some 'C' then setInsert st.ignoredNodes idA
    else st.ignoredNodes
  let ignored := if nodeB.data.head? ≠ some 'C' then setInsert ignored idB else ignored
  { st with graph := graph, coohNodes := cooh, ignoredNodes := ignored }

/-- The whole loop "Assign IDs and build graph", started on the global adjacency
`graph` as earlier calls left it. -/
def internEdges (graph : Adjacency) (edgeList : List (String × String)) : Interned :=
  edgeList.foldl internEdge ⟨[], [], 0, [], [], graph⟩

/-- The vector `carbonNodes`: the ids of the labels that start with C, in traversal
order of `labelToID`. -/
def carbonNodesOf (t : Traversal (String × Nat)) (labelToID : List (String × Nat)) : List Nat :=
  ((t.order labelToID).filter (fun p => p.1.data.head? = some 'C')).map (fun p => p.2)

/-- The search for `graphAtomId`: the key of the first atom, in traversal order of
`carbons`, whose label followed by its id is `atomLabel`. -/
def findGraphAtom (atoms : List (Nat × CarbonNode)) (atomLabel : String) : Option Nat :=
  (atoms.find? (fun p => p.2.label ++ toString p.2.id = atomLabel)).map (fun p => p.1)

/-- The halogen kind read off a label: the first of Cl, Br, F, I that occurs in it,
and 1 when none does ("Default to chlorine for now"). -/
def halogenTypeOfLabel (label : String) : Int :=
  if hasSubstring "Cl".data label.data then 1
  else if hasSubstring "Br".data label.data then 2
  else if hasSubstring "F".data label.data then 3
  else if hasSubstring "I".data label.data then 4
  else 1

/-- Appends `entry` to `branchInfo[atom]`. -/
def pushBranch (branchInfo : BranchInfo) (atom : Nat) (entry : Int × Int) : BranchInfo :=
  mapModify [] (fun l => l ++ [entry]) branchInfo atom

/-- The part "check for halogens directly on this carbon" of step 2, for one chain
atom. -/
def halogenBranch (atoms : List (Nat × CarbonNode)) (graph1 : MolecularGraph)
    (atomLabel : String) (atom : Nat) (branchInfo : BranchInfo) : BranchInfo :=
  match findGraphAtom atoms atomLabel with
  | none => branchInfo
  | some graphAtomId =>
    let carbon := (mapFind graph1.carbons graphAtomId).getD CarbonNode.default
    if carbon.C_X_bonds > 0 then pushBranch branchInfo atom (0, halogenTypeOfLabel carbon.label)
    else branchInfo

/-- The part "check for carbon branches" of step 2, for one chain atom: the loop
over its neighbours. -/
def carbonBranches (graph : Adjacency) (ignoredNodes longestChain : List Nat)
    (idToLabel : List (Nat × String)) (atom : Nat) :
    List Nat → BranchInfo → Outcome BranchInfo
  | [], branchInfo => Outcome.ok branchInfo
  | neighbor :: rest, branchInfo =>
    if neighbor ∉ ignoredNodes ∧ neighbor ∉ longestChain then
      match countBranchCarbons graph neighbor longestChain idToLabel with
      | Outcome.ok branch =>
        carbonBranches graph ignoredNodes longestChain idToLabel atom rest
          (pushBranch branchInfo atom branch)
      | Outcome.nullString => Outcome.nullString
      | Outcome.outOfRange => Outcome.outOfRange
      | Outcome.outOfFuel => Outcome.outOfFuel
    else
      carbonBranches graph ignoredNodes longestChain idToLabel atom rest branchInfo

/-- Step 2 of `processMolecularGraph`: the loop over the atoms of the chain. Reading
`idToLabel[atom]` stores an empty label for an atom that has none. -/
def classifyBranches (atoms : List (Nat × CarbonNode)) (graph1 : MolecularGraph)
    (graph : Adjacency) (ignoredNodes longestChain : List Nat) :
    List Nat → List (Nat × String) → BranchInfo → Outcome (BranchInfo × List (Nat × String))
  | [], idToLabel, branchInfo => Outcome.ok (branchInfo, idToLabel)
  | atom :: rest, idToLabel, branchInfo =>
    let idToLabel := mapModify "" (fun l => l) idToLabel atom
    let atomLabel := (mapFind idToLabel atom).getD ""
    let branchInfo := halogenBranch atoms graph1 atomLabel atom branchInfo
    match carbonBranches graph ignoredNodes longestChain idToLabel atom (neighbors graph atom)
        branchInfo with
    | Outcome.ok branchInfo =>
      classifyBranches atoms graph1 graph ignoredNodes longestChain rest idToLabel branchInfo
    | Outcome.nullString => Outcome.nullString
    | Outcome.outOfRange => Outcome.outOfRange
    | Outcome.outOfFuel => Outcome.outOfFuel

/-- Iteration orders of the three unordered containers that `processMolecularGraph`
and `hasCyclicEdge` loop over. -/
structure Orders where
  atoms : Traversal (Nat × CarbonNode)
  labels : Traversal (String × Nat)
  nodes : Traversal Nat

/-- Insertion order everywhere. -/
def Orders.insertion : Orders :=
  ⟨Traversal.insertion _, Traversal.insertion _, Traversal.insertion _⟩

/-- Reverse insertion order everywhere. -/
def Orders.reversed : Orders :=
  ⟨Traversal.reversed _, Traversal.reversed _, Traversal.reversed _⟩

/-- What a call of `processMolecularGraph` that reaches its last statement has
computed. -/
structure Naming where
  interned : Interned
  longestChain : List Nat
  branchInfo : BranchInfo
  idToLabel : List (Nat × String)
  optimalChain : List Nat
  counter : Nat
  name : String
deriving DecidableEq

/-- Step 1 of `processMolecularGraph`: the principal chain and the suffix mode
`counter` it sets. -/
def principalChain (o : Orders) (st : Interned) (carbonNodes : List Nat) :
    Option (List Nat × Nat) :=
  if st.coohNodes ≠ [] then
    (findLongestChainWithCOOH o.nodes st.graph st.coohNodes st.ignoredNodes).map
      (fun chain => (chain, 1))
  else
    (findLongestCarbonChain st.graph (carbonNodes.headD 0) st.ignoredNodes).map
      (fun chain => (chain, 0))

/-- Steps 1 to 4 of `processMolecularGraph`, after the ids have been assigned and
some carbon node was found. -/
def nameInterned (o : Orders) (graph1 : MolecularGraph) (hint : Nat) (st : Interned)
    (carbonNodes : List Nat) : Outcome Naming :=
  match principalChain o st carbonNodes with
  | none => Outcome.outOfFuel
  | some (longestChain, counter) =>
    match classifyBranches (o.atoms.order graph1.carbons) graph1 st.graph st.ignoredNodes
        longestChain longestChain st.idToLabel [] with
    | Outcome.ok (branchInfo, idToLabel) =>
      let optimalChain := getOptimalChainDirection longestChain branchInfo
      let counter := if hint = 1 then 2 else counter
      let iupacName := generateIUPACName optimalChain branchInfo counter
      let iupacName := if st.coohNodes ≠ [] then iupacName ++ "oic acid" else iupacName
      Outcome.ok ⟨st, longestChain, branchInfo, idToLabel, optimalChain, counter, iupacName⟩
    | Outcome.nullString => Outcome.nullString
    | Outcome.outOfRange => Outcome.outOfRange
    | Outcome.outOfFuel => Outcome.outOfFuel

/-- The state a call of `processMolecularGraph` leaves behind and what it
computed. -/
inductive Processed where
  /-- The ring heuristic fired and `return 0;` was executed: the call ended in the
  throw of `std::logic_error`. -/
  | ring (graph1 : MolecularGraph)
  /-- An `at()` lookup threw. -/
  | thrown (graph : Adjacency)
  /-- The model ran out of fuel. -/
  | noFuel (graph : Adjacency)
  /-- The return of the empty name after "No carbon atoms found in the input". -/
  | noCarbon (interned : Interned)
  /-- The return of `iupacName`. -/
  | named (naming : Naming)
deriving DecidableEq

/-- The end of a call that got past the check for carbon nodes. -/
def Processed.ofOutcome (st : Interned) : Outcome Naming → Processed
  | Outcome.ok naming => Processed.named naming
  | Outcome.outOfFuel => Processed.noFuel st.graph
  | Outcome.outOfRange => Processed.thrown st.graph
  | Outcome.nullString => Processed.thrown st.graph

/-- The body of `processMolecularGraph(graph1, hint)`, run on the global adjacency
`graph`. -/
def processSteps (o : Orders) (graph : Adjacency) (graph1 : MolecularGraph) (hint : Nat) :
    Processed :=
  let cyc := graph1.hasCyclicEdge o.atoms
  if cyc.1 then Processed.ring cyc.2
  else
    match cyc.2.printEdges with
    | none => Processed.thrown graph
    | some graph1 =>
      let st := internEdges graph graph1.input
      let carbonNodes := carbonNodesOf o.labels st.labelToID
      if carbonNodes = [] then Processed.noCarbon st
      else
        Processed.ofOutcome st (nameInterned o graph1 hint st carbonNodes)

/-- The global adjacency when the call ended, by a return or by a throw. -/
def Processed.graph (graph : Adjacency) : Processed → Adjacency
  | Processed.ring _ => graph
  | Processed.thrown g => g
  | Processed.noFuel g => g
  | Processed.noCarbon st => st.graph
  | Processed.named naming => naming.interned.graph

/-- The value the call returns, or the throw it ends in. -/
def Processed.result : Processed → Outcome String
  | Processed.ring _ => Outcome.nullString
  | Processed.thrown _ => Outcome.outOfRange
  | Processed.noFuel _ => Outcome.outOfFuel
  | Processed.noCarbon _ => Outcome.ok ""
  | Processed.named naming => Outcome.ok naming.name

/-- The function `processMolecularGraph(graph1, hint)` called with the global
adjacency `graph`: the value it returns. -/
def processMolecularGraph (o : Orders) (graph : Adjacency) (graph1 : MolecularGraph)
    (hint : Nat) : Outcome String :=
  (processSteps o graph graph1 hint).result

def generateIUPACNameForGraph (o : Orders) (graph : Adjacency) (graph1 : MolecularGraph) :
    Outcome String :=
  processMolecularGraph o graph graph1 1

/-! ## `main` -/

/-- The plain path of `main`: one formula, parsed into a new graph and named with
hint 0 on the empty adjacency of a new process. -/
def namePlain (o : Orders) (formula : String) : Outcome String :=
  processMolecularGraph o [] (parsed formula) 0

/-- The name the ether path of `main` computes for its second fragment `f2`: both
fragments are parsed, then `f1` is processed on the empty adjacency and, when that
call returned, `f2` on the adjacency it left behind. When the call for `f1` ended in
a throw the process has ended and `f2` is never processed. -/
def secondFragmentName (o : Orders) (f1 f2 : String) : Outcome String :=
  match (processSteps o [] (parsed f1) 1).result with
  | Outcome.ok _ =>
    generateIUPACNameForGraph o ((processSteps o [] (parsed f1) 1).graph []) (parsed f2)
  | Outcome.nullString => Outcome.nullString
  | Outcome.outOfRange => Outcome.outOfRange
  | Outcome.outOfFuel => Outcome.outOfFuel

/-- The name of a fragment processed alone in mode 2 on an empty adjacency. -/
def fragmentNameAlone (o : Orders) (f : String) : Outcome String :=
  generateIUPACNameForGraph o [] (parsed f)

/-- The text after "IUPAC NAME: " that the ether path of `main` prints for the two
fragment names. -/
def etherName (name1 name2 : String) : String :=
  if lexLess name2.data name1.data then name2 ++ " " ++ name1 ++ " ether"
  else name1 ++ " " ++ name2 ++ " ether"

/-! ## Checks that settle a call for every iteration order -/

/-- The relabelled name `label + to_string(id)` of an atom of the parse graph. -/
def formattedLabel (p : Nat × CarbonNode) : String :=
  p.2.label ++ toString p.2.id

/-- A check that decides a property `P` of a call of `processMolecularGraph` for
all iteration orders at once: fewer than two atoms have three bonds, the relabelled
names of the atoms are pairwise different, there is at most one carboxyl node, and
`P` holds of the call for every carbon node taken as `carbonNodes[0]`. -/
def orderCheck (graph : Adjacency) (g : MolecularGraph) (hint : Nat) (P : Processed → Bool) :
    Bool :=
  decide ((g.carbons.filter (fun p => p.2.getTotalBonds = 3)).length < 2) &&
  match g.printEdges with
  | none => P (Processed.thrown graph)
  | some g1 =>
    if carbonNodesOf (Traversal.insertion _) (internEdges graph g1.input).labelToID = [] then
      P (Processed.noCarbon (internEdges graph g1.input))
    else
      decide ((g1.carbons.map formattedLabel).Nodup) &&
      decide ((internEdges graph g1.input).coohNodes.length ≤ 1) &&
      (carbonNodesOf (Traversal.insertion _) (internEdges graph g1.input).labelToID).all
        (fun start => P (Processed.ofOutcome (internEdges graph g1.input)
          (nameInterned Orders.insertion g1 hint (internEdges graph g1.input) [start])))

/-- Whether the call returned a name and `Q` holds of what it computed. -/
def Processed.namedWith (Q : Naming → Bool) : Processed → Bool
  | Processed.named naming => Q naming
  | _ => false

/-- The formula that consists of `n` characters C. -/
def carbonRun (n : Nat) : String :=
  String.mk (List.replicate n 'C')

/-! ## The name as a function of the branch entries along the chain -/

/-- The tokens of `branchTokens`, computed from the list of the branch entries of
the chain atoms (`none` for an atom without a key in `branchInfo`). -/
def tokensOfEntries : List (Option (List (Int × Int))) → Nat → List String
  | [], _ => []
  | found :: rest, i =>
    (match found with
      | some entries =>
        entries.map (fun branch => toString (i + 1) ++ "-" ++ formatBranchName branch.1 branch.2)
      | none => [])
    ++ tokensOfEntries rest (i + 1)

/-- The name `generateIUPACName` builds for a chain of `numCarbons` atoms whose
branch entries along the chain are `found`. -/
def nameOfEntries (numCarbons : Nat) (found : List (Option (List (Int × Int)))) (counter : Nat) :
    String :=
  let chainName := stemName numCarbons ++ suffixName counter
  let finalName := joinBranches (combineBranches (sortBranches (tokensOfEntries found 0)))
  if finalName ≠ "" then finalName ++ chainName else chainName

/-- The branch entries along a chain of `n` atoms with one methyl at position `p`,
one at position `q` and nothing else. -/
def dimethylEntries (n p q : Nat) : List (Option (List (Int × Int))) :=
  (List.range n).map (fun i => if i + 1 = p ∨ i + 1 = q then some [(1, 0)] else none)

/-- The check of the name of every chain of 2 to 10 atoms with methyls at positions
`p < q` up to 9, in every suffix mode. -/
def dimethylCheck : Bool :=
  (List.range 11).all (fun n => (List.range 10).all (fun p => (List.range 10).all (fun q =>
    (List.range 3).all (fun m =>
      decide (2 ≤ n ∧ 1 ≤ p ∧ p < q ∧ q ≤ n →
        nameOfEntries n (dimethylEntries n p q) m
          = "(" ++ toString p ++ "," ++ toString q ++ ")-dimethyl"
            ++ stemName n ++ suffixName m)))))

/-! ## Predicates used by the theorems about the principal chain -/

/-- A node the chain search can step onto: it is not ignored and it occurs as a
neighbour in the adjacency. -/
def Steppable (graph : Adjacency) (ignoredNodes : List Nat) (x : Nat) : Prop :=
  x ∉ ignoredNodes ∧ ∃ u, x ∈ neighbors graph u

/-- The labels the parser gives to atoms: "C", "COOH", or a fallback symbol, which
never starts with C. -/
def ParserLabel (label : String) : Prop :=
  label = "C" ∨ label = "COOH" ∨ ∃ x rest, label.data = x :: rest ∧ x ≠ 'C'

/-- All stored neighbour entries of the adjacency, with repetitions. -/
def allNeighbors : Adjacency → List Nat
  | [] => []
  | (_, l) :: rest => l ++ allNeighbors rest

/-- The number of stored neighbour entries that are not in `visited`: the measure
that bounds the depth of the chain search. -/
def unvisitedCount (graph : Adjacency) (visited : List Nat) : Nat :=
  ((allNeighbors graph).filter (fun x => decide (x ∉ visited))).length

/-- What the loop "Assign IDs and build graph" maintains from one interned label to
the next, for labels that satisfy `K`: the ids are 0, 1, ... in order of first
appearance, `idToLabel` inverts `labelToID`, and the ignored nodes, the carboxyl
nodes and the nodes of the adjacency are ids of interned labels. -/
structure InternCore (K : String → Prop) (st : Interned) : Prop where
  ids : st.labelToID.map Prod.snd = List.range st.currentID
  toLabel : ∀ p ∈ st.labelToID, mapFind st.idToLabel p.2 = some p.1
  known : ∀ p ∈ st.labelToID, K p.1
  ignoredSound : ∀ p ∈ st.labelToID, p.2 ∈ st.ignoredNodes → p.1.data.head? ≠ some 'C'
  ignoredKnown : ∀ i ∈ st.ignoredNodes, ∃ p ∈ st.labelToID, p.2 = i
  cooh : ∀ c ∈ st.coohNodes, ∃ p ∈ st.labelToID, p.2 = c ∧ isCOOHGroup p.1 = true
  graph : ∀ v ∈ allNeighbors st.graph, ∃ p ∈ st.labelToID, p.2 = v

/-- What holds after every whole iteration of the loop: `InternCore`, and every
interned label that does not start with C has its id in `ignoredNodes`. -/
structure InternInv (K : String → Prop) (st : Interned) : Prop where
  core : InternCore K st
  ignoredComplete : ∀ p ∈ st.labelToID, p.1.data.head? ≠ some 'C' → p.2 ∈ st.ignoredNodes

/-- The relabelled names that `printEdges` forms from the atoms `carbons`: the label
of an atom followed by its key. -/
def AtomLabel (carbons : List (Nat × CarbonNode)) (label : String) : Prop :=
  ∃ k c, mapFind carbons k = some c ∧ label = c.label ++ toString k

/-- Every atom of the graph has a label the parser gives. -/
def ParserLabels (g : MolecularGraph) : Prop :=
  ∀ p ∈ g.carbons, ParserLabel p.2.label

/-- Every endpoint of an edge of the graph is the key of an atom. -/
def EdgesHaveAtoms (g : MolecularGraph) : Prop :=
  ∀ e ∈ g.edges, (mapFind g.carbons e.1).isSome = true ∧ (mapFind g.carbons e.2).isSome = true

/-- A simple path that `dfsWithConditions(node, visited, ignoredNodes)` may return:
it starts with `node`, repeats no node, every node is in the adjacency vector of
the one before it, and every node after the first is neither visited nor ignored. -/
def ValidPath (graph : Adjacency) (ignoredNodes visited : List Nat) (node : Nat)
    (path : List Nat) : Prop :=
  path.head? = some node
  ∧ path.Nodup
  ∧ List.Chain' (fun x y => y ∈ neighbors graph x) path
  ∧ ∀ x ∈ path.tail, x ∉ visited ∧ x ∉ ignoredNodes

/-- A simple path of the adjacency restricted to the non-ignored nodes, possibly
empty: no node is repeated, every node is in the adjacency vector of the one before
it, and no node is ignored. -/
def SimplePath (graph : Adjacency) (ignoredNodes : List Nat) (p : List Nat) : Prop :=
  p.Nodup ∧ List.Chain' (fun x y => y ∈ neighbors graph x) p ∧ ∀ x ∈ p, x ∉ ignoredNodes

/-- A carbon chain: a simple path with at least one node. -/
def CarbonPath (graph : Adjacency) (ignoredNodes : List Nat) (p : List Nat) : Prop :=
  p ≠ [] ∧ SimplePath graph ignoredNodes p

/-- The adjacency restricted to the non-ignored nodes is a tree: bonds are stored in
both directions, any two non-ignored nodes that occur in the adjacency are joined by
a carbon chain (connected), and two carbon chains with the same first and the same
last node are equal (acyclic). -/
structure IsCarbonTree (graph : Adjacency) (ignoredNodes : List Nat) : Prop where
  symmetric : ∀ x y, x ∉ ignoredNodes → y ∉ ignoredNodes →
    y ∈ neighbors graph x → x ∈ neighbors graph y
  connected : ∀ u v, u ∉ ignoredNodes → v ∉ ignoredNodes →
    u ∈ allNeighbors graph → v ∈ allNeighbors graph →
    ∃ p, CarbonPath graph ignoredNodes p ∧ p.head? = some u ∧ p.getLast? = some v
  acyclic : ∀ p q, CarbonPath graph ignoredNodes p → CarbonPath graph ignoredNodes q →
    p.head? = q.head? → p.getLast? = q.getLast? → p = q

/-- The adjacency that `processMolecularGraph` builds for the formula "CC(C)C": the
bonds 0-1, 1-2 and 1-3 of a branched chain. -/
def isobutaneAdjacency : Adjacency :=
  addEdge (addEdge (addEdge [] 0 1) 1 2) 1 3

/-! ## Notions the statements about the branch counter use -/

/-- A label that is the letter C followed only by decimal digits. -/
def CarbonLabel (label : String) : Prop :=
  ∃ digits : List Char, label.data = 'C' :: digits ∧ ∀ d ∈ digits, d.isDigit = true

/-- The node `x` can be reached from `start` along a path of stored neighbour
entries none of whose nodes is on the main chain. -/
def BranchReachable (graph : Adjacency) (mainChainNodes : List Nat) (start x : Nat) : Prop :=
  ∃ p : List Nat, p.head? = some start ∧ p.getLast? = some x
    ∧ List.Chain' (fun a b => b ∈ neighbors graph a) p ∧ ∀ y ∈ p, y ∉ mainChainNodes

/-- Whether `countBranchCarbons` adds one to `carbonCount` when it pops `x`: the
first label test of its loop, applied to the label of `x`. -/
def countsAsCarbon (idToLabel : List (Nat × String)) (x : Nat) : Bool :=
  match mapFind idToLabel x with
  | some label => label.data.head? = some 'C' ∧ (label.data.drop 1).all Char.isDigit
  | none => false

/-- A branch with a doubled bond: the adjacency after `addEdge(0, 1)`, `addEdge(1, 2)`,
`addEdge(1, 2)` and `addEdge(2, 3)`. -/
def doubledBondAdjacency : Adjacency :=
  addEdge (addEdge (addEdge (addEdge [] 0 1) 1 2) 1 2) 2 3

/-! ## Notions the statements about the parsed graph use -/

/-- What the parser maintains about the graph under construction, with `bound` an
exclusive upper bound of the larger endpoints of the edges made so far: the atom
keys are 1, 2, ... in creation order up to `counter - 1`, every edge joins an
existing atom to a later one, and no atom is the later end of two edges. -/
structure ForestUpTo (g : MolecularGraph) (bound : Nat) : Prop where
  keys : g.carbons.map Prod.fst = List.range' 1 (g.counter - 1)
  counter_pos : 1 ≤ g.counter
  bound_le : bound ≤ g.counter
  edge_order : ∀ e ∈ g.edges, 1 ≤ e.1 ∧ e.1 < e.2 ∧ e.2 < bound
  larger_once : (g.edges.map Prod.snd).Nodup

/-- The loop invariant of the parser: the graph is a forest on the atoms made so
far, and `previousCarbon` and the saved branch points are 0 or atoms made so far. -/
structure ParserInv (st : ParseState) : Prop where
  forest : ForestUpTo st.graph st.graph.counter
  previous : st.previousCarbon < st.graph.counter
  branch : ∀ x ∈ st.branchPoints, x < st.graph.counter

/-- Two atoms are bonded when the edge list holds the pair in either order. -/
def Bonded (edges : List (Nat × Nat)) (x y : Nat) : Prop :=
  (x, y) ∈ edges ∨ (y, x) ∈ edges

/-- A cycle of the undirected graph of an edge list: at least three pairwise
different atoms, each bonded to the next and the last bonded to the first. -/
def IsCycle (edges : List (Nat × Nat)) (c : List Nat) : Prop :=
  3 ≤ c.length ∧ c.Nodup ∧ List.Chain' (Bonded edges) c
    ∧ ∀ x ∈ c.head?, ∀ y ∈ c.getLast?, Bonded edges y x

/-! ## Theorems: parser -/

/-- C2: for every halogen symbol X of Cl, Br, F, I, parsing "CH3CH2" followed by X
creates exactly the atoms 1 and 2, both labelled "C", and the single edge (1,2);
atom 1 stores 3 hydrogens and no halogen bond, atom 2 stores 2 hydrogens and exactly
one halogen bond, and the halogen gets no atom of its own. -/
theorem parse_ethyl_halide (X : String) (hX : X ∈ ["Cl", "Br", "F", "I"]) :
    (parsed ("CH3CH2" ++ X)).carbons.map
        (fun p => (p.1, p.2.id, p.2.label, p.2.C_H_bonds, p.2.C_X_bonds))
      = [(1, 1, "C", 3, 0), (2, 2, "C", 2, 1)]
    ∧ (parsed ("CH3CH2" ++ X)).edges = [(1, 2)] := by
  simp only [List.mem_cons, List.mem_singleton, List.not_mem_nil, or_false] at hX
  rcases hX with h | h | h | h <;> subst h <;> decide

theorem parse_ethyl_halide_witness :
    (parsed ("CH3CH2" ++ "F")).carbons.map
        (fun p => (p.1, p.2.id, p.2.label, p.2.C_H_bonds, p.2.C_X_bonds))
      = [(1, 1, "C", 3, 0), (2, 2, "C", 2, 1)]
    ∧ (parsed ("CH3CH2" ++ "F")).edges = [(1, 2)] :=
  parse_ethyl_halide "F" (by decide)

/-! ## Theorems: chain orienter -/

theorem lexLess_total : ∀ (a b : List Nat),
    lexLess a b = false → lexLess b a = true ∨ b = a
  | [], [] => fun _ => Or.inr rfl
  | [], _ :: _ => fun h => by simp [lexLess] at h
  | _ :: _, [] => fun _ => Or.inl (by simp [lexLess])
  | x :: xs, y :: ys => fun h => by
    simp only [lexLess] at h ⊢
    by_cases hxy : x < y
    · simp [hxy] at h
    · by_cases hyx : y < x
      · simp [hyx]
      · have hEq : x = y := by omega
        subst hEq
        simp only [hxy, if_false] at h ⊢
        rcases lexLess_total xs ys h with h1 | h1
        · exact Or.inl h1
        · exact Or.inr (by rw [h1])

/-- C5: the chain that `getOptimalChainDirection` returns has locants that are
lexicographically less than or equal to those of its reversal, for every chain and
every branch-record map; and for a chain of four atoms whose only branched atom is
the third, the reversed chain is returned, so that the branch gets locant 2 and not
3. -/
theorem optimal_direction_lowest_locants (chain : List Nat) (branchInfo : BranchInfo) :
    (lexLess (leftLocants (getOptimalChainDirection chain branchInfo) branchInfo)
        (leftLocants (getOptimalChainDirection chain branchInfo).reverse branchInfo) = true
      ∨ leftLocants (getOptimalChainDirection chain branchInfo) branchInfo
        = leftLocants (getOptimalChainDirection chain branchInfo).reverse branchInfo)
    ∧ ∀ a b c d : Nat, (mapFind branchInfo c).isSome = true →
        mapFind branchInfo a = none → mapFind branchInfo b = none →
        mapFind branchInfo d = none →
        getOptimalChainDirection [a, b, c, d] branchInfo = [d, c, b, a]
        ∧ leftLocants [d, c, b, a] branchInfo = [2]
        ∧ leftLocants [a, b, c, d] branchInfo = [3] := by
  refine ⟨?_, ?_⟩
  · unfold getOptimalChainDirection
    by_cases h : lexLess (leftLocants chain branchInfo) (rightLocants chain branchInfo) = true
    · rw [if_pos h]
      exact Or.inl h
    · rw [if_neg h, List.reverse_reverse]
      have h1 : lexLess (leftLocants chain branchInfo) (rightLocants chain branchInfo) = false := by
        simpa using h
      exact lexLess_total _ _ h1
  · intro a b c d hc ha hb hd
    refine ⟨?_, ?_, ?_⟩
    · simp [getOptimalChainDirection, leftLocants, rightLocants, locantsFrom, ha, hb, hc, hd,
        lexLess]
    · simp [leftLocants, locantsFrom, ha, hb, hc, hd]
    · simp [leftLocants, locantsFrom, ha, hb, hc, hd]

theorem optimal_direction_lowest_locants_witness :
    getOptimalChainDirection [5, 6, 7, 8] [(7, [(1, 0)])] = [8, 7, 6, 5]
    ∧ leftLocants [8, 7, 6, 5] [(7, [(1, 0)])] = [2]
    ∧ leftLocants [5, 6, 7, 8] [(7, [(1, 0)])] = [3] :=
  (optimal_direction_lowest_locants [5, 6, 7, 8] [(7, [(1, 0)])]).2 5 6 7 8
    (by decide) (by decide) (by decide) (by decide)

theorem ringCandidates_length (t : Traversal (Nat × CarbonNode)) (g : MolecularGraph) :
    (((t.order g.carbons).filter (fun p => p.2.getTotalBonds = 3)).map (fun p => p.1)).length
      = (g.carbons.filter (fun p => p.2.getTotalBonds = 3)).length := by
  rw [List.length_map]
  exact ((t.order_perm g.carbons).filter _).length_eq

theorem hasCyclicEdge_fst_of_two (t : Traversal (Nat × CarbonNode)) (g : MolecularGraph)
    (h : 2 ≤ (g.carbons.filter (fun p => p.2.getTotalBonds = 3)).length) :
    (g.hasCyclicEdge t).1 = true := by
  have hlen := ringCandidates_length t g
  unfold MolecularGraph.hasCyclicEdge
  generalize (((t.order g.carbons).filter (fun p => p.2.getTotalBonds = 3)).map
    (fun p => p.1)) = candidates at hlen
  match candidates, hlen with
  | [], hlen => simp at hlen; omega
  | [_], hlen => simp at hlen; omega
  | _ :: _ :: _, _ => rfl

theorem hasCyclicEdge_of_lt_two (t : Traversal (Nat × CarbonNode)) (g : MolecularGraph)
    (h : (g.carbons.filter (fun p => p.2.getTotalBonds = 3)).length < 2) :
    g.hasCyclicEdge t = (false, g) := by
  have hlen := ringCandidates_length t g
  unfold MolecularGraph.hasCyclicEdge
  generalize (((t.order g.carbons).filter (fun p => p.2.getTotalBonds = 3)).map
    (fun p => p.1)) = candidates at hlen
  match candidates, hlen with
  | [], _ => rfl
  | [_], _ => rfl
  | _ :: _ :: _, hlen => simp at hlen; omega

/-- C8 fails: whenever at least two atoms of the graph have total bond count exactly
3, for example in the parse of "CH2CH2", `processMolecularGraph` leaves through its
`return 0;`, which constructs the returned string from a null pointer and throws.
The call returns nothing, neither a name nor a designated no-name result, and in the
ether path a second fragment is never processed. The call stops right after the ring
heuristic, so no chain search and no name synthesis took place. -/
theorem ring_exit_throws (o : Orders) (graph : Adjacency) (g : MolecularGraph) (hint : Nat)
    (h : 2 ≤ (g.carbons.filter (fun p => p.2.getTotalBonds = 3)).length) :
    processMolecularGraph o graph g hint = Outcome.nullString
    ∧ (∀ name, processMolecularGraph o graph g hint ≠ Outcome.ok name)
    ∧ processSteps o graph g hint = Processed.ring (g.hasCyclicEdge o.atoms).2
    ∧ (∀ f1 f2, parsed f1 = g → secondFragmentName o f1 f2 = Outcome.nullString) := by
  have hring : ∀ (graph : Adjacency) (hint : Nat),
      processSteps o graph g hint = Processed.ring (g.hasCyclicEdge o.atoms).2 := by
    intro graph hint
    unfold processSteps
    simp [hasCyclicEdge_fst_of_two o.atoms g h]
  have hres : processMolecularGraph o graph g hint = Outcome.nullString := by
    rw [processMolecularGraph, hring]
    rfl
  refine ⟨hres, ?_, hring graph hint, ?_⟩
  · intro name hname
    rw [hres] at hname
    exact absurd hname (by simp)
  · intro f1 f2 hf
    rw [secondFragmentName, hf, hring]
    rfl

theorem ring_exit_throws_witness :
    processMolecularGraph Orders.insertion [] (parsed "CH2CH2") 0 = Outcome.nullString
    ∧ (∀ name, processMolecularGraph Orders.insertion [] (parsed "CH2CH2") 0
        ≠ Outcome.ok name)
    ∧ processSteps Orders.insertion [] (parsed "CH2CH2") 0
      = Processed.ring ((parsed "CH2CH2").hasCyclicEdge Orders.insertion.atoms).2
    ∧ (∀ f1 f2, parsed f1 = parsed "CH2CH2" →
        secondFragmentName Orders.insertion f1 f2 = Outcome.nullString) :=
  ring_exit_throws Orders.insertion [] (parsed "CH2CH2") 0 (by decide)

/-! ## Theorems: independence of the iteration order -/

theorem find?_perm_of_unique {α : Type} (p : α → Bool) {l1 l2 : List α} (hp : l1.Perm l2)
    (hu : ∀ x ∈ l1, ∀ y ∈ l1, p x = true → p y = true → x = y) :
    l1.find? p = l2.find? p := by
  cases h1 : l1.find? p with
  | none =>
    symm
    rw [List.find?_eq_none] at h1 ⊢
    intro x hx
    exact h1 x (hp.mem_iff.mpr hx)
  | some x =>
    have hx : p x = true := List.find?_some h1
    have hxm : x ∈ l1 := List.mem_of_find?_eq_some h1
    cases h2 : l2.find? p with
    | none =>
      rw [List.find?_eq_none] at h2
      exact absurd hx (h2 x (hp.mem_iff.mp hxm))
    | some y =>
      have hy : p y = true := List.find?_some h2
      have hym : y ∈ l1 := hp.mem_iff.mpr (List.mem_of_find?_eq_some h2)
      rw [hu x hxm y hym hx hy]

theorem findGraphAtom_perm {atoms1 atoms2 : List (Nat × CarbonNode)} (hp : atoms1.Perm atoms2)
    (hd : (atoms2.map formattedLabel).Nodup) (atomLabel : String) :
    findGraphAtom atoms1 atomLabel = findGraphAtom atoms2 atomLabel := by
  unfold findGraphAtom
  have hd1 : (atoms1.map formattedLabel).Nodup := (hp.map formattedLabel).nodup_iff.mpr hd
  rw [find?_perm_of_unique _ hp]
  intro x hx y hy hpx hpy
  apply List.inj_on_of_nodup_map hd1 hx hy
  simp only [decide_eq_true_eq] at hpx hpy
  simp only [formattedLabel]
  rw [hpx, hpy]

theorem classifyBranches_congr (atoms1 atoms2 : List (Nat × CarbonNode)) (graph1 : MolecularGraph)
    (graph : Adjacency) (ignoredNodes longestChain : List Nat)
    (h : ∀ atomLabel, findGraphAtom atoms1 atomLabel = findGraphAtom atoms2 atomLabel) :
    ∀ (rest : List Nat) (idToLabel : List (Nat × String)) (branchInfo : BranchInfo),
      classifyBranches atoms1 graph1 graph ignoredNodes longestChain rest idToLabel branchInfo
        = classifyBranches atoms2 graph1 graph ignoredNodes longestChain rest idToLabel branchInfo
  | [], _, _ => rfl
  | atom :: rest, idToLabel, branchInfo => by
    simp only [classifyBranches, halogenBranch, h]
    have ih := classifyBranches_congr atoms1 atoms2 graph1 graph ignoredNodes longestChain h rest
    split
    · exact ih _ _
    all_goals rfl

theorem order_of_short {α : Type} (t : Traversal α) (l : List α) (h : l.length ≤ 1) :
    t.order l = l := by
  have hp := t.order_perm l
  match l, h with
  | [], _ => exact List.perm_nil.mp hp
  | [a], _ => exact List.perm_singleton.mp hp

theorem carbonNodesOf_perm (t : Traversal (String × Nat)) (labelToID : List (String × Nat)) :
    (carbonNodesOf t labelToID).Perm (carbonNodesOf (Traversal.insertion _) labelToID) := by
  unfold carbonNodesOf
  exact ((t.order_perm labelToID).filter _).map _

theorem nameInterned_eq_insertion (o : Orders) (graph1 : MolecularGraph) (hint : Nat)
    (st : Interned) (carbonNodes : List Nat)
    (hd : (graph1.carbons.map formattedLabel).Nodup) (hc : st.coohNodes.length ≤ 1) :
    nameInterned o graph1 hint st carbonNodes
      = nameInterned Orders.insertion graph1 hint st [carbonNodes.headD 0] := by
  have hchain : principalChain o st carbonNodes
      = principalChain Orders.insertion st [carbonNodes.headD 0] := by
    unfold principalChain findLongestChainWithCOOH
    rw [order_of_short o.nodes st.coohNodes hc]
    rfl
  have hcls := classifyBranches_congr (o.atoms.order graph1.carbons)
    (Orders.insertion.atoms.order graph1.carbons) graph1 st.graph st.ignoredNodes
  unfold nameInterned
  rw [hchain]
  cases principalChain Orders.insertion st [carbonNodes.headD 0] with
  | none => rfl
  | some res =>
    simp only
    rw [hcls res.1 (fun atomLabel => findGraphAtom_perm (o.atoms.order_perm graph1.carbons) hd
      atomLabel)]

theorem printEdges_carbons (g g1 : MolecularGraph) (h : g.printEdges = some g1) :
    g1.carbons = g.carbons := by
  unfold MolecularGraph.printEdges at h
  split at h
  · simp only [Option.some.injEq] at h
    rw [← h]
  · exact absurd h (by simp)

/-- If `orderCheck` accepts `P` for a call, then `P` holds of that call whatever the
iteration orders are. -/
theorem processSteps_of_orderCheck (o : Orders) (graph : Adjacency) (g : MolecularGraph)
    (hint : Nat) (P : Processed → Bool) (h : orderCheck graph g hint P = true) :
    P (processSteps o graph g hint) = true := by
  unfold orderCheck at h
  rw [Bool.and_eq_true, decide_eq_true_eq] at h
  obtain ⟨hring, h⟩ := h
  unfold processSteps
  rw [hasCyclicEdge_of_lt_two o.atoms g hring]
  simp only [Bool.false_eq_true, if_false]
  cases hpe : g.printEdges with
  | none => simpa [hpe] using h
  | some g1 =>
    simp only [hpe] at h ⊢
    have hperm := carbonNodesOf_perm o.labels (internEdges graph g1.input).labelToID
    by_cases hnil : carbonNodesOf (Traversal.insertion _)
        (internEdges graph g1.input).labelToID = []
    · rw [if_pos hnil] at h
      rw [hnil] at hperm
      rw [if_pos (List.perm_nil.mp hperm)]
      exact h
    · rw [if_neg hnil] at h
      have hne : carbonNodesOf o.labels (internEdges graph g1.input).labelToID ≠ [] := by
        intro hc
        rw [hc] at hperm
        exact hnil (List.nil_perm.mp hperm)
      rw [if_neg hne]
      simp only [Bool.and_eq_true, decide_eq_true_eq, List.all_eq_true] at h
      obtain ⟨⟨hd, hc⟩, hall⟩ := h
      rw [nameInterned_eq_insertion o g1 hint _ _ hd hc]
      apply hall
      apply hperm.mem_iff.mp
      cases hcn : carbonNodesOf o.labels (internEdges graph g1.input).labelToID with
      | nil => exact absurd hcn hne
      | cons a rest => simp

/-! ## Theorems: names of concrete formulas, for every iteration order -/

theorem namedWith_elim (r : Processed) (Q : Naming → Bool) (h : r.namedWith Q = true) :
    ∃ naming, r = Processed.named naming ∧ Q naming = true := by
  cases r with
  | named naming => exact ⟨naming, rfl, h⟩
  | ring _ => exact absurd h (by simp [Processed.namedWith])
  | thrown _ => exact absurd h (by simp [Processed.namedWith])
  | noFuel _ => exact absurd h (by simp [Processed.namedWith])
  | noCarbon _ => exact absurd h (by simp [Processed.namedWith])

/-- C1 fails for n = 1: the formula "C" parses to one atom and no edge, the ids are
assigned from the edge list, so no carbon node is found and the call returns the empty
name after "No carbon atoms found in the input" instead of "Methane". No principal
chain is selected. -/
theorem methane_gets_empty_name (o : Orders) :
    (parsed "C").carbons.map (fun p => (p.1, p.2.label)) = [(1, "C")]
    ∧ (parsed "C").edges = []
    ∧ namePlain o "C" = Outcome.ok ""
    ∧ ∃ st, processSteps o [] (parsed "C") 0 = Processed.noCarbon st := by
  have h := processSteps_of_orderCheck o [] (parsed "C") 0
    (fun r => match r with
      | Processed.noCarbon _ => true
      | _ => false) (by decide)
  refine ⟨by decide, by decide, ?_, ?_⟩
  · unfold namePlain processMolecularGraph
    cases hr : processSteps o [] (parsed "C") 0 <;> simp_all [Processed.result]
  · cases hr : processSteps o [] (parsed "C") 0 <;> simp_all

/-- The rest of C1 holds: for n from 2 to 10 the formula of n characters C is named
stem(n) followed by "ane", from a principal chain of exactly n atoms without any
branch entry. -/
theorem alkane_names_from_two (o : Orders) (n : Nat) (h2 : 2 ≤ n) (h10 : n ≤ 10) :
    ∃ naming, processSteps o [] (parsed (carbonRun n)) 0 = Processed.named naming
      ∧ naming.longestChain.length = n ∧ naming.optimalChain.length = n
      ∧ naming.branchInfo = []
      ∧ naming.name = stemName n ++ "ane"
      ∧ namePlain o (carbonRun n) = Outcome.ok (stemName n ++ "ane") := by
  have key : (processSteps o [] (parsed (carbonRun n)) 0).namedWith
      (fun naming => decide (naming.longestChain.length = n ∧ naming.optimalChain.length = n
        ∧ naming.branchInfo = [] ∧ naming.name = stemName n ++ "ane")) = true := by
    apply processSteps_of_orderCheck
    interval_cases n <;> decide!
  obtain ⟨naming, hn, hq⟩ := namedWith_elim _ _ key
  simp only [decide_eq_true_eq] at hq
  refine ⟨naming, hn, hq.1, hq.2.1, hq.2.2.1, hq.2.2.2, ?_⟩
  rw [namePlain, processMolecularGraph, hn, Processed.result, hq.2.2.2]

theorem alkane_names_from_two_witness :
    ∃ naming, processSteps Orders.reversed [] (parsed (carbonRun 4)) 0 = Processed.named naming
      ∧ naming.longestChain.length = 4 ∧ naming.optimalChain.length = 4
      ∧ naming.branchInfo = []
      ∧ naming.name = stemName 4 ++ "ane"
      ∧ namePlain Orders.reversed (carbonRun 4) = Outcome.ok (stemName 4 ++ "ane") :=
  alkane_names_from_two Orders.reversed 4 (by decide) (by decide)

/-- C3 fails for Br, F and I: whichever of the four halogens is written after
"CH3CH2", the branch entry recorded on the second carbon is (0, 1), the kind of
chlorine, at locant 1, and the name returned is "1-chloroEthane". The kind is read
off the label of the carbon atom, which is "C" and never holds a halogen symbol. -/
theorem ethyl_halide_named_chloro (o : Orders) (X : String) (hX : X ∈ ["Cl", "Br", "F", "I"]) :
    ∃ naming, processSteps o [] (parsed ("CH3CH2" ++ X)) 0 = Processed.named naming
      ∧ mapFind naming.idToLabel 1 = some "C2"
      ∧ naming.branchInfo = [(1, [(0, 1)])]
      ∧ naming.optimalChain = [1, 0]
      ∧ naming.name = "1-chloroEthane"
      ∧ namePlain o ("CH3CH2" ++ X) = Outcome.ok "1-chloroEthane" := by
  have key : (processSteps o [] (parsed ("CH3CH2" ++ X)) 0).namedWith
      (fun naming => decide (mapFind naming.idToLabel 1 = some "C2"
        ∧ naming.branchInfo = [(1, [(0, 1)])] ∧ naming.optimalChain = [1, 0]
        ∧ naming.name = "1-chloroEthane")) = true := by
    apply processSteps_of_orderCheck
    simp only [List.mem_cons, List.mem_singleton, List.not_mem_nil, or_false] at hX
    rcases hX with h | h | h | h <;> subst h <;> decide!
  obtain ⟨naming, hn, hq⟩ := namedWith_elim _ _ key
  simp only [decide_eq_true_eq] at hq
  refine ⟨naming, hn, hq.1, hq.2.1, hq.2.2.1, hq.2.2.2, ?_⟩
  rw [namePlain, processMolecularGraph, hn, Processed.result, hq.2.2.2]

theorem ethyl_halide_named_chloro_witness :
    ∃ naming, processSteps Orders.insertion [] (parsed ("CH3CH2" ++ "Br")) 0
        = Processed.named naming
      ∧ mapFind naming.idToLabel 1 = some "C2"
      ∧ naming.branchInfo = [(1, [(0, 1)])]
      ∧ naming.optimalChain = [1, 0]
      ∧ naming.name = "1-chloroEthane"
      ∧ namePlain Orders.insertion ("CH3CH2" ++ "Br") = Outcome.ok "1-chloroEthane" :=
  ethyl_halide_named_chloro Orders.insertion "Br" (by decide)

/-- C4 fails on "COOHCH2CH2Cl": no ring is flagged and the name ends in "oic acid",
but the oriented chain is C3, C2, COOH1, with the COOH atom at position 3 and the
chlorine at locant 1. The example of the claim holds: "COOHCH2CH3" is named
"Propanoic acid" from the oriented chain COOH1, C2, C3. -/
theorem carboxyl_not_always_first (o : Orders) :
    (∃ naming, processSteps o [] (parsed "COOHCH2CH2Cl") 0 = Processed.named naming
      ∧ naming.optimalChain.map (mapFind naming.idToLabel)
        = [some "C3", some "C2", some "COOH1"]
      ∧ naming.name = "1-chloroPropanoic acid")
    ∧ (∃ naming, processSteps o [] (parsed "COOHCH2CH3") 0 = Processed.named naming
      ∧ naming.optimalChain.map (mapFind naming.idToLabel)
        = [some "COOH1", some "C2", some "C3"]
      ∧ naming.name = "Propanoic acid") := by
  have key1 : (processSteps o [] (parsed "COOHCH2CH2Cl") 0).namedWith
      (fun naming => decide (naming.optimalChain.map (mapFind naming.idToLabel)
          = [some "C3", some "C2", some "COOH1"]
        ∧ naming.name = "1-chloroPropanoic acid")) = true :=
    processSteps_of_orderCheck _ _ _ _ _ (by decide!)
  have key2 : (processSteps o [] (parsed "COOHCH2CH3") 0).namedWith
      (fun naming => decide (naming.optimalChain.map (mapFind naming.idToLabel)
          = [some "COOH1", some "C2", some "C3"]
        ∧ naming.name = "Propanoic acid")) = true :=
    processSteps_of_orderCheck _ _ _ _ _ (by decide!)
  obtain ⟨n1, hn1, hq1⟩ := namedWith_elim _ _ key1
  obtain ⟨n2, hn2, hq2⟩ := namedWith_elim _ _ key2
  simp only [decide_eq_true_eq] at hq1 hq2
  exact ⟨⟨n1, hn1, hq1⟩, ⟨n2, hn2, hq2⟩⟩

/-- C10 fails for the fragments "CCC" and "CC": processed alone on an empty
adjacency in mode 2 the second fragment is named "Ethyl", but after "CCC" has been
processed in the same run the adjacency still holds the bond between ids 1 and 2 of
the first fragment, and the second fragment is named "Propyl". -/
theorem second_fragment_depends_on_first (o : Orders) :
    fragmentNameAlone o "CC" = Outcome.ok "Ethyl"
    ∧ secondFragmentName o "CCC" "CC" = Outcome.ok "Propyl"
    ∧ (processSteps o [] (parsed "CCC") 1).graph [] = [(0, [1]), (1, [0, 2]), (2, [1])] := by
  have h0 : (processSteps o [] (parsed "CCC") 1).namedWith
      (fun naming => decide (naming.interned.graph = [(0, [1]), (1, [0, 2]), (2, [1])]))
        = true :=
    processSteps_of_orderCheck _ _ _ _ _ (by decide!)
  obtain ⟨n0, hn0, hq0⟩ := namedWith_elim _ _ h0
  simp only [decide_eq_true_eq] at hq0
  have hg : (processSteps o [] (parsed "CCC") 1).graph [] = [(0, [1]), (1, [0, 2]), (2, [1])] := by
    rw [hn0]
    exact hq0
  have h1 : (processSteps o [] (parsed "CC") 1).namedWith
      (fun naming => decide (naming.name = "Ethyl")) = true :=
    processSteps_of_orderCheck _ _ _ _ _ (by decide!)
  have h2 : (processSteps o [(0, [1]), (1, [0, 2]), (2, [1])] (parsed "CC") 1).namedWith
      (fun naming => decide (naming.name = "Propyl")) = true :=
    processSteps_of_orderCheck _ _ _ _ _ (by decide!)
  obtain ⟨n1, hn1, hq1⟩ := namedWith_elim _ _ h1
  obtain ⟨n2, hn2, hq2⟩ := namedWith_elim _ _ h2
  simp only [decide_eq_true_eq] at hq1 hq2
  refine ⟨?_, ?_, hg⟩
  · rw [fragmentNameAlone, generateIUPACNameForGraph, processMolecularGraph, hn1,
      Processed.result, hq1]
  · have hr : (processSteps o [] (parsed "CCC") 1).result = Outcome.ok n0.name := by
      rw [hn0]
      rfl
    rw [secondFragmentName, hr]
    simp only
    rw [generateIUPACNameForGraph, processMolecularGraph, hg, hn2, Processed.result, hq2]

/-! ## Theorems: name synthesizer -/

theorem branchTokens_eq_tokensOfEntries (branchInfo : BranchInfo) :
    ∀ (chain : List Nat) (i : Nat),
      branchTokens branchInfo chain i = tokensOfEntries (chain.map (mapFind branchInfo)) i
  | [], _ => rfl
  | atom :: rest, i => by
    simp only [branchTokens, List.map_cons, tokensOfEntries,
      branchTokens_eq_tokensOfEntries branchInfo rest (i + 1)]

theorem generateIUPACName_eq_nameOfEntries (chain : List Nat) (branchInfo : BranchInfo)
    (counter : Nat) :
    generateIUPACName chain branchInfo counter
      = nameOfEntries chain.length (chain.map (mapFind branchInfo)) counter := by
  simp only [generateIUPACName, nameOfEntries, branchTokens_eq_tokensOfEntries]

theorem dimethylCheck_holds : dimethylCheck = true := by decide!

theorem entries_of_two_methyls (chain : List Nat) (branchInfo : BranchInfo) (p q a b : Nat)
    (hnodup : chain.Nodup) (hp : 1 ≤ p) (hq : 1 ≤ q)
    (ha : chain[p - 1]? = some a) (hb : chain[q - 1]? = some b)
    (hba : mapFind branchInfo a = some [(1, 0)]) (hbb : mapFind branchInfo b = some [(1, 0)])
    (hrest : ∀ c ∈ chain, c ≠ a → c ≠ b → mapFind branchInfo c = none) :
    chain.map (mapFind branchInfo) = dimethylEntries chain.length p q := by
  apply List.ext_getElem?
  intro i
  simp only [dimethylEntries, List.getElem?_map]
  by_cases hi : i < chain.length
  · obtain ⟨hpl, hpa⟩ := List.getElem?_eq_some.mp ha
    obtain ⟨hql, hqb⟩ := List.getElem?_eq_some.mp hb
    rw [List.getElem?_eq_getElem hi, List.getElem?_range hi]
    simp only [Option.map_some']
    congr 1
    by_cases h1 : i + 1 = p
    · have : chain[i] = a := by
        rw [← hpa]
        congr 1
        omega
      simp [h1, this, hba]
    · by_cases h2 : i + 1 = q
      · have : chain[i] = b := by
          rw [← hqb]
          congr 1
          omega
        simp [h2, this, hbb]
      · have hna : chain[i] ≠ a := by
          intro hc
          rw [← hpa] at hc
          have := (hnodup.getElem_inj_iff).mp hc
          omega
        have hnb : chain[i] ≠ b := by
          intro hc
          rw [← hqb] at hc
          have := (hnodup.getElem_inj_iff).mp hc
          omega
        simp [h1, h2, hrest chain[i] (List.getElem_mem hi) hna hnb]
  · have hge : chain.length ≤ i := Nat.le_of_not_lt hi
    rw [List.getElem?_eq_none hge, List.getElem?_eq_none (by simpa using hge)]
    rfl

/-- C7: on a chain of n pairwise distinct atoms, 2 <= n <= 10, with exactly one
methyl entry (1, 0) on the atom at position p, exactly one on the atom at position q,
1 <= p < q <= min(n, 9), and no entry on any other chain atom, `generateIUPACName`
returns "(p,q)-dimethyl" directly followed by stem(n) and the suffix of mode m, for
every mode m of 0, 1, 2. -/
theorem two_methyls_combine (chain : List Nat) (branchInfo : BranchInfo) (m p q a b : Nat)
    (hnodup : chain.Nodup) (hn2 : 2 ≤ chain.length) (hn10 : chain.length ≤ 10) (hm : m ≤ 2)
    (hp : 1 ≤ p) (hpq : p < q) (hqn : q ≤ chain.length) (hq9 : q ≤ 9)
    (ha : chain[p - 1]? = some a) (hb : chain[q - 1]? = some b)
    (hba : mapFind branchInfo a = some [(1, 0)]) (hbb : mapFind branchInfo b = some [(1, 0)])
    (hrest : ∀ c ∈ chain, c ≠ a → c ≠ b → mapFind branchInfo c = none) :
    generateIUPACName chain branchInfo m
      = "(" ++ toString p ++ "," ++ toString q ++ ")-dimethyl"
        ++ stemName chain.length ++ suffixName m := by
  rw [generateIUPACName_eq_nameOfEntries,
    entries_of_two_methyls chain branchInfo p q a b hnodup hp (by omega) ha hb hba hbb hrest]
  have h := dimethylCheck_holds
  simp only [dimethylCheck, List.all_eq_true, List.mem_range, decide_eq_true_eq] at h
  exact h chain.length (by omega) p (by omega) q (by omega) m (by omega) ⟨hn2, hp, hpq, hqn⟩

theorem two_methyls_combine_witness :
    generateIUPACName [5, 6, 7, 8] [(6, [(1, 0)]), (7, [(1, 0)])] 0 = "(2,3)-dimethylButane" :=
  (two_methyls_combine [5, 6, 7, 8] [(6, [(1, 0)]), (7, [(1, 0)])] 0 2 3 6 7
    (by decide) (by decide) (by decide) (by decide) (by decide) (by decide) (by decide)
    (by decide) (by decide) (by decide) (by decide) (by decide) (by decide)).trans (by decide)

/-! ## Theorems: the chain search only steps onto non-ignored neighbours -/

theorem dfsLoop_path (graph : Adjacency) (ignoredNodes : List Nat)
    (recurse : Nat → List Nat → Option ((Nat × List Nat) × List Nat)) (node : Nat)
    (hrec : ∀ n vis r vis1, recurse n vis = some (r, vis1) →
      ∀ x ∈ r.2, x = n ∨ Steppable graph ignoredNodes x) :
    ∀ (nbrs : List Nat) (best : Nat × List Nat) (vis : List Nat)
      (out : (Nat × List Nat) × List Nat),
      (∀ nb ∈ nbrs, nb ∈ neighbors graph node) →
      (∀ x ∈ best.2, x = node ∨ Steppable graph ignoredNodes x) →
      dfsLoop recurse ignoredNodes node nbrs best vis = some out →
      ∀ x ∈ out.1.2, x = node ∨ Steppable graph ignoredNodes x
  | [], best, vis, out, _, hb, h => by
    simp only [dfsLoop, Option.some.injEq] at h
    subst h
    exact hb
  | nb :: rest, best, vis, out, hn, hb, h => by
    have hrest : ∀ x ∈ rest, x ∈ neighbors graph node :=
      fun x hx => hn x (List.mem_cons_of_mem nb hx)
    unfold dfsLoop at h
    split at h
    · rename_i hcond
      split at h
      · exact absurd h (by simp)
      · rename_i res vis1 hres
        have hnb : Steppable graph ignoredNodes nb :=
          ⟨hcond.2, node, hn nb (List.mem_cons_self nb rest)⟩
        split at h
        · refine dfsLoop_path graph ignoredNodes recurse node hrec rest _ _ out hrest ?_ h
          intro x hx
          rcases List.mem_cons.mp hx with hx | hx
          · exact Or.inl hx
          · rcases hrec nb vis res vis1 hres x hx with hx | hx
            · exact Or.inr (hx ▸ hnb)
            · exact Or.inr hx
        · exact dfsLoop_path graph ignoredNodes recurse node hrec rest _ _ out hrest hb h
    · exact dfsLoop_path graph ignoredNodes recurse node hrec rest _ _ out hrest hb h

theorem dfsWithConditions_path (graph : Adjacency) (ignoredNodes : List Nat) :
    ∀ (fuel node : Nat) (vis : List Nat) (r : Nat × List Nat) (vis1 : List Nat),
      dfsWithConditions graph ignoredNodes fuel node vis = some (r, vis1) →
      ∀ x ∈ r.2, x = node ∨ Steppable graph ignoredNodes x
  | 0, _, _, _, _, h => by simp [dfsWithConditions] at h
  | fuel + 1, node, vis, r, vis1, h => by
    unfold dfsWithConditions at h
    split at h
    · exact absurd h (by simp)
    · rename_i best vis2 hloop
      simp only [Option.some.injEq, Prod.mk.injEq] at h
      rw [← h.1]
      exact dfsLoop_path graph ignoredNodes _ node
        (dfsWithConditions_path graph ignoredNodes fuel) (neighbors graph node) (0, [node]) _
        (best, vis2) (fun _ hnb => hnb) (fun x hx => Or.inl (by simpa using hx)) hloop

theorem getLastD_mem_cons : ∀ (l : List Nat) (a : Nat), l.getLastD a ∈ a :: l
  | [], a => by simp
  | b :: l, a => by
    rw [List.getLastD_cons]
    exact List.mem_cons_of_mem a (getLastD_mem_cons l b)

theorem findLongestCarbonChain_path (graph : Adjacency) (ignoredNodes : List Nat)
    (startNode : Nat) (chain : List Nat)
    (h : findLongestCarbonChain graph startNode ignoredNodes = some chain) :
    ∀ x ∈ chain, x = startNode ∨ Steppable graph ignoredNodes x := by
  unfold findLongestCarbonChain at h
  split at h
  · exact absurd h (by simp)
  · rename_i res1 vis1 h1
    simp only at h
    split at h
    · exact absurd h (by simp)
    · rename_i res2 vis2 h2
      simp only [Option.some.injEq] at h
      subst h
      have hp1 := dfsWithConditions_path graph ignoredNodes _ _ _ _ _ h1
      have hfar : res1.2.getLastD startNode = startNode
          ∨ Steppable graph ignoredNodes (res1.2.getLastD startNode) := by
        cases hl : res1.2 with
        | nil => exact Or.inl rfl
        | cons a l =>
          apply hp1
          rw [hl, List.getLastD_cons]
          exact getLastD_mem_cons l a
      intro x hx
      rcases dfsWithConditions_path graph ignoredNodes _ _ _ _ _ h2 x hx with hx1 | hx1
      · rcases hfar with hf | hf
        · exact Or.inl (hx1.trans hf)
        · exact Or.inr (hx1 ▸ hf)
      · exact Or.inr hx1

theorem coohLoop_path (graph : Adjacency) (ignoredNodes : List Nat) :
    ∀ (order acc chain : List Nat),
      coohLoop graph ignoredNodes order acc = some chain →
      ∀ x ∈ chain, x ∈ acc ∨ x ∈ order ∨ Steppable graph ignoredNodes x
  | [], acc, chain, h => by
    simp only [coohLoop, Option.some.injEq] at h
    subst h
    exact fun x hx => Or.inl hx
  | c :: rest, acc, chain, h => by
    unfold coohLoop at h
    split at h
    · exact absurd h (by simp)
    · rename_i res vis1 hres
      have hp := dfsWithConditions_path graph ignoredNodes _ _ _ _ _ hres
      intro x hx
      split at h
      · rcases coohLoop_path graph ignoredNodes rest _ chain h x hx with h1 | h1 | h1
        · rcases hp x h1 with h2 | h2
          · exact Or.inr (Or.inl (h2 ▸ List.mem_cons_self c rest))
          · exact Or.inr (Or.inr h2)
        · exact Or.inr (Or.inl (List.mem_cons_of_mem c h1))
        · exact Or.inr (Or.inr h1)
      · rcases coohLoop_path graph ignoredNodes rest _ chain h x hx with h1 | h1 | h1
        · exact Or.inl h1
        · exact Or.inr (Or.inl (List.mem_cons_of_mem c h1))
        · exact Or.inr (Or.inr h1)

theorem principalChain_path (o : Orders) (st : Interned) (carbonNodes chain : List Nat)
    (counter : Nat) (hne : carbonNodes ≠ [])
    (h : principalChain o st carbonNodes = some (chain, counter)) :
    ∀ x ∈ chain, x ∈ carbonNodes ∨ x ∈ st.coohNodes
      ∨ Steppable st.graph st.ignoredNodes x := by
  unfold principalChain at h
  intro x hx
  split at h
  · unfold findLongestChainWithCOOH at h
    split at h
    · exact absurd h (by simp)
    · rename_i longest hloop
      simp only [Option.map_some', Option.some.injEq, Prod.mk.injEq] at h
      rw [← h.1, List.mem_reverse] at hx
      rcases coohLoop_path st.graph st.ignoredNodes _ _ _ hloop x hx with h1 | h1 | h1
      · exact absurd h1 (List.not_mem_nil x)
      · exact Or.inr (Or.inl ((o.nodes.order_perm st.coohNodes).mem_iff.mp h1))
      · exact Or.inr (Or.inr h1)
  · cases hc : findLongestCarbonChain st.graph (carbonNodes.headD 0) st.ignoredNodes with
    | none => rw [hc] at h; exact absurd h (by simp)
    | some chain1 =>
      rw [hc] at h
      simp only [Option.map_some', Option.some.injEq, Prod.mk.injEq] at h
      rw [← h.1] at hx
      rcases findLongestCarbonChain_path st.graph st.ignoredNodes _ _ hc x hx with h1 | h1
      · refine Or.inl ?_
        rw [h1]
        cases carbonNodes with
        | nil => exact absurd rfl hne
        | cons a l => simp
      · exact Or.inr (Or.inr h1)

/-! ## Theorems: the unordered maps -/

theorem mapFind_mem {β : Type} : ∀ (m : List (Nat × β)) (k : Nat) (v : β),
    mapFind m k = some v → (k, v) ∈ m
  | [], _, _, h => by simp [mapFind] at h
  | (k1, v1) :: rest, k, v, h => by
    unfold mapFind at h
    split at h
    · rename_i hk
      simp only [Option.some.injEq] at h
      rw [← hk, ← h]
      exact List.mem_cons_self _ _
    · exact List.mem_cons_of_mem _ (mapFind_mem rest k v h)

theorem mapFind_mapSet {β : Type} (k : Nat) (v : β) (x : Nat) :
    ∀ (m : List (Nat × β)),
      mapFind (mapSet m k v) x = if x = k then some v else mapFind m x
  | [] => by
    by_cases h : x = k
    · simp [mapSet, mapFind, h]
    · simp [mapSet, mapFind, h, show ¬ k = x from fun hc => h hc.symm]
  | (k1, v1) :: rest => by
    unfold mapSet
    by_cases h1 : k1 = k
    · by_cases h : x = k
      · simp [mapFind, h1, h]
      · simp [mapFind, h1, h, show ¬ k = x from fun hc => h hc.symm]
    · by_cases h2 : k1 = x
      · have hx : ¬ x = k := fun hc => h1 (h2.trans hc)
        simp [mapFind, h1, h2, hx]
      · simp [mapFind, h1, h2, mapFind_mapSet k v x rest]

theorem mapFind_mapModify {β : Type} (dflt : β) (f : β → β) (k : Nat) (x : Nat) :
    ∀ (m : List (Nat × β)),
      mapFind (mapModify dflt f m k) x
        = if x = k then some (f ((mapFind m k).getD dflt)) else mapFind m x
  | [] => by
    by_cases h : x = k
    · simp [mapModify, mapFind, h]
    · simp [mapModify, mapFind, h, show ¬ k = x from fun hc => h hc.symm]
  | (k1, v1) :: rest => by
    unfold mapModify
    by_cases h1 : k1 = k
    · by_cases h : x = k
      · simp [mapFind, h1, h]
      · simp [mapFind, h1, h, show ¬ k = x from fun hc => h hc.symm]
    · by_cases h2 : k1 = x
      · have hx : ¬ x = k := fun hc => h1 (h2.trans hc)
        simp [mapFind, h1, h2, hx]
      · simp [mapFind, h1, h2, mapFind_mapModify dflt f k x rest]

theorem mapSet_forall {β : Type} (Q : β → Prop) (k : Nat) (v : β) (hv : Q v) :
    ∀ (m : List (Nat × β)), (∀ p ∈ m, Q p.2) → ∀ p ∈ mapSet m k v, Q p.2
  | [], _, p, hp => by
    simp only [mapSet, List.mem_singleton] at hp
    rw [hp]
    exact hv
  | (k1, v1) :: rest, hm, p, hp => by
    unfold mapSet at hp
    split at hp
    · rcases List.mem_cons.mp hp with h | h
      · rw [h]
        exact hv
      · exact hm p (List.mem_cons_of_mem _ h)
    · rcases List.mem_cons.mp hp with h | h
      · rw [h]
        exact hm (k1, v1) (List.mem_cons_self _ _)
      · exact mapSet_forall Q k v hv rest (fun q hq => hm q (List.mem_cons_of_mem _ hq)) p h

theorem mapModify_forall {β : Type} (Q : β → Prop) (dflt : β) (f : β → β) (k : Nat)
    (hd : Q (f dflt)) (hf : ∀ c, Q c → Q (f c)) :
    ∀ (m : List (Nat × β)), (∀ p ∈ m, Q p.2) → ∀ p ∈ mapModify dflt f m k, Q p.2
  | [], _, p, hp => by
    simp only [mapModify, List.mem_singleton] at hp
    rw [hp]
    exact hd
  | (k1, v1) :: rest, hm, p, hp => by
    unfold mapModify at hp
    split at hp
    · rcases List.mem_cons.mp hp with h | h
      · rw [h]
        exact hf v1 (hm (k1, v1) (List.mem_cons_self _ _))
      · exact hm p (List.mem_cons_of_mem _ h)
    · rcases List.mem_cons.mp hp with h | h
      · rw [h]
        exact hm (k1, v1) (List.mem_cons_self _ _)
      · exact mapModify_forall Q dflt f k hd hf rest
          (fun q hq => hm q (List.mem_cons_of_mem _ hq)) p h

theorem labelFind_mem : ∀ (m : List (String × Nat)) (label : String) (id : Nat),
    labelFind m label = some id → (label, id) ∈ m
  | [], _, _, h => by simp [labelFind] at h
  | (l, i) :: rest, label, id, h => by
    unfold labelFind at h
    split at h
    · rename_i hl
      simp only [Option.some.injEq] at h
      rw [← hl, ← h]
      exact List.mem_cons_self _ _
    · exact List.mem_cons_of_mem _ (labelFind_mem rest label id h)

theorem labelFind_append (label : String) (id : Nat) (x : String) :
    ∀ (m : List (String × Nat)),
      labelFind (m ++ [(label, id)]) x
        = match labelFind m x with
          | some i => some i
          | none => if label = x then some id else none
  | [] => by simp [labelFind]
  | (l, i) :: rest => by
    by_cases h : l = x
    · simp [labelFind, h]
    · simp [labelFind, h, labelFind_append label id x rest]

theorem mem_neighbors_addEdge (graph : Adjacency) (a b u v : Nat)
    (h : v ∈ neighbors (addEdge graph a b) u) :
    v ∈ neighbors graph u ∨ v = a ∨ v = b := by
  unfold neighbors addEdge at h
  rw [mapFind_mapModify] at h
  unfold neighbors
  by_cases hub : u = b
  · rw [if_pos hub, mapFind_mapModify] at h
    by_cases hba : b = a
    · rw [if_pos hba] at h
      simp only [Option.getD_some, List.mem_append, List.mem_singleton] at h
      rw [hub, hba]
      rcases h with (h | h) | h
      · exact Or.inl h
      · exact Or.inr (Or.inr (h.trans hba))
      · exact Or.inr (Or.inl h)
    · rw [if_neg hba] at h
      simp only [Option.getD_some, List.mem_append, List.mem_singleton] at h
      rw [hub]
      rcases h with h | h
      · exact Or.inl h
      · exact Or.inr (Or.inl h)
  · rw [if_neg hub, mapFind_mapModify] at h
    by_cases hua : u = a
    · rw [if_pos hua] at h
      simp only [Option.getD_some, List.mem_append, List.mem_singleton] at h
      rw [hua]
      rcases h with h | h
      · exact Or.inl h
      · exact Or.inr (Or.inr h)
    · rw [if_neg hua] at h
      exact Or.inl h

theorem mem_allNeighbors_of_mapFind : ∀ (graph : Adjacency) (u : Nat) (l : List Nat),
    mapFind graph u = some l → ∀ x ∈ l, x ∈ allNeighbors graph
  | [], _, _, h => by simp [mapFind] at h
  | (k1, l1) :: rest, u, l, h => by
    unfold mapFind at h
    intro x hx
    unfold allNeighbors
    split at h
    · simp only [Option.some.injEq] at h
      rw [← h] at hx
      exact List.mem_append_left _ hx
    · exact List.mem_append_right _ (mem_allNeighbors_of_mapFind rest u l h x hx)

theorem mem_allNeighbors (graph : Adjacency) (u x : Nat) (h : x ∈ neighbors graph u) :
    x ∈ allNeighbors graph := by
  unfold neighbors at h
  cases hf : mapFind graph u with
  | none =>
    rw [hf] at h
    exact absurd h (List.not_mem_nil x)
  | some l =>
    rw [hf] at h
    exact mem_allNeighbors_of_mapFind graph u l hf x h

theorem mem_allNeighbors_mapModify (c k x : Nat) :
    ∀ (m : Adjacency), x ∈ allNeighbors (mapModify [] (fun l => l ++ [c]) m k) →
      x ∈ allNeighbors m ∨ x = c
  | [], h => by
    simp only [mapModify, allNeighbors, List.nil_append, List.append_nil,
      List.mem_singleton] at h
    exact Or.inr h
  | (k1, l1) :: rest, h => by
    unfold mapModify at h
    split at h
    · simp only [allNeighbors, List.mem_append, List.mem_singleton] at h ⊢
      rcases h with (h | h) | h
      · exact Or.inl (Or.inl h)
      · exact Or.inr h
      · exact Or.inl (Or.inr h)
    · simp only [allNeighbors, List.mem_append] at h ⊢
      rcases h with h | h
      · exact Or.inl (Or.inl h)
      · rcases mem_allNeighbors_mapModify c k x rest h with h1 | h1
        · exact Or.inl (Or.inr h1)
        · exact Or.inr h1

theorem mem_allNeighbors_addEdge (graph : Adjacency) (a b x : Nat)
    (h : x ∈ allNeighbors (addEdge graph a b)) : x ∈ allNeighbors graph ∨ x = a ∨ x = b := by
  unfold addEdge at h
  rcases mem_allNeighbors_mapModify a b x _ h with h1 | h1
  · rcases mem_allNeighbors_mapModify b a x _ h1 with h2 | h2
    · exact Or.inl h2
    · exact Or.inr (Or.inr h2)
  · exact Or.inr (Or.inl h1)

/-! ## Theorems: the loop "Assign IDs and build graph" -/

theorem mem_setInsert (s : List Nat) (x y : Nat) : y ∈ setInsert s x ↔ y ∈ s ∨ y = x := by
  unfold setInsert
  by_cases h : x ∈ s
  · rw [if_pos h]
    constructor
    · exact Or.inl
    · rintro (h1 | h1)
      · exact h1
      · exact h1 ▸ h
  · rw [if_neg h]
    simp

theorem mem_condInsert (c : Prop) [Decidable c] (s : List Nat) (x y : Nat) :
    y ∈ (if c then setInsert s x else s) ↔ y ∈ s ∨ (c ∧ y = x) := by
  by_cases hc : c
  · rw [if_pos hc, mem_setInsert]
    simp [hc]
  · rw [if_neg hc]
    simp [hc]

theorem internCore_inj (K : String → Prop) (st : Interned) (h : InternCore K st) :
    ∀ p ∈ st.labelToID, ∀ q ∈ st.labelToID, p.2 = q.2 → p = q := by
  intro p hp q hq hpq
  have hnodup : (st.labelToID.map Prod.snd).Nodup := by
    rw [h.ids]
    exact List.nodup_range _
  exact List.inj_on_of_nodup_map hnodup hp hq hpq

theorem internCore_lt (K : String → Prop) (st : Interned) (h : InternCore K st) :
    ∀ p ∈ st.labelToID, p.2 < st.currentID := by
  intro p hp
  have hm : p.2 ∈ st.labelToID.map Prod.snd := List.mem_map_of_mem Prod.snd hp
  rw [h.ids] at hm
  exact List.mem_range.mp hm

theorem internLabel_of_some (st : Interned) (node : String) (id : Nat)
    (h : labelFind st.labelToID node = some id) : internLabel st node = st := by
  unfold internLabel
  rw [h]

theorem internLabel_of_none (st : Interned) (node : String)
    (h : labelFind st.labelToID node = none) :
    internLabel st node =
      { st with
        labelToID := st.labelToID ++ [(node, st.currentID)]
        idToLabel := mapSet st.idToLabel st.currentID node
        currentID := st.currentID + 1 } := by
  unfold internLabel
  rw [h]

theorem internLabel_core (K : String → Prop) (st : Interned) (node : String) (hK : K node)
    (h : InternCore K st) :
    InternCore K (internLabel st node)
    ∧ (internLabel st node).graph = st.graph
    ∧ (internLabel st node).coohNodes = st.coohNodes
    ∧ (internLabel st node).ignoredNodes = st.ignoredNodes
    ∧ (∀ p ∈ st.labelToID, p ∈ (internLabel st node).labelToID)
    ∧ (∀ x id, labelFind st.labelToID x = some id →
        labelFind (internLabel st node).labelToID x = some id)
    ∧ ∃ id, labelFind (internLabel st node).labelToID node = some id
        ∧ ∀ p ∈ (internLabel st node).labelToID, p ∈ st.labelToID ∨ p = (node, id) := by
  cases hf : labelFind st.labelToID node with
  | some id =>
    rw [internLabel_of_some st node id hf]
    exact ⟨h, rfl, rfl, rfl, fun _ hp => hp, fun _ _ hx => hx, id, hf, fun _ hp => Or.inl hp⟩
  | none =>
    rw [internLabel_of_none st node hf]
    have hmem : ∀ p, p ∈ st.labelToID ++ [(node, st.currentID)] →
        p ∈ st.labelToID ∨ p = (node, st.currentID) := by
      intro p hp
      rcases List.mem_append.mp hp with h1 | h1
      · exact Or.inl h1
      · exact Or.inr (List.mem_singleton.mp h1)
    have hmono : ∀ p ∈ st.labelToID, p ∈ st.labelToID ++ [(node, st.currentID)] :=
      fun p hp => List.mem_append_left _ hp
    have hfresh : ∀ p ∈ st.labelToID, p.2 ≠ st.currentID :=
      fun p hp => Nat.ne_of_lt (internCore_lt K st h p hp)
    refine ⟨⟨?_, ?_, ?_, ?_, ?_, ?_, ?_⟩, rfl, rfl, rfl, hmono, ?_, st.currentID, ?_, hmem⟩
    · simp only [List.map_append, List.map_cons, List.map_nil, h.ids]
      exact (List.range_succ st.currentID).symm
    · intro p hp
      simp only [mapFind_mapSet]
      rcases hmem p hp with h1 | h1
      · rw [if_neg (hfresh p h1)]
        exact h.toLabel p h1
      · rw [h1]
        simp
    · intro p hp
      rcases hmem p hp with h1 | h1
      · exact h.known p h1
      · rw [h1]
        exact hK
    · intro p hp hig
      rcases hmem p hp with h1 | h1
      · exact h.ignoredSound p h1 hig
      · obtain ⟨q, hq, hq2⟩ := h.ignoredKnown p.2 hig
        rw [h1] at hq2
        exact absurd hq2 (hfresh q hq)
    · intro i hi
      obtain ⟨q, hq, hq2⟩ := h.ignoredKnown i hi
      exact ⟨q, hmono q hq, hq2⟩
    · intro c hc
      obtain ⟨q, hq, hq2⟩ := h.cooh c hc
      exact ⟨q, hmono q hq, hq2⟩
    · intro v hv
      obtain ⟨q, hq, hq2⟩ := h.graph v hv
      exact ⟨q, hmono q hq, hq2⟩
    · intro x id hx
      simp only [labelFind_append, hx]
    · simp only [labelFind_append, hf]
      simp

theorem internEdge_inv (K : String → Prop) (st : Interned) (edge : String × String)
    (hA : K edge.1) (hB : K edge.2) (h : InternInv K st) : InternInv K (internEdge st edge) := by
  obtain ⟨c1, _, co1, ig1, _, _, idA, hfA, memA⟩ := internLabel_core K st edge.1 hA h.core
  obtain ⟨c2, _, co2, ig2, _, pers2, idB, hfB, memB⟩ :=
    internLabel_core K (internLabel st edge.1) edge.2 hB c1
  have hfA2 := pers2 _ _ hfA
  have hmA := labelFind_mem _ _ _ hfA2
  have hmB := labelFind_mem _ _ _ hfB
  have hinj := internCore_inj K _ c2
  unfold internEdge
  simp only [hfA2, hfB, Option.getD_some]
  refine ⟨⟨c2.ids, c2.toLabel, c2.known, ?_, ?_, ?_, ?_⟩, ?_⟩
  · intro p hp hig
    simp only [mem_condInsert] at hig
    rcases hig with (hig | ⟨hc, hig⟩) | ⟨hc, hig⟩
    · exact c2.ignoredSound p hp hig
    · rw [hinj p hp _ hmA hig]
      exact hc
    · rw [hinj p hp _ hmB hig]
      exact hc
  · intro i hi
    simp only [mem_condInsert] at hi
    rcases hi with (hi | ⟨_, hi⟩) | ⟨_, hi⟩
    · exact c2.ignoredKnown i hi
    · exact ⟨_, hmA, hi.symm⟩
    · exact ⟨_, hmB, hi.symm⟩
  · intro c hc
    simp only [mem_condInsert] at hc
    rcases hc with (hc | ⟨hco, hc⟩) | ⟨hco, hc⟩
    · exact c2.cooh c hc
    · exact ⟨_, hmA, hc.symm, hco⟩
    · exact ⟨_, hmB, hc.symm, hco⟩
  · intro v hv
    rcases mem_allNeighbors_addEdge _ _ _ _ hv with hv | hv | hv
    · exact c2.graph v hv
    · exact ⟨_, hmA, hv.symm⟩
    · exact ⟨_, hmB, hv.symm⟩
  · intro p hp hnc
    simp only [mem_condInsert]
    rcases memB p hp with hp1 | hp1
    · rcases memA p hp1 with hp2 | hp2
      · refine Or.inl (Or.inl ?_)
        rw [ig2, ig1]
        exact h.ignoredComplete p hp2 hnc
      · rw [hp2] at hnc ⊢
        exact Or.inl (Or.inr ⟨hnc, rfl⟩)
    · rw [hp1] at hnc ⊢
      exact Or.inr ⟨hnc, rfl⟩

theorem foldl_internEdge_inv (K : String → Prop) :
    ∀ (edgeList : List (String × String)) (st : Interned),
      (∀ e ∈ edgeList, K e.1 ∧ K e.2) → InternInv K st →
      InternInv K (edgeList.foldl internEdge st)
  | [], _, _, h => h
  | e :: rest, st, hK, h => by
    rw [List.foldl_cons]
    exact foldl_internEdge_inv K rest _ (fun x hx => hK x (List.mem_cons_of_mem e hx))
      (internEdge_inv K st e (hK e (List.mem_cons_self e rest)).1
        (hK e (List.mem_cons_self e rest)).2 h)

theorem internEdges_inv (K : String → Prop) (edgeList : List (String × String))
    (hK : ∀ e ∈ edgeList, K e.1 ∧ K e.2) : InternInv K (internEdges [] edgeList) := by
  unfold internEdges
  apply foldl_internEdge_inv K edgeList _ hK
  refine ⟨⟨rfl, ?_, ?_, ?_, ?_, ?_, ?_⟩, ?_⟩
  · intro p hp
    exact absurd hp (List.not_mem_nil p)
  · intro p hp
    exact absurd hp (List.not_mem_nil p)
  · intro p hp
    exact absurd hp (List.not_mem_nil p)
  · intro i hi
    exact absurd hi (List.not_mem_nil i)
  · intro c hc
    exact absurd hc (List.not_mem_nil c)
  · intro v hv
    exact absurd hv (List.not_mem_nil v)
  · intro p hp
    exact absurd hp (List.not_mem_nil p)

/-! ## Theorems: `printEdges` and the labels of parsed atoms -/

theorem printEdgesLoop_labels (carbons : List (Nat × CarbonNode)) :
    ∀ (edges : List (Nat × Nat)) (input out : List (String × String)),
      MolecularGraph.printEdgesLoop carbons edges input = some out →
      ∀ e ∈ out, e ∈ input ∨ (AtomLabel carbons e.1 ∧ AtomLabel carbons e.2)
  | [], input, out, h => by
    simp only [MolecularGraph.printEdgesLoop, Option.some.injEq] at h
    subst h
    exact fun e he => Or.inl he
  | (a, b) :: rest, input, out, h => by
    unfold MolecularGraph.printEdgesLoop at h
    split at h
    · rename_i ca cb hca hcb
      intro e he
      rcases printEdgesLoop_labels carbons rest _ out h e he with h1 | h1
      · rcases List.mem_append.mp h1 with h2 | h2
        · exact Or.inl h2
        · rw [List.mem_singleton.mp h2]
          exact Or.inr ⟨⟨a, ca, hca, rfl⟩, ⟨b, cb, hcb, rfl⟩⟩
      · exact Or.inr h1
    · exact absurd h (by simp)

theorem parserLabels_addCarbon (g : MolecularGraph) (label : String) (h : ParserLabels g)
    (hl : ParserLabel label) : ParserLabels (g.addCarbon label) := by
  intro p hp
  exact mapSet_forall (fun c : CarbonNode => ParserLabel c.label) g.counter
    (CarbonNode.mk1 g.counter label) hl g.carbons h p hp

theorem parserLabels_modify (f : CarbonNode → CarbonNode) (hf : ∀ c, (f c).label = c.label)
    (carbons : List (Nat × CarbonNode)) (id : Nat)
    (h : ∀ p ∈ carbons, ParserLabel p.2.label) :
    ∀ p ∈ mapModify CarbonNode.default f carbons id, ParserLabel p.2.label := by
  intro p hp
  refine mapModify_forall (fun c : CarbonNode => ParserLabel c.label) CarbonNode.default f id
    ?_ ?_ carbons h p hp
  · show ParserLabel (f CarbonNode.default).label
    rw [hf]
    exact Or.inl rfl
  · intro c hc
    show ParserLabel (f c).label
    rw [hf]
    exact hc

theorem parserLabels_addEdge (g : MolecularGraph) (id1 id2 : Nat) (h : ParserLabels g) :
    ParserLabels (g.addEdge id1 id2) := by
  intro p hp
  exact parserLabels_modify CarbonNode.incrementC_C (fun _ => rfl) _ id2
    (parserLabels_modify CarbonNode.incrementC_C (fun _ => rfl) g.carbons id1 h) p hp

theorem parserLabels_incrementC_X (g : MolecularGraph) (id : Nat) (h : ParserLabels g) :
    ParserLabels (g.incrementC_X id) := by
  intro p hp
  exact parserLabels_modify CarbonNode.incrementC_X (fun _ => rfl) g.carbons id h p hp

theorem parserLabels_incrementC_H (g : MolecularGraph) (id numH : Nat) (h : ParserLabels g) :
    ParserLabels (g.incrementC_H id numH) := by
  intro p hp
  exact parserLabels_modify (fun c => c.incrementC_H numH) (fun _ => rfl) g.carbons id h p hp

theorem parserLabels_condEdge (c : Prop) [Decidable c] (g : MolecularGraph) (id1 id2 : Nat)
    (h : ParserLabels g) : ParserLabels (if c then g.addEdge id1 id2 else g) := by
  split
  · exact parserLabels_addEdge g id1 id2 h
  · exact h

theorem parserLabels_condX (c : Prop) [Decidable c] (g : MolecularGraph) (id : Nat)
    (h : ParserLabels g) : ParserLabels (if c then g.incrementC_X id else g) := by
  split
  · exact parserLabels_incrementC_X g id h
  · exact h

theorem halogenLabelAt_head (ch : Char) (rest : List Char) :
    ∃ tail, halogenLabelAt ch rest = ch :: tail := by
  unfold halogenLabelAt
  split
  · split
    · exact ⟨_, rfl⟩
    · exact ⟨_, rfl⟩
  · exact ⟨_, rfl⟩

theorem parseStep_labels (cs : List Char) (st : ParseState) (h : ParserLabels st.graph) :
    ParserLabels (parseStep cs st).2.graph := by
  unfold parseStep
  cases cs with
  | nil => exact h
  | cons ch rest =>
    have hfall : ¬ ch = 'C' → ParserLabel (String.mk (halogenLabelAt ch rest)) := by
      intro hnc
      obtain ⟨tail, ht⟩ := halogenLabelAt_head ch rest
      exact Or.inr (Or.inr ⟨ch, tail, ht, hnc⟩)
    have hC := parserLabels_addCarbon st.graph "C" h (Or.inl rfl)
    have hCOOH := parserLabels_addCarbon st.graph "COOH" h (Or.inr (Or.inl rfl))
    simp only
    split_ifs with h1 h2 h3 h4 h5 h6 h7 h8 h9
    all_goals try split
    all_goals simp only
    all_goals first
      | exact h
      | exact hCOOH
      | exact parserLabels_addEdge _ _ _ hCOOH
      | exact parserLabels_incrementC_X _ _ h
      | exact parserLabels_addCarbon _ _ h (hfall (by assumption))
      | exact parserLabels_addEdge _ _ _ (parserLabels_addCarbon _ _ h (hfall (by assumption)))
      | exact hC
      | exact parserLabels_incrementC_H _ _ _ hC
      | exact parserLabels_incrementC_X _ _ hC
      | exact parserLabels_incrementC_X _ _ (parserLabels_incrementC_H _ _ _ hC)
      | exact parserLabels_addEdge _ _ _ hC
      | exact parserLabels_addEdge _ _ _ (parserLabels_incrementC_H _ _ _ hC)
      | exact parserLabels_addEdge _ _ _ (parserLabels_incrementC_X _ _ hC)
      | exact parserLabels_addEdge _ _ _
          (parserLabels_incrementC_X _ _ (parserLabels_incrementC_H _ _ _ hC))

theorem parseLoop_labels :
    ∀ (cs : List Char) (skip : Nat) (st : ParseState),
      ParserLabels st.graph → ParserLabels (parseLoop cs skip st).graph
  | [], _, _, h => h
  | _ :: cs, skip + 1, st, h => by
    rw [parseLoop]
    exact parseLoop_labels cs skip st h
  | c :: cs, 0, st, h => by
    rw [parseLoop]
    exact parseLoop_labels cs _ _ (parseStep_labels (c :: cs) st h)

theorem parsed_labels (formula : String) : ParserLabels (parsed formula) := by
  unfold parsed MolecularGraph.parseMolecularFormula
  apply parseLoop_labels
  intro p hp
  exact absurd hp (List.not_mem_nil p)

theorem parseLoop_input :
    ∀ (cs : List Char) (skip : Nat) (st : ParseState),
      (parseLoop cs skip st).graph.input = st.graph.input
  | [], _, _ => rfl
  | _ :: cs, skip + 1, st => by
    rw [parseLoop]
    exact parseLoop_input cs skip st
  | c :: cs, 0, st => by
    rw [parseLoop, parseLoop_input cs _ _]
    unfold parseStep
    simp only
    split_ifs <;> first | rfl | (split <;> rfl)

theorem parsed_input (formula : String) : (parsed formula).input = [] := by
  unfold parsed MolecularGraph.parseMolecularFormula
  rw [parseLoop_input]
  rfl

/-! ## Theorems: the atoms of the principal chain -/

theorem hasCyclicEdge_snd_of_false (t : Traversal (Nat × CarbonNode)) (g : MolecularGraph)
    (h : (g.hasCyclicEdge t).1 = false) : (g.hasCyclicEdge t).2 = g := by
  unfold MolecularGraph.hasCyclicEdge at h ⊢
  generalize ((t.order g.carbons).filter (fun p => p.2.getTotalBonds = 3)).map
    (fun p => p.1) = candidates at h ⊢
  match candidates, h with
  | [], _ => rfl
  | [_], _ => rfl
  | _ :: _ :: _, h => exact absurd h (by simp)

theorem nameInterned_ok_inv (o : Orders) (graph1 : MolecularGraph) (hint : Nat) (st : Interned)
    (carbonNodes : List Nat) (naming : Naming)
    (h : nameInterned o graph1 hint st carbonNodes = Outcome.ok naming) :
    naming.interned = st
    ∧ ∃ counter, principalChain o st carbonNodes = some (naming.longestChain, counter)
      ∧ naming.optimalChain = getOptimalChainDirection naming.longestChain naming.branchInfo := by
  unfold nameInterned at h
  split at h
  · exact absurd h (by simp)
  · rename_i longestChain counter hchain
    split at h
    · rename_i branchInfo idToLabel hcls
      simp only [Outcome.ok.injEq] at h
      rw [← h]
      exact ⟨rfl, counter, hchain, rfl⟩
    · exact absurd h (by simp)
    · exact absurd h (by simp)
    · exact absurd h (by simp)

theorem processSteps_named_inv (o : Orders) (graph : Adjacency) (g : MolecularGraph)
    (hint : Nat) (naming : Naming)
    (h : processSteps o graph g hint = Processed.named naming) :
    ∃ g1, g.printEdges = some g1
      ∧ naming.interned = internEdges graph g1.input
      ∧ carbonNodesOf o.labels naming.interned.labelToID ≠ []
      ∧ ∃ counter, principalChain o naming.interned
            (carbonNodesOf o.labels naming.interned.labelToID)
          = some (naming.longestChain, counter)
        ∧ naming.optimalChain
          = getOptimalChainDirection naming.longestChain naming.branchInfo := by
  unfold processSteps at h
  by_cases hc : (g.hasCyclicEdge o.atoms).1 = true
  · simp only [hc, if_true] at h
    exact absurd h (by simp)
  · have hf : (g.hasCyclicEdge o.atoms).1 = false := by simpa using hc
    simp only [hf, Bool.false_eq_true, if_false, hasCyclicEdge_snd_of_false o.atoms g hf] at h
    cases hpe : g.printEdges with
    | none =>
      rw [hpe] at h
      exact absurd h (by simp)
    | some g1 =>
      rw [hpe] at h
      simp only at h
      split at h
      · exact absurd h (by simp)
      · rename_i hne
        cases hn : nameInterned o g1 hint (internEdges graph g1.input)
            (carbonNodesOf o.labels (internEdges graph g1.input).labelToID) with
        | ok naming1 =>
          rw [hn] at h
          simp only [Processed.ofOutcome, Processed.named.injEq] at h
          subst h
          obtain ⟨hst, counter, hchain, hopt⟩ := nameInterned_ok_inv o g1 hint _ _ _ hn
          refine ⟨g1, rfl, hst, ?_, counter, ?_, hopt⟩
          · rw [hst]
            exact hne
          · rw [hst]
            exact hchain
        | nullString =>
          rw [hn] at h
          exact absurd h (by simp [Processed.ofOutcome])
        | outOfRange =>
          rw [hn] at h
          exact absurd h (by simp [Processed.ofOutcome])
        | outOfFuel =>
          rw [hn] at h
          exact absurd h (by simp [Processed.ofOutcome])

theorem printEdges_labels (g g1 : MolecularGraph) (hin : g.input = [])
    (h : g.printEdges = some g1) :
    ∀ e ∈ g1.input, AtomLabel g.carbons e.1 ∧ AtomLabel g.carbons e.2 := by
  unfold MolecularGraph.printEdges at h
  split at h
  · rename_i input hloop
    simp only [Option.some.injEq] at h
    rw [← h]
    intro e he
    rcases printEdgesLoop_labels g.carbons g.edges g.input input hloop e he with h1 | h1
    · rw [hin] at h1
      exact absurd h1 (List.not_mem_nil e)
    · exact h1
  · exact absurd h (by simp)

theorem isCOOHGroup_head (label : String) (h : isCOOHGroup label = true) :
    label.data.head? = some 'C' := by
  unfold isCOOHGroup at h
  simp only [decide_eq_true_eq] at h
  have h4 := h.1
  cases hd : label.data with
  | nil =>
    rw [hd] at h4
    exact absurd h4 (by decide)
  | cons x xs =>
    rw [hd] at h4
    simp only [List.take_succ_cons] at h4
    have hx : x = 'C' := by
      have := List.head_eq_of_cons_eq h4
      exact this
    rw [hx]
    rfl

theorem parserLabel_of_head (label : String) (k : Nat) (hl : ParserLabel label)
    (hh : (label ++ toString k).data.head? = some 'C') : label = "C" ∨ label = "COOH" := by
  rcases hl with h1 | h1 | ⟨x, rest, hd, hx⟩
  · exact Or.inl h1
  · exact Or.inr h1
  · rw [String.data_append, hd] at hh
    simp only [List.cons_append, List.head?_cons, Option.some.injEq] at hh
    exact absurd hh hx

/-- C9: when `processMolecularGraph` names a parsed formula on a fresh adjacency,
every atom of the principal chain, plain or carboxyl-anchored and in either
orientation, is outside the ignored set and is the relabelled name of an atom that
the parser labelled "C" or "COOH", so its label begins with C: no atom of the
unrecognised-symbol fallback path is on the chain. -/
theorem chain_atoms_are_carbon (o : Orders) (formula : String) (hint : Nat) (naming : Naming)
    (h : processSteps o [] (parsed formula) hint = Processed.named naming)
    (a : Nat) (ha : a ∈ naming.longestChain ∨ a ∈ naming.optimalChain) :
    a ∉ naming.interned.ignoredNodes
    ∧ ∃ k c, mapFind (parsed formula).carbons k = some c
        ∧ mapFind naming.interned.idToLabel a = some (c.label ++ toString k)
        ∧ (c.label ++ toString k).data.head? = some 'C'
        ∧ (c.label = "C" ∨ c.label = "COOH") := by
  obtain ⟨g1, hpe, hst, hne, counter, hchain, hopt⟩ := processSteps_named_inv o [] _ hint naming h
  have hlab := printEdges_labels (parsed formula) g1 (parsed_input formula) hpe
  have hinv : InternInv (AtomLabel (parsed formula).carbons) naming.interned := by
    rw [hst]
    exact internEdges_inv _ g1.input hlab
  have hmem : a ∈ naming.longestChain := by
    rcases ha with ha | ha
    · exact ha
    · rw [hopt] at ha
      unfold getOptimalChainDirection at ha
      split at ha
      · exact ha
      · exact List.mem_reverse.mp ha
  have hentry : ∃ p ∈ naming.interned.labelToID, p.2 = a ∧ p.1.data.head? = some 'C' := by
    rcases principalChain_path o _ _ _ counter hne hchain a hmem with h1 | h1 | h1
    · unfold carbonNodesOf at h1
      obtain ⟨p, hp, hpa⟩ := List.mem_map.mp h1
      obtain ⟨hp1, hp2⟩ := List.mem_filter.mp hp
      exact ⟨p, (o.labels.order_perm _).mem_iff.mp hp1, hpa, by simpa using hp2⟩
    · obtain ⟨p, hp, hpa, hco⟩ := hinv.core.cooh a h1
      exact ⟨p, hp, hpa, isCOOHGroup_head p.1 hco⟩
    · obtain ⟨hni, u, hu⟩ := h1
      obtain ⟨p, hp, hpa⟩ := hinv.core.graph a (mem_allNeighbors _ u a hu)
      refine ⟨p, hp, hpa, ?_⟩
      by_contra hnc
      exact hni (hpa ▸ hinv.ignoredComplete p hp hnc)
  obtain ⟨p, hp, hpa, hhead⟩ := hentry
  obtain ⟨k, c, hk, hkl⟩ := hinv.core.known p hp
  refine ⟨?_, k, c, hk, ?_, ?_, ?_⟩
  · intro hig
    rw [← hpa] at hig
    exact hinv.core.ignoredSound p hp hig hhead
  · rw [← hpa, ← hkl]
    exact hinv.core.toLabel p hp
  · rw [← hkl]
    exact hhead
  · apply parserLabel_of_head c.label k (parsed_labels formula (k, c) (mapFind_mem _ _ _ hk))
    rw [← hkl]
    exact hhead

theorem chain_atoms_are_carbon_witness :
    ∃ naming, processSteps Orders.insertion [] (parsed "CH3CH(N)CH3") 0 = Processed.named naming
      ∧ naming.longestChain = [3, 1, 0]
      ∧ naming.interned.ignoredNodes = [2]
      ∧ ∀ a ∈ naming.longestChain,
        a ∉ naming.interned.ignoredNodes
        ∧ ∃ k c, mapFind (parsed "CH3CH(N)CH3").carbons k = some c
            ∧ mapFind naming.interned.idToLabel a = some (c.label ++ toString k)
            ∧ (c.label ++ toString k).data.head? = some 'C'
            ∧ (c.label = "C" ∨ c.label = "COOH") := by
  have key : (processSteps Orders.insertion [] (parsed "CH3CH(N)CH3") 0).namedWith
      (fun naming => decide (naming.longestChain = [3, 1, 0]
        ∧ naming.interned.ignoredNodes = [2])) = true := by decide!
  obtain ⟨naming, hn, hq⟩ := namedWith_elim _ _ key
  simp only [decide_eq_true_eq] at hq
  exact ⟨naming, hn, hq.1, hq.2, fun a ha =>
    chain_atoms_are_carbon Orders.insertion "CH3CH(N)CH3" 0 naming hn a (Or.inl ha)⟩

/-! ## Theorems: the chain search always returns -/

theorem searchFuel_eq (graph : Adjacency) : searchFuel graph = (allNeighbors graph).length + 1 := by
  unfold searchFuel
  congr 1
  induction graph with
  | nil => rfl
  | cons p rest ih =>
    obtain ⟨k, l⟩ := p
    simp only [List.map_cons, List.sum_cons, allNeighbors, List.length_append, ih]

theorem length_filter_le_of_imp {α : Type} (p q : α → Bool)
    (hqp : ∀ x, q x = true → p x = true) :
    ∀ (l : List α), (l.filter q).length ≤ (l.filter p).length
  | [] => Nat.le_refl _
  | z :: l => by
    have ih := length_filter_le_of_imp p q hqp l
    by_cases hz : q z = true
    · simp only [List.filter_cons, hz, hqp z hz, if_true, List.length_cons]
      omega
    · by_cases hz2 : p z = true
      · simp only [List.filter_cons, hz, hz2, if_true, List.length_cons]
        simp only [Bool.false_eq_true, if_false]
        omega
      · simp only [List.filter_cons, hz, hz2]
        simpa using ih

theorem length_filter_lt {α : Type} (p q : α → Bool) (a : α)
    (hqp : ∀ x, q x = true → p x = true) (hpa : p a = true) (hqa : q a = false) :
    ∀ (l : List α), a ∈ l → (l.filter q).length < (l.filter p).length
  | [], ha => absurd ha (List.not_mem_nil a)
  | y :: l, ha => by
    have hle := length_filter_le_of_imp p q hqp l
    rcases List.mem_cons.mp ha with h1 | h1
    · rw [← h1]
      simp only [List.filter_cons, hpa, hqa, if_true, List.length_cons]
      simp only [Bool.false_eq_true, if_false]
      omega
    · have ih := length_filter_lt p q a hqp hpa hqa l h1
      by_cases hy : q y = true
      · simp only [List.filter_cons, hy, hqp y hy, if_true, List.length_cons]
        omega
      · by_cases hy2 : p y = true
        · simp only [List.filter_cons, hy, hy2, if_true, List.length_cons]
          simp only [Bool.false_eq_true, if_false]
          omega
        · simp only [List.filter_cons, hy, hy2]
          simpa using ih

theorem unvisitedCount_insert_lt (graph : Adjacency) (visited : List Nat) (x : Nat)
    (hx : x ∈ allNeighbors graph) (hv : x ∉ visited) :
    unvisitedCount graph (setInsert visited x) < unvisitedCount graph visited := by
  unfold unvisitedCount
  apply length_filter_lt _ _ x _ _ _ _ hx
  · intro y hy
    simp only [decide_eq_true_eq, mem_setInsert, not_or] at hy ⊢
    exact hy.1
  · simpa using hv
  · simp [mem_setInsert]

theorem unvisitedCount_le (graph : Adjacency) (visited : List Nat) :
    unvisitedCount graph visited ≤ (allNeighbors graph).length :=
  List.length_filter_le _ _

theorem setErase_setInsert (visited : List Nat) (x : Nat) (h : x ∉ visited) :
    setErase (setInsert visited x) x = visited := by
  unfold setErase setInsert
  rw [if_neg h, List.filter_append]
  have h1 : visited.filter (fun y => decide (y ≠ x)) = visited := by
    apply List.filter_eq_self.mpr
    intro y hy
    simp only [ne_eq, decide_not, Bool.not_eq_true', decide_eq_false_iff_not]
    intro hc
    exact h (hc ▸ hy)
  rw [h1]
  simp

theorem dfsLoop_total (graph : Adjacency) (ignoredNodes : List Nat)
    (recurse : Nat → List Nat → Option ((Nat × List Nat) × List Nat)) (node : Nat)
    (visited : List Nat)
    (hrec : ∀ nb, nb ∈ neighbors graph node → nb ∉ visited →
      ∃ r, recurse nb visited = some (r, visited)) :
    ∀ (nbrs : List Nat) (best : Nat × List Nat),
      (∀ nb ∈ nbrs, nb ∈ neighbors graph node) →
      ∃ out, dfsLoop recurse ignoredNodes node nbrs best visited = some (out, visited)
  | [], best, _ => ⟨best, rfl⟩
  | nb :: rest, best, hn => by
    have hrest : ∀ x ∈ rest, x ∈ neighbors graph node :=
      fun x hx => hn x (List.mem_cons_of_mem nb hx)
    unfold dfsLoop
    split
    · rename_i hcond
      obtain ⟨r, hr⟩ := hrec nb (hn nb (List.mem_cons_self nb rest)) hcond.1
      rw [hr]
      simp only
      split
      · exact dfsLoop_total graph ignoredNodes recurse node visited hrec rest _ hrest
      · exact dfsLoop_total graph ignoredNodes recurse node visited hrec rest _ hrest
    · exact dfsLoop_total graph ignoredNodes recurse node visited hrec rest _ hrest

theorem dfsWithConditions_total (graph : Adjacency) (ignoredNodes : List Nat) :
    ∀ (fuel node : Nat) (visited : List Nat), node ∉ visited →
      unvisitedCount graph (setInsert visited node) < fuel →
      ∃ r, dfsWithConditions graph ignoredNodes fuel node visited = some (r, visited)
  | 0, _, _, _, h => absurd h (Nat.not_lt_zero _)
  | fuel + 1, node, visited, hv, hf => by
    unfold dfsWithConditions
    obtain ⟨out, hout⟩ := dfsLoop_total graph ignoredNodes
      (dfsWithConditions graph ignoredNodes fuel) node (setInsert visited node)
      (fun nb hnb hnv => dfsWithConditions_total graph ignoredNodes fuel nb _ hnv
        (by
          have := unvisitedCount_insert_lt graph (setInsert visited node) nb
            (mem_allNeighbors graph node nb hnb) hnv
          omega))
      (neighbors graph node) (0, [node]) (fun _ h => h)
    rw [hout]
    exact ⟨out, by simp only [setErase_setInsert visited node hv]⟩

theorem dfsWithConditions_from_empty (graph : Adjacency) (ignoredNodes : List Nat) (node : Nat) :
    ∃ r, dfsWithConditions graph ignoredNodes (searchFuel graph) node [] = some (r, []) := by
  apply dfsWithConditions_total graph ignoredNodes _ node [] (List.not_mem_nil node)
  rw [searchFuel_eq]
  exact Nat.lt_succ_of_le (unvisitedCount_le graph _)

/-- The plain chain search returns a chain for every adjacency, start node and
ignored set: the fuel of the model is never used up. -/
theorem findLongestCarbonChain_total (graph : Adjacency) (startNode : Nat)
    (ignoredNodes : List Nat) :
    ∃ chain, findLongestCarbonChain graph startNode ignoredNodes = some chain := by
  unfold findLongestCarbonChain
  obtain ⟨r1, h1⟩ := dfsWithConditions_from_empty graph ignoredNodes startNode
  rw [h1]
  simp only
  obtain ⟨r2, h2⟩ := dfsWithConditions_from_empty graph ignoredNodes (r1.2.getLastD startNode)
  rw [h2]
  exact ⟨_, rfl⟩

theorem coohLoop_total (graph : Adjacency) (ignoredNodes : List Nat) :
    ∀ (order acc : List Nat), ∃ chain, coohLoop graph ignoredNodes order acc = some chain
  | [], acc => ⟨acc, rfl⟩
  | c :: rest, acc => by
    unfold coohLoop
    obtain ⟨r, hr⟩ := dfsWithConditions_from_empty graph ignoredNodes c
    rw [hr]
    simp only
    split
    · exact coohLoop_total graph ignoredNodes rest _
    · exact coohLoop_total graph ignoredNodes rest _

/-- Step 1 of `processMolecularGraph` always yields a principal chain: the model's
fuel is enough for every adjacency, whatever the iteration order. -/
theorem principalChain_total (o : Orders) (st : Interned) (carbonNodes : List Nat) :
    ∃ chain counter, principalChain o st carbonNodes = some (chain, counter) := by
  unfold principalChain
  split
  · unfold findLongestChainWithCOOH
    obtain ⟨chain, hc⟩ := coohLoop_total st.graph st.ignoredNodes (o.nodes.order st.coohNodes) []
    rw [hc]
    exact ⟨_, _, rfl⟩
  · obtain ⟨chain, hc⟩ := findLongestCarbonChain_total st.graph (carbonNodes.headD 0)
      st.ignoredNodes
    rw [hc]
    exact ⟨_, _, rfl⟩

/-! ## Theorems: naming a parsed formula on a fresh adjacency never fails -/

theorem isSome_mapFind_mapSet {β : Type} (m : List (Nat × β)) (k : Nat) (v : β) (x : Nat)
    (h : (mapFind m x).isSome = true) : (mapFind (mapSet m k v) x).isSome = true := by
  rw [mapFind_mapSet]
  split
  · rfl
  · exact h

theorem isSome_mapFind_mapModify {β : Type} (dflt : β) (f : β → β) (m : List (Nat × β))
    (k x : Nat) (h : (mapFind m x).isSome = true ∨ x = k) :
    (mapFind (mapModify dflt f m k) x).isSome = true := by
  rw [mapFind_mapModify]
  split
  · rfl
  · rename_i hne
    rcases h with h | h
    · exact h
    · exact absurd h hne

theorem edgesHaveAtoms_of_carbons (g1 g2 : MolecularGraph) (he : g2.edges = g1.edges)
    (hc : ∀ x, (mapFind g1.carbons x).isSome = true → (mapFind g2.carbons x).isSome = true)
    (h : EdgesHaveAtoms g1) : EdgesHaveAtoms g2 := by
  intro e hm
  rw [he] at hm
  exact ⟨hc _ (h e hm).1, hc _ (h e hm).2⟩

theorem edgesHaveAtoms_addCarbon (g : MolecularGraph) (label : String) (h : EdgesHaveAtoms g) :
    EdgesHaveAtoms (g.addCarbon label) :=
  edgesHaveAtoms_of_carbons g _ rfl (fun x hx => isSome_mapFind_mapSet _ _ _ x hx) h

theorem edgesHaveAtoms_incrementC_X (g : MolecularGraph) (id : Nat) (h : EdgesHaveAtoms g) :
    EdgesHaveAtoms (g.incrementC_X id) :=
  edgesHaveAtoms_of_carbons g _ rfl
    (fun x hx => isSome_mapFind_mapModify _ _ _ _ x (Or.inl hx)) h

theorem edgesHaveAtoms_incrementC_H (g : MolecularGraph) (id numH : Nat)
    (h : EdgesHaveAtoms g) : EdgesHaveAtoms (g.incrementC_H id numH) :=
  edgesHaveAtoms_of_carbons g _ rfl
    (fun x hx => isSome_mapFind_mapModify _ _ _ _ x (Or.inl hx)) h

theorem edgesHaveAtoms_addEdge (g : MolecularGraph) (id1 id2 : Nat) (h : EdgesHaveAtoms g) :
    EdgesHaveAtoms (g.addEdge id1 id2) := by
  have hkeep : ∀ x, (mapFind g.carbons x).isSome = true ∨ x = id1 ∨ x = id2 →
      (mapFind (g.addEdge id1 id2).carbons x).isSome = true := by
    intro x hx
    unfold MolecularGraph.addEdge
    simp only
    apply isSome_mapFind_mapModify
    rcases hx with hx | hx | hx
    · exact Or.inl (isSome_mapFind_mapModify _ _ _ _ x (Or.inl hx))
    · exact Or.inl (isSome_mapFind_mapModify _ _ _ _ x (Or.inr hx))
    · exact Or.inr hx
  intro e hm
  have hm1 : e ∈ g.edges ++ [(id1, id2)] := hm
  rcases List.mem_append.mp hm1 with h1 | h1
  · exact ⟨hkeep _ (Or.inl (h e h1).1), hkeep _ (Or.inl (h e h1).2)⟩
  · rw [List.mem_singleton.mp h1]
    exact ⟨hkeep _ (Or.inr (Or.inl rfl)), hkeep _ (Or.inr (Or.inr rfl))⟩

theorem parseStep_edgesHaveAtoms (cs : List Char) (st : ParseState)
    (h : EdgesHaveAtoms st.graph) : EdgesHaveAtoms (parseStep cs st).2.graph := by
  unfold parseStep
  cases cs with
  | nil => exact h
  | cons ch rest =>
    have hC := edgesHaveAtoms_addCarbon st.graph "C" h
    simp only
    split_ifs
    all_goals try split
    all_goals simp only
    all_goals first
      | exact h
      | exact edgesHaveAtoms_addCarbon _ _ h
      | exact edgesHaveAtoms_addEdge _ _ _ (edgesHaveAtoms_addCarbon _ _ h)
      | exact edgesHaveAtoms_incrementC_X _ _ h
      | exact edgesHaveAtoms_incrementC_H _ _ _ hC
      | exact edgesHaveAtoms_incrementC_X _ _ hC
      | exact edgesHaveAtoms_incrementC_X _ _ (edgesHaveAtoms_incrementC_H _ _ _ hC)
      | exact edgesHaveAtoms_addEdge _ _ _ (edgesHaveAtoms_incrementC_H _ _ _ hC)
      | exact edgesHaveAtoms_addEdge _ _ _ (edgesHaveAtoms_incrementC_X _ _ hC)
      | exact edgesHaveAtoms_addEdge _ _ _
          (edgesHaveAtoms_incrementC_X _ _ (edgesHaveAtoms_incrementC_H _ _ _ hC))

theorem parseLoop_edgesHaveAtoms :
    ∀ (cs : List Char) (skip : Nat) (st : ParseState),
      EdgesHaveAtoms st.graph → EdgesHaveAtoms (parseLoop cs skip st).graph
  | [], _, _, h => h
  | _ :: cs, skip + 1, st, h => by
    rw [parseLoop]
    exact parseLoop_edgesHaveAtoms cs skip st h
  | c :: cs, 0, st, h => by
    rw [parseLoop]
    exact parseLoop_edgesHaveAtoms cs _ _ (parseStep_edgesHaveAtoms (c :: cs) st h)

theorem parsed_edgesHaveAtoms (formula : String) : EdgesHaveAtoms (parsed formula) := by
  unfold parsed MolecularGraph.parseMolecularFormula
  apply parseLoop_edgesHaveAtoms
  intro e he
  exact absurd he (List.not_mem_nil e)

theorem printEdgesLoop_total (carbons : List (Nat × CarbonNode)) :
    ∀ (edges : List (Nat × Nat)) (input : List (String × String)),
      (∀ e ∈ edges, (mapFind carbons e.1).isSome = true ∧ (mapFind carbons e.2).isSome = true) →
      ∃ out, MolecularGraph.printEdgesLoop carbons edges input = some out
  | [], input, _ => ⟨input, rfl⟩
  | (a, b) :: rest, input, h => by
    obtain ⟨ha, hb⟩ := h (a, b) (List.mem_cons_self _ _)
    obtain ⟨ca, hca⟩ := Option.isSome_iff_exists.mp ha
    obtain ⟨cb, hcb⟩ := Option.isSome_iff_exists.mp hb
    unfold MolecularGraph.printEdgesLoop
    simp only at hca hcb
    rw [hca, hcb]
    exact printEdgesLoop_total carbons rest _ (fun e he => h e (List.mem_cons_of_mem _ he))

/-- The call of `printEdges` on a parsed graph never throws: every edge endpoint is
an atom. -/
theorem printEdges_parsed (formula : String) :
    ∃ g1, (parsed formula).printEdges = some g1 := by
  obtain ⟨out, hout⟩ := printEdgesLoop_total (parsed formula).carbons (parsed formula).edges
    (parsed formula).input (parsed_edgesHaveAtoms formula)
  unfold MolecularGraph.printEdges
  rw [hout]
  exact ⟨_, rfl⟩

theorem unvisitedCount_insert_le (graph : Adjacency) (visited : List Nat) (x : Nat) :
    unvisitedCount graph (setInsert visited x) ≤ unvisitedCount graph visited := by
  unfold unvisitedCount
  apply length_filter_le_of_imp
  intro y hy
  simp only [decide_eq_true_eq, mem_setInsert, not_or] at hy ⊢
  exact hy.1

theorem pushNeighbors_bound (graph : Adjacency) (mainChainNodes : List Nat) :
    ∀ (nbrs visited toVisit : List Nat), (∀ nb ∈ nbrs, nb ∈ allNeighbors graph) →
      (pushNeighbors mainChainNodes nbrs visited toVisit).2.length
          + unvisitedCount graph (pushNeighbors mainChainNodes nbrs visited toVisit).1
        ≤ toVisit.length + unvisitedCount graph visited
      ∧ ∀ v ∈ (pushNeighbors mainChainNodes nbrs visited toVisit).2, v ∈ toVisit ∨ v ∈ nbrs
  | [], _, _, _ => ⟨Nat.le_refl _, fun _ hv => Or.inl hv⟩
  | nb :: rest, visited, toVisit, hn => by
    have hrest : ∀ x ∈ rest, x ∈ allNeighbors graph :=
      fun x hx => hn x (List.mem_cons_of_mem nb hx)
    unfold pushNeighbors
    split
    · rename_i hcond
      obtain ⟨h1, h2⟩ := pushNeighbors_bound graph mainChainNodes rest
        (setInsert visited nb) (nb :: toVisit) hrest
      have hlt := unvisitedCount_insert_lt graph visited nb
        (hn nb (List.mem_cons_self nb rest)) hcond.1
      refine ⟨?_, ?_⟩
      · simp only [List.length_cons] at h1
        omega
      · intro v hv
        rcases h2 v hv with h3 | h3
        · rcases List.mem_cons.mp h3 with h4 | h4
          · exact Or.inr (h4 ▸ List.mem_cons_self nb rest)
          · exact Or.inl h4
        · exact Or.inr (List.mem_cons_of_mem nb h3)
    · obtain ⟨h1, h2⟩ := pushNeighbors_bound graph mainChainNodes rest visited toVisit hrest
      refine ⟨h1, ?_⟩
      intro v hv
      rcases h2 v hv with h3 | h3
      · exact Or.inl h3
      · exact Or.inr (List.mem_cons_of_mem nb h3)

theorem countLoop_ok (graph : Adjacency) (mainChainNodes : List Nat)
    (idToLabel : List (Nat × String))
    (hlab : ∀ v ∈ allNeighbors graph, (mapFind idToLabel v).isSome = true) :
    ∀ (fuel : Nat) (toVisit visited : List Nat) (carbonCount halogenType : Int),
      (∀ v ∈ toVisit, (mapFind idToLabel v).isSome = true) →
      toVisit.length + unvisitedCount graph visited ≤ fuel →
      ∃ r, countLoop graph mainChainNodes idToLabel fuel toVisit visited carbonCount halogenType
        = Outcome.ok r
  | 0, [], _, carbonCount, halogenType, _, _ => ⟨(carbonCount, halogenType), by simp [countLoop]⟩
  | 0, _ :: _, _, _, _, _, hf => by
    simp only [List.length_cons] at hf
    omega
  | fuel + 1, [], _, carbonCount, halogenType, _, _ =>
    ⟨(carbonCount, halogenType), by simp [countLoop]⟩
  | fuel + 1, node :: toVisit, visited, carbonCount, halogenType, hs, hf => by
    obtain ⟨label, hl⟩ := Option.isSome_iff_exists.mp (hs node (List.mem_cons_self _ _))
    unfold countLoop
    rw [hl]
    simp only
    obtain ⟨hb1, hb2⟩ := pushNeighbors_bound graph mainChainNodes (neighbors graph node)
      (setInsert visited node) toVisit (fun nb hnb => mem_allNeighbors graph node nb hnb)
    have hle := unvisitedCount_insert_le graph visited node
    apply countLoop_ok graph mainChainNodes idToLabel hlab fuel
    · intro v hv
      rcases hb2 v hv with h1 | h1
      · exact hs v (List.mem_cons_of_mem _ h1)
      · exact hlab v (mem_allNeighbors graph node v h1)
    · simp only [List.length_cons] at hf
      omega

theorem countBranchCarbons_ok (graph : Adjacency) (start : Nat) (mainChainNodes : List Nat)
    (idToLabel : List (Nat × String))
    (hlab : ∀ v ∈ allNeighbors graph, (mapFind idToLabel v).isSome = true)
    (hs : start ∈ allNeighbors graph) :
    ∃ r, countBranchCarbons graph start mainChainNodes idToLabel = Outcome.ok r := by
  unfold countBranchCarbons
  apply countLoop_ok graph mainChainNodes idToLabel hlab
  · intro v hv
    rw [List.mem_singleton.mp hv]
    exact hlab start hs
  · have := unvisitedCount_le graph []
    rw [searchFuel_eq]
    simp only [List.length_singleton]
    omega

theorem carbonBranches_ok (graph : Adjacency) (ignoredNodes longestChain : List Nat)
    (idToLabel : List (Nat × String)) (atom : Nat)
    (hlab : ∀ v ∈ allNeighbors graph, (mapFind idToLabel v).isSome = true) :
    ∀ (nbrs : List Nat) (branchInfo : BranchInfo), (∀ nb ∈ nbrs, nb ∈ allNeighbors graph) →
      ∃ r, carbonBranches graph ignoredNodes longestChain idToLabel atom nbrs branchInfo
        = Outcome.ok r
  | [], branchInfo, _ => ⟨branchInfo, rfl⟩
  | nb :: rest, branchInfo, hn => by
    have hrest : ∀ x ∈ rest, x ∈ allNeighbors graph :=
      fun x hx => hn x (List.mem_cons_of_mem nb hx)
    unfold carbonBranches
    split
    · obtain ⟨r, hr⟩ := countBranchCarbons_ok graph nb longestChain idToLabel hlab
        (hn nb (List.mem_cons_self nb rest))
      rw [hr]
      exact carbonBranches_ok graph ignoredNodes longestChain idToLabel atom hlab rest _ hrest
    · exact carbonBranches_ok graph ignoredNodes longestChain idToLabel atom hlab rest _ hrest

theorem classifyBranches_ok (atoms : List (Nat × CarbonNode)) (graph1 : MolecularGraph)
    (graph : Adjacency) (ignoredNodes longestChain : List Nat) :
    ∀ (rest : List Nat) (idToLabel : List (Nat × String)) (branchInfo : BranchInfo),
      (∀ v ∈ allNeighbors graph, (mapFind idToLabel v).isSome = true) →
      ∃ r, classifyBranches atoms graph1 graph ignoredNodes longestChain rest idToLabel
        branchInfo = Outcome.ok r
  | [], idToLabel, branchInfo, _ => ⟨(branchInfo, idToLabel), rfl⟩
  | atom :: rest, idToLabel, branchInfo, hlab => by
    have hlab1 : ∀ v ∈ allNeighbors graph,
        (mapFind (mapModify "" (fun l => l) idToLabel atom) v).isSome = true :=
      fun v hv => isSome_mapFind_mapModify _ _ _ _ v (Or.inl (hlab v hv))
    unfold classifyBranches
    simp only
    obtain ⟨r, hr⟩ := carbonBranches_ok graph ignoredNodes longestChain _ atom hlab1
      (neighbors graph atom) (halogenBranch atoms graph1
        ((mapFind (mapModify "" (fun l => l) idToLabel atom) atom).getD "") atom branchInfo)
      (fun nb hnb => mem_allNeighbors graph atom nb hnb)
    rw [hr]
    exact classifyBranches_ok atoms graph1 graph ignoredNodes longestChain rest _ _ hlab1

/-- Naming a parsed formula on a fresh adjacency never throws `std::out_of_range` and
never runs out of fuel: the call ends in the ring exit `return 0;`, in the empty name
for want of a carbon node, or in a name built from a principal chain. -/
theorem naming_total (o : Orders) (formula : String) (hint : Nat) :
    (∃ g1, processSteps o [] (parsed formula) hint = Processed.ring g1)
    ∨ (∃ st, processSteps o [] (parsed formula) hint = Processed.noCarbon st)
    ∨ (∃ naming, processSteps o [] (parsed formula) hint = Processed.named naming) := by
  unfold processSteps
  by_cases hc : ((parsed formula).hasCyclicEdge o.atoms).1 = true
  · exact Or.inl ⟨((parsed formula).hasCyclicEdge o.atoms).2, by simp only [hc, if_true]⟩
  · have hf : ((parsed formula).hasCyclicEdge o.atoms).1 = false := by simpa using hc
    simp only [hf, Bool.false_eq_true, if_false, hasCyclicEdge_snd_of_false o.atoms _ hf]
    obtain ⟨g1, hpe⟩ := printEdges_parsed formula
    rw [hpe]
    simp only
    split
    · exact Or.inr (Or.inl ⟨_, rfl⟩)
    · refine Or.inr (Or.inr ?_)
      have hinv : InternInv (AtomLabel (parsed formula).carbons) (internEdges [] g1.input) :=
        internEdges_inv _ g1.input
          (printEdges_labels (parsed formula) g1 (parsed_input formula) hpe)
      have hlab : ∀ v ∈ allNeighbors (internEdges [] g1.input).graph,
          (mapFind (internEdges [] g1.input).idToLabel v).isSome = true := by
        intro v hv
        obtain ⟨p, hp, hpv⟩ := hinv.core.graph v hv
        rw [← hpv, hinv.core.toLabel p hp]
        rfl
      unfold nameInterned
      obtain ⟨chain, counter, hchain⟩ := principalChain_total o (internEdges [] g1.input)
        (carbonNodesOf o.labels (internEdges [] g1.input).labelToID)
      rw [hchain]
      simp only
      obtain ⟨r, hr⟩ := classifyBranches_ok (o.atoms.order g1.carbons) g1
        (internEdges [] g1.input).graph (internEdges [] g1.input).ignoredNodes chain chain
        (internEdges [] g1.input).idToLabel [] hlab
      rw [hr]
      exact ⟨_, rfl⟩

/-! ## Theorems: ether composition -/

theorem lexLess_asymm_of {α : Type} [LT α] [DecidableRel (fun (a b : α) => a < b)]
    (hasymm : ∀ a b : α, a < b → ¬ b < a) :
    ∀ (l1 l2 : List α), lexLess l1 l2 = true → lexLess l2 l1 = false
  | _, [], h => by simp [lexLess] at h
  | [], _ :: _, _ => by simp [lexLess]
  | x :: xs, y :: ys, h => by
    simp only [lexLess] at h ⊢
    by_cases hxy : x < y
    · simp [hasymm x y hxy, hxy]
    · by_cases hyx : y < x
      · simp [hxy, hyx] at h
      · simp only [hxy, hyx, if_false] at h ⊢
        exact lexLess_asymm_of hasymm xs ys h

theorem lexLess_antisymm_of {α : Type} [LT α] [DecidableRel (fun (a b : α) => a < b)]
    (htri : ∀ a b : α, ¬ a < b → ¬ b < a → a = b) :
    ∀ (l1 l2 : List α), lexLess l1 l2 = false → lexLess l2 l1 = false → l1 = l2
  | [], [], _, _ => rfl
  | [], _ :: _, h, _ => by simp [lexLess] at h
  | _ :: _, [], _, h => by simp [lexLess] at h
  | x :: xs, y :: ys, h1, h2 => by
    simp only [lexLess] at h1 h2
    by_cases hxy : x < y
    · simp [hxy] at h1
    · by_cases hyx : y < x
      · simp [hyx] at h2
      · simp only [hxy, hyx, if_false] at h1 h2
        rw [htri x y hxy hyx, lexLess_antisymm_of htri xs ys h1 h2]

theorem etherName_comm (a b : String) : etherName a b = etherName b a := by
  unfold etherName
  by_cases h1 : lexLess b.data a.data = true
  · have h2 := lexLess_asymm_of (fun (x y : Char) h => lt_asymm h) _ _ h1
    rw [if_pos h1, if_neg (by simp [h2])]
  · by_cases h2 : lexLess a.data b.data = true
    · rw [if_neg h1, if_pos h2]
    · rw [if_neg h1, if_neg h2]
      have hab : a.data = b.data :=
        lexLess_antisymm_of
          (fun (x y : Char) hx hy => le_antisymm (not_lt.mp hy) (not_lt.mp hx)) _ _
          (by simpa using h2) (by simpa using h1)
      rw [String.ext hab]

/-- C11: the ether composition is the smaller of the two fragment names under the
case-sensitive character-wise comparison of `std::string`, a blank, the larger
name and " ether"; it is therefore the same for (a, b) and (b, a), and "Methyl" and
"Ethyl" give "Ethyl Methyl ether" in either order. -/
theorem ether_name_ordered (a b : String) :
    etherName a b = etherName b a
    ∧ (∃ lo hi, ((lo = a ∧ hi = b) ∨ (lo = b ∧ hi = a))
        ∧ lexLess hi.data lo.data = false
        ∧ etherName a b = lo ++ " " ++ hi ++ " ether")
    ∧ etherName "Methyl" "Ethyl" = "Ethyl Methyl ether"
    ∧ etherName "Ethyl" "Methyl" = "Ethyl Methyl ether" := by
  refine ⟨etherName_comm a b, ?_, by decide, by decide⟩
  unfold etherName
  by_cases h1 : lexLess b.data a.data = true
  · refine ⟨b, a, Or.inr ⟨rfl, rfl⟩, ?_, by rw [if_pos h1]⟩
    exact lexLess_asymm_of (fun (x y : Char) h => lt_asymm h) _ _ h1
  · exact ⟨a, b, Or.inl ⟨rfl, rfl⟩, by simpa using h1, by rw [if_neg h1]⟩

/-! ## Theorems: names without branches, branch names -/

theorem branchTokens_of_none (branchInfo : BranchInfo) :
    ∀ (chain : List Nat) (i : Nat), (∀ a ∈ chain, mapFind branchInfo a = none) →
      branchTokens branchInfo chain i = []
  | [], _, _ => rfl
  | a :: rest, i, h => by
    have ha : mapFind branchInfo a = none := h a (List.mem_cons_self a rest)
    have hrest : ∀ b ∈ rest, mapFind branchInfo b = none :=
      fun b hb => h b (List.mem_cons_of_mem a hb)
    simp [branchTokens, ha, branchTokens_of_none branchInfo rest (i + 1) hrest]

/-- C12: when no atom of the chain has a branch entry, `generateIUPACName` returns
exactly the stem of the chain length followed by the suffix of the mode, with nothing
added; the stems for lengths 1 to 10 are Meth, Eth, Prop, But, Pent, Hex, Hept, Oct,
Non, Dec and the suffixes for modes 0, 1, 2 are "ane", "an", "yl". -/
theorem unbranched_name (chain : List Nat) (branchInfo : BranchInfo) (m : Nat)
    (h : ∀ a ∈ chain, mapFind branchInfo a = none) :
    generateIUPACName chain branchInfo m = stemName chain.length ++ suffixName m
    ∧ (List.range 10).map (fun i => stemName (i + 1))
      = ["Meth", "Eth", "Prop", "But", "Pent", "Hex", "Hept", "Oct", "Non", "Dec"]
    ∧ (List.range 3).map suffixName = ["ane", "an", "yl"] := by
  refine ⟨?_, by decide, by decide⟩
  unfold generateIUPACName
  simp only [branchTokens_of_none branchInfo chain 0 h]
  rfl

theorem unbranched_name_witness :
    generateIUPACName [4, 2, 7] [(9, [(1, 0)])] 1 = stemName [4, 2, 7].length ++ suffixName 1
    ∧ (List.range 10).map (fun i => stemName (i + 1))
      = ["Meth", "Eth", "Prop", "But", "Pent", "Hex", "Hept", "Oct", "Non", "Dec"]
    ∧ (List.range 3).map suffixName = ["ane", "an", "yl"] :=
  unbranched_name [4, 2, 7] [(9, [(1, 0)])] 1 (by decide)

/-- C13: `formatBranchName` is total and decided by the halogen kind first: kinds 1
to 4 give "chloro", "bromo", "fluoro", "iodo" and every kind above 4 gives "halo",
whatever the carbon count; for a kind of 0 or less the carbon counts 1 to 4 give
"methyl", "ethyl", "propyl", "butyl" and every other count gives the empty string. -/
theorem formatBranchName_table (c h : Int) :
    (h = 1 → formatBranchName c h = "chloro")
    ∧ (h = 2 → formatBranchName c h = "bromo")
    ∧ (h = 3 → formatBranchName c h = "fluoro")
    ∧ (h = 4 → formatBranchName c h = "iodo")
    ∧ (h > 4 → formatBranchName c h = "halo")
    ∧ (h ≤ 0 → c = 1 → formatBranchName c h = "methyl")
    ∧ (h ≤ 0 → c = 2 → formatBranchName c h = "ethyl")
    ∧ (h ≤ 0 → c = 3 → formatBranchName c h = "propyl")
    ∧ (h ≤ 0 → c = 4 → formatBranchName c h = "butyl")
    ∧ (h ≤ 0 → (c ≤ 0 ∨ c ≥ 5) → formatBranchName c h = "") := by
  unfold formatBranchName
  refine ⟨?_, ?_, ?_, ?_, ?_, ?_, ?_, ?_, ?_, ?_⟩
  · intro h1
    subst h1
    rfl
  · intro h1
    subst h1
    rfl
  · intro h1
    subst h1
    rfl
  · intro h1
    subst h1
    rfl
  · intro h1
    rw [if_pos (by omega), if_neg (by omega), if_neg (by omega), if_neg (by omega),
      if_neg (by omega)]
  · intro h1 h2
    rw [if_neg (by omega), if_pos h2]
  · intro h1 h2
    rw [if_neg (by omega), if_neg (by omega), if_pos h2]
  · intro h1 h2
    rw [if_neg (by omega), if_neg (by omega), if_neg (by omega), if_pos h2]
  · intro h1 h2
    rw [if_neg (by omega), if_neg (by omega), if_neg (by omega), if_neg (by omega), if_pos h2]
  · intro h1 h2
    rw [if_neg (by omega), if_neg (by omega), if_neg (by omega), if_neg (by omega),
      if_neg (by omega)]

theorem formatBranchName_table_witness :
    formatBranchName 3 7 = "halo" ∧ formatBranchName 2 (-1) = "ethyl"
    ∧ formatBranchName 6 0 = "" ∧ formatBranchName (-2) 0 = "" :=
  ⟨(formatBranchName_table 3 7).2.2.2.2.1 (by decide),
   (formatBranchName_table 2 (-1)).2.2.2.2.2.2.1 (by decide) (by decide),
   (formatBranchName_table 6 0).2.2.2.2.2.2.2.2.2 (by decide) (Or.inr (by decide)),
   (formatBranchName_table (-2) 0).2.2.2.2.2.2.2.2.2 (by decide) (Or.inl (by decide))⟩

/-! ## Theorems: parser, halogens in parentheses and ignored characters -/

/-- C14 fails for Cl: in "CH3CH(Cl)CH3" the C of "Cl" is read as a carbon atom and
the "l" as a fallback atom, so five atoms and four edges are created and the middle
carbon stores no halogen bond. For Br, F and I the claim holds: three atoms labelled
"C", the edges (1,2) and (2,3), and halogen count 1 on the middle carbon. -/
theorem parenthesised_chlorine_becomes_atoms :
    (parsed "CH3CH(Cl)CH3").carbons.map (fun p => (p.1, p.2.label, p.2.C_X_bonds))
      = [(1, "C", 0), (2, "C", 0), (3, "C", 0), (4, "l", 0), (5, "C", 0)]
    ∧ (parsed "CH3CH(Cl)CH3").edges = [(1, 2), (2, 3), (3, 4), (2, 5)]
    ∧ ∀ X ∈ ["Br", "F", "I"],
        (parsed ("CH3CH(" ++ X ++ ")CH3")).carbons.map
            (fun p => (p.1, p.2.label, p.2.C_X_bonds))
          = [(1, "C", 0), (2, "C", 1), (3, "C", 0)]
        ∧ (parsed ("CH3CH(" ++ X ++ ")CH3")).edges = [(1, 2), (2, 3)] := by
  decide

theorem parseStep_of_ignored (c : Char) (rest : List Char) (g : MolecularGraph)
    (hc : c = ')' ∨ (c.isAlpha = false ∧ c ≠ '(')) :
    parseStep (c :: rest) ⟨g, 0, []⟩ = (1, ⟨g, 0, []⟩) := by
  have hC : c ≠ 'C' := by
    rcases hc with h | h
    · rw [h]
      decide
    · intro h1
      rw [h1] at h
      exact absurd h.1 (by decide)
  have hpre : "COOH".data.isPrefixOf (c :: rest) = false := by
    show ('C' :: 'O' :: 'O' :: 'H' :: []).isPrefixOf (c :: rest) = false
    simp only [List.isPrefixOf, Bool.and_eq_false_imp, beq_iff_eq]
    intro h
    exact absurd h.symm hC
  unfold parseStep
  simp only [hpre, Bool.false_eq_true, if_false, if_neg hC]
  rcases hc with h | h
  · subst h
    simp
  · by_cases h2 : c = ')'
    · subst h2
      simp
    · simp [h.1, h.2, h2]

/-- C15: a leading character that is ")" or that is neither a letter nor "(" is
passed over without any effect: the parse of the formula with that character in
front is the same graph, atoms, counters, adjacency and edge list included, as the
parse of the formula itself. The parser is a total function, so nothing is
raised. -/
theorem leading_character_ignored (f : String) (c : Char)
    (hc : c = ')' ∨ (c.isAlpha = false ∧ c ≠ '(')) :
    parsed (String.mk (c :: f.data)) = parsed f := by
  unfold parsed MolecularGraph.parseMolecularFormula MolecularGraph.fresh
  show (parseLoop (c :: f.data) 0 _).graph = _
  rw [parseLoop, parseStep_of_ignored c f.data _ hc]
  rfl

theorem leading_character_ignored_witness :
    parsed (String.mk ('7' :: "CH3CH2Cl".data)) = parsed "CH3CH2Cl"
    ∧ parsed (String.mk (')' :: "CH3CH2Cl".data)) = parsed "CH3CH2Cl" :=
  ⟨leading_character_ignored "CH3CH2Cl" '7' (Or.inr (by decide)),
   leading_character_ignored "CH3CH2Cl" ')' (Or.inl rfl)⟩

/-! ## Theorems: the ring heuristic in full -/

theorem mapFind_of_mem_nodup {β : Type} :
    ∀ (m : List (Nat × β)) (k : Nat) (v : β), (m.map Prod.fst).Nodup → (k, v) ∈ m →
      mapFind m k = some v
  | [], _, _, _, h => absurd h (List.not_mem_nil _)
  | (k1, v1) :: rest, k, v, hn, h => by
    simp only [List.map_cons, List.nodup_cons] at hn
    unfold mapFind
    rcases List.mem_cons.mp h with h1 | h1
    · simp only [Prod.mk.injEq] at h1
      rw [if_pos h1.1.symm, h1.2]
    · have hne : k1 ≠ k := by
        intro hc
        apply hn.1
        rw [hc]
        exact List.mem_map_of_mem Prod.fst h1
      rw [if_neg hne]
      exact mapFind_of_mem_nodup rest k v hn.2 h1

theorem ringCandidates_spec (t : Traversal (Nat × CarbonNode)) (g : MolecularGraph)
    (hkeys : (g.carbons.map Prod.fst).Nodup) :
    (((t.order g.carbons).filter (fun p => p.2.getTotalBonds = 3)).map (fun p => p.1)).Nodup
    ∧ ∀ a ∈ ((t.order g.carbons).filter (fun p => p.2.getTotalBonds = 3)).map (fun p => p.1),
        ∃ ca, mapFind g.carbons a = some ca ∧ ca.getTotalBonds = 3 := by
  have hperm := t.order_perm g.carbons
  have hnodup : ((t.order g.carbons).map Prod.fst).Nodup :=
    (hperm.map Prod.fst).nodup_iff.mpr hkeys
  refine ⟨?_, ?_⟩
  · exact List.Nodup.sublist (List.Sublist.map Prod.fst (List.filter_sublist _)) hnodup
  · intro a ha
    obtain ⟨p, hp, hpa⟩ := List.mem_map.mp ha
    obtain ⟨hp1, hp2⟩ := List.mem_filter.mp hp
    refine ⟨p.2, ?_, by simpa using hp2⟩
    apply mapFind_of_mem_nodup g.carbons a p.2 hkeys
    rw [← hpa]
    exact hperm.mem_iff.mp hp1

/-- C20: for a graph whose atom keys are pairwise different, as in every
`unordered_map`, `hasCyclicEdge` returns true exactly when at least two atoms have
total bond count 3; when it returns true it has added one bond, between two different
atoms that both had total bond count 3, and when it returns false the graph is
unchanged. -/
theorem hasCyclicEdge_spec (t : Traversal (Nat × CarbonNode)) (g : MolecularGraph)
    (hkeys : (g.carbons.map Prod.fst).Nodup) :
    ((g.hasCyclicEdge t).1 = true
      ↔ 2 ≤ (g.carbons.filter (fun p => p.2.getTotalBonds = 3)).length)
    ∧ ((g.hasCyclicEdge t).1 = true →
        ∃ a b ca cb, a ≠ b
          ∧ mapFind g.carbons a = some ca ∧ ca.getTotalBonds = 3
          ∧ mapFind g.carbons b = some cb ∧ cb.getTotalBonds = 3
          ∧ (g.hasCyclicEdge t).2 = g.addEdge a b
          ∧ (g.hasCyclicEdge t).2.edges = g.edges ++ [(a, b)])
    ∧ ((g.hasCyclicEdge t).1 = false → (g.hasCyclicEdge t).2 = g) := by
  refine ⟨?_, ?_, hasCyclicEdge_snd_of_false t g⟩
  · constructor
    · intro h
      by_contra hlt
      rw [hasCyclicEdge_of_lt_two t g (by omega)] at h
      exact absurd h (by simp)
    · exact hasCyclicEdge_fst_of_two t g
  · intro h
    obtain ⟨hnodup, hmem⟩ := ringCandidates_spec t g hkeys
    unfold MolecularGraph.hasCyclicEdge at h ⊢
    generalize ((t.order g.carbons).filter (fun p => p.2.getTotalBonds = 3)).map
      (fun p => p.1) = candidates at h hnodup hmem ⊢
    match candidates, h, hnodup, hmem with
    | [], h, _, _ => exact absurd h (by simp)
    | [_], h, _, _ => exact absurd h (by simp)
    | a :: b :: rest, _, hnodup, hmem =>
      obtain ⟨ca, hca, hca3⟩ := hmem a (List.mem_cons_self _ _)
      obtain ⟨cb, hcb, hcb3⟩ := hmem b (List.mem_cons_of_mem _ (List.mem_cons_self _ _))
      have hab : a ≠ b := by
        intro hc
        rw [hc] at hnodup
        exact (List.nodup_cons.mp hnodup).1 (List.mem_cons_self _ _)
      exact ⟨a, b, ca, cb, hab, hca, hca3, hcb, hcb3, rfl, rfl⟩

theorem hasCyclicEdge_spec_witness :
    (((parsed "CH2CH2").hasCyclicEdge (Traversal.reversed _)).1 = true
      ↔ 2 ≤ ((parsed "CH2CH2").carbons.filter (fun p => p.2.getTotalBonds = 3)).length)
    ∧ (((parsed "CH2CH2").hasCyclicEdge (Traversal.reversed _)).1 = true →
        ∃ a b ca cb, a ≠ b
          ∧ mapFind (parsed "CH2CH2").carbons a = some ca ∧ ca.getTotalBonds = 3
          ∧ mapFind (parsed "CH2CH2").carbons b = some cb ∧ cb.getTotalBonds = 3
          ∧ ((parsed "CH2CH2").hasCyclicEdge (Traversal.reversed _)).2
            = (parsed "CH2CH2").addEdge a b
          ∧ ((parsed "CH2CH2").hasCyclicEdge (Traversal.reversed _)).2.edges
            = (parsed "CH2CH2").edges ++ [(a, b)])
    ∧ (((parsed "CH2CH2").hasCyclicEdge (Traversal.reversed _)).1 = false →
        ((parsed "CH2CH2").hasCyclicEdge (Traversal.reversed _)).2 = parsed "CH2CH2") :=
  hasCyclicEdge_spec (Traversal.reversed _) (parsed "CH2CH2") (by decide)

theorem keys_mapSet {β : Type} (k : Nat) (v : β) :
    ∀ (m : List (Nat × β)),
      (mapSet m k v).map Prod.fst
        = if k ∈ m.map Prod.fst then m.map Prod.fst else m.map Prod.fst ++ [k]
  | [] => by simp [mapSet]
  | (k1, v1) :: rest => by
    unfold mapSet
    by_cases h : k1 = k
    · simp [h]
    · have hne : ¬ k = k1 := fun hc => h hc.symm
      rw [if_neg h, List.map_cons, keys_mapSet k v rest]
      by_cases hm : k ∈ rest.map Prod.fst
      · simp [hm]
      · simp [hm, hne]

theorem keys_mapModify {β : Type} (dflt : β) (f : β → β) (k : Nat) :
    ∀ (m : List (Nat × β)),
      (mapModify dflt f m k).map Prod.fst
        = if k ∈ m.map Prod.fst then m.map Prod.fst else m.map Prod.fst ++ [k]
  | [] => by simp [mapModify]
  | (k1, v1) :: rest => by
    unfold mapModify
    by_cases h : k1 = k
    · simp [h]
    · have hne : ¬ k = k1 := fun hc => h hc.symm
      rw [if_neg h, List.map_cons, keys_mapModify dflt f k rest]
      by_cases hm : k ∈ rest.map Prod.fst
      · simp [hm]
      · simp [hm, hne]

theorem nodup_keys_step (keys : List Nat) (k : Nat) (h : keys.Nodup) :
    (if k ∈ keys then keys else keys ++ [k]).Nodup := by
  split
  · exact h
  · rename_i hk
    refine List.nodup_append.mpr ⟨h, List.nodup_singleton k, ?_⟩
    intro x hx hx1
    rw [List.mem_singleton.mp hx1] at hx
    exact hk hx

theorem nodup_keys_mapModify {β : Type} (dflt : β) (f : β → β) (k : Nat) (m : List (Nat × β))
    (h : (m.map Prod.fst).Nodup) : ((mapModify dflt f m k).map Prod.fst).Nodup := by
  rw [keys_mapModify]
  exact nodup_keys_step _ k h

theorem nodup_keys_mapSet {β : Type} (k : Nat) (v : β) (m : List (Nat × β))
    (h : (m.map Prod.fst).Nodup) : ((mapSet m k v).map Prod.fst).Nodup := by
  rw [keys_mapSet]
  exact nodup_keys_step _ k h

theorem parseStep_keys (cs : List Char) (st : ParseState)
    (h : (st.graph.carbons.map Prod.fst).Nodup) :
    ((parseStep cs st).2.graph.carbons.map Prod.fst).Nodup := by
  have hset : ∀ (g : MolecularGraph) (l : String), (g.carbons.map Prod.fst).Nodup →
      ((g.addCarbon l).carbons.map Prod.fst).Nodup :=
    fun g l hg => nodup_keys_mapSet _ _ _ hg
  have hedge : ∀ (g : MolecularGraph) (a b : Nat), (g.carbons.map Prod.fst).Nodup →
      ((g.addEdge a b).carbons.map Prod.fst).Nodup :=
    fun g a b hg => nodup_keys_mapModify _ _ _ _ (nodup_keys_mapModify _ _ _ _ hg)
  have hx : ∀ (g : MolecularGraph) (a : Nat), (g.carbons.map Prod.fst).Nodup →
      ((g.incrementC_X a).carbons.map Prod.fst).Nodup :=
    fun g a hg => nodup_keys_mapModify _ _ _ _ hg
  have hh : ∀ (g : MolecularGraph) (a n : Nat), (g.carbons.map Prod.fst).Nodup →
      ((g.incrementC_H a n).carbons.map Prod.fst).Nodup :=
    fun g a n hg => nodup_keys_mapModify _ _ _ _ hg
  unfold parseStep
  cases cs with
  | nil => exact h
  | cons ch rest =>
    simp only
    split_ifs
    all_goals try split
    all_goals simp only
    all_goals first
      | exact h
      | exact hset _ _ h
      | exact hedge _ _ _ (hset _ _ h)
      | exact hx _ _ h
      | exact hh _ _ _ (hset _ _ h)
      | exact hx _ _ (hset _ _ h)
      | exact hx _ _ (hh _ _ _ (hset _ _ h))
      | exact hedge _ _ _ (hh _ _ _ (hset _ _ h))
      | exact hedge _ _ _ (hx _ _ (hset _ _ h))
      | exact hedge _ _ _ (hx _ _ (hh _ _ _ (hset _ _ h)))

theorem parseLoop_keys :
    ∀ (cs : List Char) (skip : Nat) (st : ParseState),
      (st.graph.carbons.map Prod.fst).Nodup →
      ((parseLoop cs skip st).graph.carbons.map Prod.fst).Nodup
  | [], _, _, h => h
  | _ :: cs, skip + 1, st, h => by
    rw [parseLoop]
    exact parseLoop_keys cs skip st h
  | c :: cs, 0, st, h => by
    rw [parseLoop]
    exact parseLoop_keys cs _ _ (parseStep_keys (c :: cs) st h)

/-- The atoms of every parsed graph have pairwise different keys. -/
theorem parsed_keys_nodup (formula : String) :
    ((parsed formula).carbons.map Prod.fst).Nodup := by
  unfold parsed MolecularGraph.parseMolecularFormula
  apply parseLoop_keys
  exact List.nodup_nil

/-! ## Theorems: `dfsWithConditions` returns a longest simple path -/

theorem validPath_single (graph : Adjacency) (ignoredNodes visited : List Nat) (node : Nat) :
    ValidPath graph ignoredNodes visited node [node] :=
  ⟨rfl, List.nodup_singleton node, List.chain'_singleton node,
    fun x hx => absurd hx (List.not_mem_nil x)⟩

theorem validPath_length_pos (graph : Adjacency) (ignoredNodes visited : List Nat) (node : Nat)
    (path : List Nat) (h : ValidPath graph ignoredNodes visited node path) :
    1 ≤ path.length := by
  cases path with
  | nil => exact absurd h.1 (by simp)
  | cons a l => simp

/-- A valid path from a neighbour that avoids the node extends to a valid path from
the node. -/
theorem validPath_cons (graph : Adjacency) (ignoredNodes visited : List Nat) (node nb : Nat)
    (path : List Nat) (hnb : nb ∈ neighbors graph node) (hv : nb ∉ setInsert visited node)
    (hi : nb ∉ ignoredNodes)
    (h : ValidPath graph ignoredNodes (setInsert visited node) nb path) :
    ValidPath graph ignoredNodes visited node (node :: path) := by
  obtain ⟨hhead, hnodup, hchain, htail⟩ := h
  cases path with
  | nil => exact absurd hhead (by simp)
  | cons a l =>
    simp only [List.head?_cons, Option.some.injEq] at hhead
    subst hhead
    simp only [List.tail_cons] at htail
    have hvis : ∀ x ∈ a :: l, x ∉ setInsert visited node := by
      intro x hx
      rcases List.mem_cons.mp hx with h1 | h1
      · rw [h1]
        exact hv
      · exact (htail x h1).1
    refine ⟨rfl, ?_, ?_, ?_⟩
    · refine List.nodup_cons.mpr ⟨?_, hnodup⟩
      intro hmem
      exact hvis node hmem ((mem_setInsert visited node node).mpr (Or.inr rfl))
    · exact List.chain'_cons.mpr ⟨hnb, hchain⟩
    · intro x hx
      simp only [List.tail_cons] at hx
      refine ⟨fun hc => hvis x hx ((mem_setInsert visited node x).mpr (Or.inl hc)), ?_⟩
      rcases List.mem_cons.mp hx with h1 | h1
      · rw [h1]
        exact hi
      · exact (htail x h1).2

/-- A valid path from the node with more than one node continues with a valid path
from an eligible neighbour that avoids the node. -/
theorem validPath_tail (graph : Adjacency) (ignoredNodes visited : List Nat) (node nb : Nat)
    (rest : List Nat) (h : ValidPath graph ignoredNodes visited node (node :: nb :: rest)) :
    nb ∈ neighbors graph node ∧ nb ∉ setInsert visited node ∧ nb ∉ ignoredNodes
    ∧ ValidPath graph ignoredNodes (setInsert visited node) nb (nb :: rest) := by
  obtain ⟨_, hnodup, hchain, htail⟩ := h
  simp only [List.tail_cons] at htail
  obtain ⟨hnotin, hnodup1⟩ := List.nodup_cons.mp hnodup
  obtain ⟨hadj, hchain1⟩ := List.chain'_cons.mp hchain
  have hne : ∀ x ∈ nb :: rest, x ∉ setInsert visited node := by
    intro x hx hc
    rcases (mem_setInsert visited node x).mp hc with h1 | h1
    · exact (htail x hx).1 h1
    · exact hnotin (h1 ▸ hx)
  refine ⟨hadj, hne nb (List.mem_cons_self _ _), (htail nb (List.mem_cons_self _ _)).2,
    rfl, hnodup1, hchain1, ?_⟩
  intro x hx
  simp only [List.tail_cons] at hx
  exact ⟨hne x (List.mem_cons_of_mem _ hx), (htail x (List.mem_cons_of_mem _ hx)).2⟩

theorem dfsLoop_longest (graph : Adjacency) (ignoredNodes : List Nat)
    (recurse : Nat → List Nat → Option ((Nat × List Nat) × List Nat)) (node : Nat)
    (visited : List Nat)
    (hrec : ∀ nb, nb ∈ neighbors graph node → nb ∉ setInsert visited node →
      ∃ len path, recurse nb (setInsert visited node) = some ((len, path), setInsert visited node)
        ∧ ValidPath graph ignoredNodes (setInsert visited node) nb path
        ∧ len + 1 = path.length
        ∧ ∀ q, ValidPath graph ignoredNodes (setInsert visited node) nb q →
            q.length ≤ path.length) :
    ∀ (nbrs : List Nat) (best : Nat × List Nat),
      (∀ nb ∈ nbrs, nb ∈ neighbors graph node) →
      ValidPath graph ignoredNodes visited node best.2 → best.1 + 1 = best.2.length →
      ∃ out, dfsLoop recurse ignoredNodes node nbrs best (setInsert visited node)
          = some (out, setInsert visited node)
        ∧ ValidPath graph ignoredNodes visited node out.2
        ∧ out.1 + 1 = out.2.length
        ∧ best.1 ≤ out.1
        ∧ ∀ nb ∈ nbrs, nb ∉ setInsert visited node → nb ∉ ignoredNodes →
            ∀ q, ValidPath graph ignoredNodes (setInsert visited node) nb q → q.length ≤ out.1
  | [], best, _, hb, hl =>
    ⟨best, rfl, hb, hl, Nat.le_refl _, fun nb hnb => absurd hnb (List.not_mem_nil nb)⟩
  | nb :: rest, best, hn, hb, hl => by
    have hrest : ∀ x ∈ rest, x ∈ neighbors graph node :=
      fun x hx => hn x (List.mem_cons_of_mem nb hx)
    have hadj := hn nb (List.mem_cons_self nb rest)
    unfold dfsLoop
    by_cases hcond : nb ∉ setInsert visited node ∧ nb ∉ ignoredNodes
    · rw [if_pos hcond]
      obtain ⟨len, path, hr, hvp, hlen, hmax⟩ := hrec nb hadj hcond.1
      rw [hr]
      simp only
      by_cases hgt : len + 1 > best.1
      · rw [if_pos hgt]
        obtain ⟨out, ho, hov, hol, hob, hoq⟩ :=
          dfsLoop_longest graph ignoredNodes recurse node visited hrec rest
            (len + 1, node :: path) hrest
            (validPath_cons graph ignoredNodes visited node nb path hadj hcond.1 hcond.2 hvp)
            (by simp only [List.length_cons]; omega)
        refine ⟨out, ho, hov, hol, by simp only at hob; omega, ?_⟩
        intro x hx hxv hxi q hq
        rcases List.mem_cons.mp hx with h1 | h1
        · rw [h1] at hq
          have := hmax q hq
          simp only at hob
          omega
        · exact hoq x h1 hxv hxi q hq
      · rw [if_neg hgt]
        obtain ⟨out, ho, hov, hol, hob, hoq⟩ :=
          dfsLoop_longest graph ignoredNodes recurse node visited hrec rest best hrest hb hl
        refine ⟨out, ho, hov, hol, hob, ?_⟩
        intro x hx hxv hxi q hq
        rcases List.mem_cons.mp hx with h1 | h1
        · rw [h1] at hq
          have := hmax q hq
          omega
        · exact hoq x h1 hxv hxi q hq
    · rw [if_neg hcond]
      obtain ⟨out, ho, hov, hol, hob, hoq⟩ :=
        dfsLoop_longest graph ignoredNodes recurse node visited hrec rest best hrest hb hl
      refine ⟨out, ho, hov, hol, hob, ?_⟩
      intro x hx hxv hxi q hq
      rcases List.mem_cons.mp hx with h1 | h1
      · exact absurd ⟨h1 ▸ hxv, h1 ▸ hxi⟩ hcond
      · exact hoq x h1 hxv hxi q hq

theorem dfsWithConditions_longest (graph : Adjacency) (ignoredNodes : List Nat) :
    ∀ (fuel node : Nat) (visited : List Nat), node ∉ visited →
      unvisitedCount graph (setInsert visited node) < fuel →
      ∃ len path, dfsWithConditions graph ignoredNodes fuel node visited
          = some ((len, path), visited)
        ∧ ValidPath graph ignoredNodes visited node path
        ∧ len + 1 = path.length
        ∧ ∀ q, ValidPath graph ignoredNodes visited node q → q.length ≤ path.length
  | 0, _, _, _, h => absurd h (Nat.not_lt_zero _)
  | fuel + 1, node, visited, hv, hf => by
    unfold dfsWithConditions
    obtain ⟨out, ho, hov, hol, _, hoq⟩ := dfsLoop_longest graph ignoredNodes
      (dfsWithConditions graph ignoredNodes fuel) node visited
      (fun nb hnb hnv => dfsWithConditions_longest graph ignoredNodes fuel nb _ hnv
        (by
          have := unvisitedCount_insert_lt graph (setInsert visited node) nb
            (mem_allNeighbors graph node nb hnb) hnv
          omega))
      (neighbors graph node) (0, [node]) (fun _ h => h)
      (validPath_single graph ignoredNodes visited node) rfl
    rw [ho]
    refine ⟨out.1, out.2, by simp only [setErase_setInsert visited node hv], hov, hol, ?_⟩
    intro q hq
    have hhead := hq.1
    cases q with
    | nil => exact absurd hhead (by simp)
    | cons a l =>
      simp only [List.head?_cons, Option.some.injEq] at hhead
      subst hhead
      cases l with
      | nil =>
        simp only [List.length_singleton]
        omega
      | cons nb rest =>
        obtain ⟨hadj, hnv, hni, hvp⟩ := validPath_tail graph ignoredNodes visited a nb rest hq
        have := hoq nb hadj hnv hni (nb :: rest) hvp
        simp only [List.length_cons] at this ⊢
        omega

/-- C16: for every adjacency, ignored set, visited set and node outside the visited
set, `dfsWithConditions` returns a pair (len, path), and leaves the visited set as it
was, where the path starts with the node, repeats no node, has every node in the
adjacency vector of the one before it, has every node after the first outside the
visited and the ignored set, has len + 1 nodes, and is at least as long as every
path with these properties from the node. -/
theorem dfs_returns_longest_path (graph : Adjacency) (ignoredNodes visited : List Nat)
    (node : Nat) (hv : node ∉ visited) :
    ∃ len path, dfsWithConditions graph ignoredNodes (searchFuel graph) node visited
        = some ((len, path), visited)
      ∧ path.head? = some node
      ∧ path.Nodup
      ∧ List.Chain' (fun x y => y ∈ neighbors graph x) path
      ∧ (∀ x ∈ path.tail, x ∉ visited ∧ x ∉ ignoredNodes)
      ∧ len = path.length - 1
      ∧ ∀ q : List Nat, q.head? = some node → q.Nodup →
          List.Chain' (fun x y => y ∈ neighbors graph x) q →
          (∀ x ∈ q.tail, x ∉ visited ∧ x ∉ ignoredNodes) → q.length ≤ path.length := by
  obtain ⟨len, path, hr, hvp, hlen, hmax⟩ :=
    dfsWithConditions_longest graph ignoredNodes (searchFuel graph) node visited hv
      (by
        rw [searchFuel_eq]
        exact Nat.lt_succ_of_le (unvisitedCount_le graph _))
  exact ⟨len, path, hr, hvp.1, hvp.2.1, hvp.2.2.1, hvp.2.2.2, by omega,
    fun q h1 h2 h3 h4 => hmax q ⟨h1, h2, h3, h4⟩⟩

theorem dfs_returns_longest_path_witness :
    ∃ len path, dfsWithConditions (addEdge (addEdge (addEdge [] 0 1) 1 2) 1 3) [3]
        (searchFuel (addEdge (addEdge (addEdge [] 0 1) 1 2) 1 3)) 0 [7]
        = some ((len, path), [7])
      ∧ path.head? = some 0
      ∧ path.Nodup
      ∧ List.Chain' (fun x y => y ∈ neighbors (addEdge (addEdge (addEdge [] 0 1) 1 2) 1 3) x) path
      ∧ (∀ x ∈ path.tail, x ∉ [7] ∧ x ∉ [3])
      ∧ len = path.length - 1
      ∧ ∀ q : List Nat, q.head? = some 0 → q.Nodup →
          List.Chain' (fun x y => y ∈ neighbors (addEdge (addEdge (addEdge [] 0 1) 1 2) 1 3) x) q →
          (∀ x ∈ q.tail, x ∉ [7] ∧ x ∉ [3]) → q.length ≤ path.length :=
  dfs_returns_longest_path (addEdge (addEdge (addEdge [] 0 1) 1 2) 1 3) [3] [7] 0 (by decide)

/-! ## Theorems: the carboxyl-anchored chain -/

theorem coohLoop_spec (graph : Adjacency) (ignoredNodes : List Nat) :
    ∀ (order acc : List Nat),
      ∃ chain, coohLoop graph ignoredNodes order acc = some chain
        ∧ (chain = acc ∨ ∃ c ∈ order, ValidPath graph ignoredNodes [] c chain)
        ∧ acc.length ≤ chain.length
        ∧ ∀ c ∈ order, ∀ q, ValidPath graph ignoredNodes [] c q → q.length ≤ chain.length
  | [], acc =>
    ⟨acc, rfl, Or.inl rfl, Nat.le_refl _, fun c hc => absurd hc (List.not_mem_nil c)⟩
  | c :: rest, acc => by
    obtain ⟨len, path, hr, hvp, _, hmax⟩ :=
      dfsWithConditions_longest graph ignoredNodes (searchFuel graph) c [] (List.not_mem_nil c)
        (by
          rw [searchFuel_eq]
          exact Nat.lt_succ_of_le (unvisitedCount_le graph _))
    unfold coohLoop
    rw [hr]
    simp only
    by_cases hgt : path.length > acc.length
    · rw [if_pos hgt]
      obtain ⟨chain, hc, hfrom, hlen, hall⟩ := coohLoop_spec graph ignoredNodes rest path
      refine ⟨chain, hc, ?_, by omega, ?_⟩
      · rcases hfrom with h1 | ⟨c1, hc1, hv1⟩
        · exact Or.inr ⟨c, List.mem_cons_self c rest, h1 ▸ hvp⟩
        · exact Or.inr ⟨c1, List.mem_cons_of_mem c hc1, hv1⟩
      · intro c1 hc1 q hq
        rcases List.mem_cons.mp hc1 with h1 | h1
        · rw [h1] at hq
          have := hmax q hq
          omega
        · exact hall c1 h1 q hq
    · rw [if_neg hgt]
      obtain ⟨chain, hc, hfrom, hlen, hall⟩ := coohLoop_spec graph ignoredNodes rest acc
      refine ⟨chain, hc, ?_, hlen, ?_⟩
      · rcases hfrom with h1 | ⟨c1, hc1, hv1⟩
        · exact Or.inl h1
        · exact Or.inr ⟨c1, List.mem_cons_of_mem c hc1, hv1⟩
      · intro c1 hc1 q hq
        rcases List.mem_cons.mp hc1 with h1 | h1
        · rw [h1] at hq
          have := hmax q hq
          omega
        · exact hall c1 h1 q hq

/-- C18 fails in its last part: `findLongestChainWithCOOH` returns the reverse of a
longest simple path found from the carboxyl nodes, so the carboxyl atom the path was
anchored at is the last element of the returned chain, not the first. The chain has
as many nodes as the longest path from any carboxyl node. For the adjacency of
"COOHCH2CH3" (COOH1 = 0, C2 = 1, C3 = 2) the chain returned is 2, 1, 0. -/
theorem carboxyl_anchor_is_last (t : Traversal Nat) (graph : Adjacency)
    (coohNodes ignoredNodes : List Nat) (hne : coohNodes ≠ []) :
    (∃ chain c, findLongestChainWithCOOH t graph coohNodes ignoredNodes = some chain
      ∧ c ∈ coohNodes
      ∧ ValidPath graph ignoredNodes [] c chain.reverse
      ∧ chain.getLast? = some c
      ∧ ∀ c1 ∈ coohNodes, ∀ q, ValidPath graph ignoredNodes [] c1 q → q.length ≤ chain.length)
    ∧ findLongestChainWithCOOH t (addEdge (addEdge [] 0 1) 1 2) [0] [] = some [2, 1, 0]
    ∧ ([2, 1, 0] : List Nat).head? ≠ some 0 := by
  refine ⟨?_, ?_, by decide⟩
  · obtain ⟨chain, hc, hfrom, _, hall⟩ :=
      coohLoop_spec graph ignoredNodes (t.order coohNodes) []
    have hperm := t.order_perm coohNodes
    unfold findLongestChainWithCOOH
    rw [hc]
    have hex : ∃ c ∈ t.order coohNodes, ValidPath graph ignoredNodes [] c chain := by
      rcases hfrom with h1 | h1
      · cases hord : t.order coohNodes with
        | nil =>
          rw [hord] at hperm
          exact absurd (List.nil_perm.mp hperm) hne
        | cons c rest =>
          have h2 := hall c (by rw [hord]; exact List.mem_cons_self c rest) [c]
            (validPath_single graph ignoredNodes [] c)
          rw [h1] at h2
          simp at h2
      · exact h1
    obtain ⟨c, hcm, hvp⟩ := hex
    refine ⟨chain.reverse, c, rfl, hperm.mem_iff.mp hcm, ?_, ?_, ?_⟩
    · rw [List.reverse_reverse]
      exact hvp
    · rw [List.getLast?_reverse]
      exact hvp.1
    · intro c1 hc1 q hq
      rw [List.length_reverse]
      exact hall c1 (hperm.mem_iff.mpr hc1) q hq
  · unfold findLongestChainWithCOOH
    rw [order_of_short t [0] (by decide)]
    decide

theorem carboxyl_anchor_is_last_witness :
    (∃ chain c, findLongestChainWithCOOH (Traversal.reversed _)
        (addEdge (addEdge (addEdge [] 0 1) 1 2) 3 2) [0, 3] [] = some chain
      ∧ c ∈ [0, 3]
      ∧ ValidPath (addEdge (addEdge (addEdge [] 0 1) 1 2) 3 2) [] [] c chain.reverse
      ∧ chain.getLast? = some c
      ∧ ∀ c1 ∈ [0, 3], ∀ q, ValidPath (addEdge (addEdge (addEdge [] 0 1) 1 2) 3 2) [] [] c1 q →
          q.length ≤ chain.length)
    ∧ findLongestChainWithCOOH (Traversal.reversed _) (addEdge (addEdge [] 0 1) 1 2) [0] []
      = some [2, 1, 0]
    ∧ ([2, 1, 0] : List Nat).head? ≠ some 0 :=
  carboxyl_anchor_is_last (Traversal.reversed _) (addEdge (addEdge (addEdge [] 0 1) 1 2) 3 2)
    [0, 3] [] (by decide)

/-! ## Theorems: `combineBranches` and the empty branch name -/

/-- C19 fails for the empty branch name: the token "4-" of a branch of five carbons
has the name "", and since the loop looks for "-" followed by that name anywhere in
the next token, every token that follows is merged into it. The tokens "4-" and
"5-methyl" become the single token "(4,5)-di", in which the methyl is lost, and the
formula "CCCCH(C(C)(C)(C)C)CH(C)CCCC" is named "(4,5)-diNonane" for every iteration
order. -/
theorem empty_name_merges_next_token (o : Orders) :
    formatBranchName 5 0 = ""
    ∧ combineBranches ["4-", "5-methyl"] = ["(4,5)-di"]
    ∧ combineBranches ["1-", "2-chloro", "3-methyl"] = ["(1,2,3)-tri"]
    ∧ combineBranches ["2-methyl", "3-methyl", "4-ethyl"] = ["(2,3)-dimethyl", "4-ethyl"]
    ∧ ∃ naming, processSteps o [] (parsed "CCCCH(C(C)(C)(C)C)CH(C)CCCC") 0
          = Processed.named naming
        ∧ naming.optimalChain.map (mapFind naming.branchInfo)
          = [none, none, none, some [(5, 0)], some [(1, 0)], none, none, none, none]
        ∧ naming.name = "(4,5)-diNonane" := by
  refine ⟨by decide, by decide, by decide, by decide, ?_⟩
  have key : (processSteps o [] (parsed "CCCCH(C(C)(C)(C)C)CH(C)CCCC") 0).namedWith
      (fun naming => decide (naming.optimalChain.map (mapFind naming.branchInfo)
          = [none, none, none, some [(5, 0)], some [(1, 0)], none, none, none, none]
        ∧ naming.name = "(4,5)-diNonane")) = true :=
    processSteps_of_orderCheck _ _ _ _ _ (by decide!)
  obtain ⟨naming, hn, hq⟩ := namedWith_elim _ _ key
  simp only [decide_eq_true_eq] at hq
  exact ⟨naming, hn, hq⟩

/-! ## Theorems: simple paths -/

theorem exists_first_split (P : Nat → Prop) :
    ∀ (l : List Nat), (∃ x ∈ l, P x) →
      ∃ l0 x l1, l = l0 ++ x :: l1 ∧ P x ∧ ∀ y ∈ l0, ¬ P y
  | [], h => by
    obtain ⟨x, hx, _⟩ := h
    exact absurd hx (List.not_mem_nil x)
  | a :: t, h => by
    by_cases ha : P a
    · exact ⟨[], a, t, rfl, ha, fun y hy => absurd hy (List.not_mem_nil y)⟩
    · have ht : ∃ x ∈ t, P x := by
        obtain ⟨x, hx, hpx⟩ := h
        rcases List.mem_cons.mp hx with h1 | h1
        · exact absurd (h1 ▸ hpx) ha
        · exact ⟨x, h1, hpx⟩
      obtain ⟨l0, x, l1, hl, hpx, hno⟩ := exists_first_split P t ht
      refine ⟨a :: l0, x, l1, by rw [hl]; rfl, hpx, ?_⟩
      intro y hy
      rcases List.mem_cons.mp hy with h1 | h1
      · rw [h1]
        exact ha
      · exact hno y h1

theorem exists_last_split (P : Nat → Prop) :
    ∀ (l : List Nat), (∃ x ∈ l, P x) →
      ∃ l0 x l1, l = l0 ++ x :: l1 ∧ P x ∧ ∀ y ∈ l1, ¬ P y
  | [], h => by
    obtain ⟨x, hx, _⟩ := h
    exact absurd hx (List.not_mem_nil x)
  | a :: t, h => by
    by_cases ht : ∃ x ∈ t, P x
    · obtain ⟨l0, x, l1, hl, hpx, hno⟩ := exists_last_split P t ht
      exact ⟨a :: l0, x, l1, by rw [hl]; rfl, hpx, hno⟩
    · have ha : P a := by
        obtain ⟨x, hx, hpx⟩ := h
        rcases List.mem_cons.mp hx with h1 | h1
        · exact h1 ▸ hpx
        · exact absurd ⟨x, h1, hpx⟩ ht
      exact ⟨[], a, t, rfl, ha, fun y hy hpy => ht ⟨y, hy, hpy⟩⟩

theorem simplePath_left (graph : Adjacency) (ign l1 l2 : List Nat)
    (h : SimplePath graph ign (l1 ++ l2)) : SimplePath graph ign l1 :=
  ⟨(List.nodup_append.mp h.1).1, (List.chain'_append.mp h.2.1).1,
    fun x hx => h.2.2 x (List.mem_append_left l2 hx)⟩

theorem simplePath_right (graph : Adjacency) (ign l1 l2 : List Nat)
    (h : SimplePath graph ign (l1 ++ l2)) : SimplePath graph ign l2 :=
  ⟨(List.nodup_append.mp h.1).2.1, (List.chain'_append.mp h.2.1).2.1,
    fun x hx => h.2.2 x (List.mem_append_right l1 hx)⟩

/-- Two simple paths that share exactly the node where the first one ends and the
second one starts join into a simple path. -/
theorem simplePath_join (graph : Adjacency) (ign l1 : List Nat) (x : Nat) (l2 : List Nat)
    (h1 : SimplePath graph ign (l1 ++ [x])) (h2 : SimplePath graph ign (x :: l2))
    (hd : ∀ y ∈ l1, y ∉ l2) : SimplePath graph ign (l1 ++ x :: l2) := by
  refine ⟨?_, ?_, ?_⟩
  · refine List.nodup_append.mpr ⟨(List.nodup_append.mp h1.1).1, h2.1, ?_⟩
    intro y hy1 hy2
    rcases List.mem_cons.mp hy2 with h3 | h3
    · exact (List.nodup_append.mp h1.1).2.2 hy1 (by rw [h3]; exact List.mem_singleton_self x)
    · exact hd y hy1 h3
  · exact List.chain'_split.mpr ⟨h1.2.1, h2.2.1⟩
  · intro y hy
    rcases List.mem_append.mp hy with h3 | h3
    · exact h1.2.2 y (List.mem_append_left _ h3)
    · exact h2.2.2 y h3

theorem simplePath_reverse (graph : Adjacency) (ign : List Nat)
    (hsym : ∀ x y, x ∉ ign → y ∉ ign → y ∈ neighbors graph x → x ∈ neighbors graph y)
    (p : List Nat) (h : SimplePath graph ign p) : SimplePath graph ign p.reverse := by
  refine ⟨List.nodup_reverse.mpr h.1, ?_, fun x hx => h.2.2 x (List.mem_reverse.mp hx)⟩
  rw [List.chain'_reverse]
  have hall := h.2.2
  have hch := h.2.1
  clear h
  induction p with
  | nil => exact List.chain'_nil
  | cons a l ih =>
    cases l with
    | nil => exact List.chain'_singleton a
    | cons b l2 =>
      obtain ⟨hab, hrest⟩ := List.chain'_cons.mp hch
      refine List.chain'_cons.mpr ⟨?_, ih (fun x hx => hall x (List.mem_cons_of_mem a hx)) hrest⟩
      exact hsym a b (hall a (List.mem_cons_self _ _))
        (hall b (List.mem_cons_of_mem _ (List.mem_cons_self _ _))) hab

theorem validPath_of_simplePath (graph : Adjacency) (ign : List Nat) (node : Nat)
    (p : List Nat) (h : SimplePath graph ign p) (hh : p.head? = some node) :
    ValidPath graph ign [] node p :=
  ⟨hh, h.1, h.2.1, fun x hx => ⟨List.not_mem_nil x, h.2.2 x (List.mem_of_mem_tail hx)⟩⟩

theorem simplePath_of_validPath (graph : Adjacency) (ign : List Nat) (node : Nat)
    (p : List Nat) (hn : node ∉ ign) (h : ValidPath graph ign [] node p) :
    SimplePath graph ign p := by
  refine ⟨h.2.1, h.2.2.1, ?_⟩
  intro x hx
  cases p with
  | nil => exact absurd hx (List.not_mem_nil x)
  | cons a l =>
    have ha : a = node := by simpa using h.1
    rcases List.mem_cons.mp hx with h1 | h1
    · rw [h1, ha]
      exact hn
    · exact (h.2.2.2 x h1).2

/-- The step of the double sweep. Let `b0 ++ n :: b1` be a longest simple path from
its first node, and let the simple path `s0 ++ n :: g1` have the same first node and
`s0 ++ [n]` be the unique simple path to `n`. Then turning round at `n` gives the simple
path `b1.reverse ++ n :: f1`, from the far end of the longest path, with at least
`g1.length + 1 + f1.length` nodes. -/
theorem sweep_step (graph : Adjacency) (ign : List Nat)
    (htree : IsCarbonTree graph ign) (s : Nat) (b0 b1 s0 g1 f1 : List Nat) (n : Nat)
    (hP : SimplePath graph ign (b0 ++ n :: b1)) (hPs : (b0 ++ n :: b1).head? = some s)
    (hmax : ∀ q, ValidPath graph ign [] s q → q.length ≤ (b0 ++ n :: b1).length)
    (hG : SimplePath graph ign (s0 ++ n :: g1)) (hGs : (s0 ++ n :: g1).head? = some s)
    (hF : SimplePath graph ign (n :: f1)) (hd : ∀ y ∈ b1, y ∉ f1) :
    SimplePath graph ign (b1.reverse ++ n :: f1)
    ∧ (b1.reverse ++ n :: f1).head? = (b0 ++ n :: b1).getLast?
    ∧ g1.length + 1 + f1.length ≤ (b1.reverse ++ n :: f1).length := by
  have hB0 : SimplePath graph ign (b0 ++ [n]) := by
    have := simplePath_left graph ign (b0 ++ [n]) b1 (by simpa using hP)
    exact this
  have hS0 : SimplePath graph ign (s0 ++ [n]) := by
    have := simplePath_left graph ign (s0 ++ [n]) g1 (by simpa using hG)
    exact this
  have hheadB : (b0 ++ [n]).head? = some s := by
    cases b0 with
    | nil => simpa using hPs
    | cons a l => simpa using hPs
  have hheadS : (s0 ++ [n]).head? = some s := by
    cases s0 with
    | nil => simpa using hGs
    | cons a l => simpa using hGs
  have heq : b0 ++ [n] = s0 ++ [n] :=
    htree.acyclic _ _ ⟨by simp, hB0⟩ ⟨by simp, hS0⟩ (by rw [hheadB, hheadS]) (by simp)
  have hlen0 : b0.length = s0.length := by
    have := congrArg List.length heq
    simpa using this
  have hlenG := hmax (s0 ++ n :: g1) (validPath_of_simplePath graph ign s _ hG hGs)
  have hrev : SimplePath graph ign (b1.reverse ++ [n]) := by
    have h1 := simplePath_reverse graph ign htree.symmetric _
      (simplePath_right graph ign b0 (n :: b1) hP)
    simpa using h1
  refine ⟨?_, ?_, ?_⟩
  · apply simplePath_join graph ign _ n f1 hrev hF
    intro y hy
    exact hd y (List.mem_reverse.mp hy)
  · cases b1 with
    | nil => simp
    | cons c l =>
      rw [List.getLast?_append_cons, List.getLast?_cons_cons]
      have h1 : (c :: l).reverse ++ n :: f1 = (c :: l).reverse ++ (n :: f1) := rfl
      rw [h1, List.head?_append_of_ne_nil _ (by simp), List.head?_reverse]
  · simp only [List.length_append, List.length_cons, List.length_reverse] at hlenG ⊢
    omega

/-! ## Theorems: the double sweep on a tree -/

theorem head?_append_cons_of_head (l0 : List Nat) (x : Nat) (l1 l2 : List Nat) (s : Nat)
    (h : (l0 ++ x :: l1).head? = some s) : (l0 ++ x :: l2).head? = some s := by
  cases l0 with
  | nil => simpa using h
  | cons a l => simpa using h

/-- In a tree, from the far end of a longest simple path from `s` there is a simple
path at least as long as any given carbon chain `q` whose first node can be reached
from `s`. -/
theorem sweep_exists (graph : Adjacency) (ign : List Nat) (htree : IsCarbonTree graph ign)
    (s : Nat) (p q su : List Nat)
    (hP : SimplePath graph ign p) (hPs : p.head? = some s)
    (hmax : ∀ r, ValidPath graph ign [] s r → r.length ≤ p.length)
    (hQ : CarbonPath graph ign q)
    (hSu : SimplePath graph ign su) (hSus : su.head? = some s) (hSuu : su.getLast? = q.head?) :
    ∃ r, SimplePath graph ign r ∧ r.head? = p.getLast? ∧ q.length ≤ r.length := by
  -- the first node `m` of `su` that lies on `q`
  have hex : ∃ x ∈ su, x ∈ q := by
    cases q with
    | nil => exact absurd rfl hQ.1
    | cons u t =>
      refine ⟨u, List.mem_of_getLast?_eq_some (by simpa using hSuu), List.mem_cons_self u t⟩
  obtain ⟨a0, m, a1, hsu, hmq, ha0⟩ := exists_first_split (fun x => x ∈ q) su hex
  obtain ⟨q0, q1, hq⟩ := List.append_of_mem hmq
  have hQs := hQ.2
  subst hsu
  subst hq
  have hA : SimplePath graph ign (a0 ++ [m]) :=
    simplePath_left graph ign (a0 ++ [m]) a1 (by simpa using hSu)
  have hQ1 : SimplePath graph ign (m :: q1) := simplePath_right graph ign q0 (m :: q1) hQs
  have hQ0m : SimplePath graph ign (q0 ++ [m]) :=
    simplePath_left graph ign (q0 ++ [m]) q1 (by simpa using hQs)
  have hQ0r : SimplePath graph ign (m :: q0.reverse) := by
    have := simplePath_reverse graph ign htree.symmetric _ hQ0m
    simpa using this
  have hT1 : SimplePath graph ign (a0 ++ m :: q1) :=
    simplePath_join graph ign a0 m q1 hA hQ1
      (fun y hy hc => ha0 y hy (List.mem_append_right _ (List.mem_cons_of_mem _ hc)))
  have hT2 : SimplePath graph ign (a0 ++ m :: q0.reverse) :=
    simplePath_join graph ign a0 m q0.reverse hA hQ0r
      (fun y hy hc => ha0 y hy (List.mem_append_left _ (List.mem_reverse.mp hc)))
  have hT1s : (a0 ++ m :: q1).head? = some s := head?_append_cons_of_head a0 m a1 q1 s hSus
  have hT2s : (a0 ++ m :: q0.reverse).head? = some s :=
    head?_append_cons_of_head a0 m a1 q0.reverse s hSus
  -- the last node `n` of `p` that lies on `a0` or on `q`
  have hexP : ∃ x ∈ p, x ∈ a0 ∨ x ∈ q0 ++ m :: q1 := by
    refine ⟨s, List.mem_of_mem_head? hPs, ?_⟩
    cases a0 with
    | nil =>
      have hsm : m = s := by simpa using hSus
      exact Or.inr (by rw [← hsm]; simp)
    | cons c l =>
      have hsc : c = s := by simpa using hSus
      exact Or.inl (by rw [← hsc]; exact List.mem_cons_self c l)
  obtain ⟨b0, n, b1, hp, hn, hb1⟩ :=
    exists_last_split (fun x => x ∈ a0 ∨ x ∈ q0 ++ m :: q1) p hexP
  subst hp
  have hfin : ∀ (s0 g1 f1 : List Nat),
      SimplePath graph ign (s0 ++ n :: g1) → (s0 ++ n :: g1).head? = some s →
      SimplePath graph ign (n :: f1) → (∀ y ∈ f1, y ∈ a0 ∨ y ∈ q0 ++ m :: q1) →
      (q0 ++ m :: q1).length ≤ g1.length + 1 + f1.length →
      ∃ r, SimplePath graph ign r ∧ r.head? = (b0 ++ n :: b1).getLast?
        ∧ (q0 ++ m :: q1).length ≤ r.length := by
    intro s0 g1 f1 hG hGs hF hsub hlen
    obtain ⟨h1, h2, h3⟩ := sweep_step graph ign htree s b0 b1 s0 g1 f1 n hP hPs hmax hG hGs hF
      (fun y hy hc => hb1 y hy (hsub y hc))
    exact ⟨_, h1, h2, Nat.le_trans hlen h3⟩
  rcases hn with hn | hn
  · -- `n` lies on `a0`
    obtain ⟨c0, c1, hc⟩ := List.append_of_mem hn
    subst hc
    apply hfin c0 (c1 ++ m :: q0.reverse) (c1 ++ m :: q1)
    · simpa using hT2
    · simpa using hT2s
    · have := simplePath_right graph ign c0 (n :: c1 ++ m :: q1) (by simpa using hT1)
      simpa using this
    · intro y hy
      rcases List.mem_append.mp hy with h1 | h1
      · exact Or.inl (List.mem_append_right _ (List.mem_cons_of_mem _ h1))
      · exact Or.inr (List.mem_append_right _ h1)
    · simp only [List.length_append, List.length_cons, List.length_reverse]
      omega
  · rcases List.mem_append.mp hn with hn0 | hn1
    · -- `n` lies on `q` before `m`
      obtain ⟨d0, d1, hd⟩ := List.append_of_mem hn0
      subst hd
      apply hfin (a0 ++ m :: d1.reverse) d0.reverse (d1 ++ m :: q1)
      · simpa using hT2
      · simpa using hT2s
      · have := simplePath_right graph ign d0 (n :: d1 ++ m :: q1) (by simpa using hQs)
        simpa using this
      · intro y hy
        refine Or.inr ?_
        rcases List.mem_append.mp hy with h1 | h1
        · exact List.mem_append_left _ (List.mem_append_right _ (List.mem_cons_of_mem _ h1))
        · exact List.mem_append_right _ h1
      · simp only [List.length_append, List.length_cons, List.length_reverse]
        omega
    · rcases List.mem_cons.mp hn1 with hnm | hn2
      · -- `n` is `m`
        subst hnm
        apply hfin a0 q0.reverse q1 hT2 hT2s hQ1
        · intro y hy
          exact Or.inr (List.mem_append_right _ (List.mem_cons_of_mem _ hy))
        · simp only [List.length_append, List.length_cons, List.length_reverse]
          omega
      · -- `n` lies on `q` after `m`
        obtain ⟨d0, d1, hd⟩ := List.append_of_mem hn2
        subst hd
        apply hfin (a0 ++ m :: d0) d1 (d0.reverse ++ m :: q0.reverse)
        · simpa using hT1
        · simpa using hT1s
        · have h1 := simplePath_left graph ign (q0 ++ m :: d0 ++ [n]) d1 (by simpa using hQs)
          have h2 := simplePath_reverse graph ign htree.symmetric _ h1
          simpa using h2
        · intro y hy
          refine Or.inr ?_
          rcases List.mem_append.mp hy with h1 | h1
          · exact List.mem_append_right _ (List.mem_cons_of_mem _
              (List.mem_append_left _ (List.mem_reverse.mp h1)))
          · rcases List.mem_cons.mp h1 with h2 | h2
            · rw [h2]
              exact List.mem_append_right _ (List.mem_cons_self _ _)
            · exact List.mem_append_left _ (List.mem_reverse.mp h2)
        · simp only [List.length_append, List.length_cons, List.length_reverse]
          omega

theorem double_sweep_core (graph : Adjacency) (ign : List Nat) (htree : IsCarbonTree graph ign)
    (s : Nat) (hs : s ∉ ign) (hsn : s ∈ allNeighbors graph) :
    ∃ chain, findLongestCarbonChain graph s ign = some chain
      ∧ CarbonPath graph ign chain
      ∧ ∀ q, CarbonPath graph ign q → q.length ≤ chain.length := by
  have hfuel : ∀ x, unvisitedCount graph (setInsert [] x) < searchFuel graph := by
    intro x
    rw [searchFuel_eq]
    exact Nat.lt_succ_of_le (unvisitedCount_le graph _)
  obtain ⟨len1, p, hr1, hvp1, _, hmax1⟩ :=
    dfsWithConditions_longest graph ign (searchFuel graph) s [] (List.not_mem_nil s) (hfuel s)
  have hP : SimplePath graph ign p := simplePath_of_validPath graph ign s p hs hvp1
  obtain ⟨a, hlast⟩ : ∃ a, p.getLast? = some a := by
    cases p with
    | nil => exact absurd hvp1.1 (by simp)
    | cons c l => exact ⟨_, List.getLast?_eq_getLast _ (by simp)⟩
  have hfar : p.getLastD s = a := by
    rw [List.getLastD_eq_getLast?, hlast]
    rfl
  have ha : a ∉ ign := hP.2.2 a (List.mem_of_getLast?_eq_some hlast)
  obtain ⟨len2, chain, hr2, hvp2, _, hmax2⟩ :=
    dfsWithConditions_longest graph ign (searchFuel graph) a [] (List.not_mem_nil a) (hfuel a)
  have hpos := validPath_length_pos graph ign [] a chain hvp2
  refine ⟨chain, ?_, ⟨?_, simplePath_of_validPath graph ign a chain ha hvp2⟩, ?_⟩
  · unfold findLongestCarbonChain
    rw [hr1]
    simp only
    rw [hfar, hr2]
  · intro hc
    rw [hc] at hpos
    exact absurd hpos (by simp)
  · intro q hq
    cases q with
    | nil => exact absurd rfl hq.1
    | cons u t =>
      cases t with
      | nil => simpa using hpos
      | cons w t2 =>
        have hu : u ∉ ign := hq.2.2.2 u (List.mem_cons_self _ _)
        have hw : w ∉ ign := hq.2.2.2 w (List.mem_cons_of_mem _ (List.mem_cons_self _ _))
        have huw : w ∈ neighbors graph u := (List.chain'_cons.mp hq.2.2.1).1
        have hun : u ∈ allNeighbors graph :=
          mem_allNeighbors graph w u (htree.symmetric u w hu hw huw)
        obtain ⟨su, hsu, hsuh, hsul⟩ := htree.connected s u hs hu hsn hun
        obtain ⟨r, hr, hrh, hrl⟩ := sweep_exists graph ign htree s p (u :: w :: t2) su hP
          hvp1.1 hmax1 hq hsu.2 hsuh (by simpa using hsul)
        have := hmax2 r (validPath_of_simplePath graph ign a r hr (hrh.trans hlast))
        omega

/-- C17: when the adjacency restricted to the non-ignored nodes is a tree and the
start node is one of its nodes, `findLongestCarbonChain` returns a carbon chain (a
simple path of non-ignored nodes) that has at least as many nodes as every other
carbon chain; and the chain found from any other node of the tree has the same
number of nodes. -/
theorem double_sweep_longest (graph : Adjacency) (ign : List Nat)
    (htree : IsCarbonTree graph ign) (s1 s2 : Nat)
    (h1 : s1 ∉ ign) (h1n : s1 ∈ allNeighbors graph)
    (h2 : s2 ∉ ign) (h2n : s2 ∈ allNeighbors graph) :
    ∃ chain1 chain2,
      findLongestCarbonChain graph s1 ign = some chain1
      ∧ findLongestCarbonChain graph s2 ign = some chain2
      ∧ CarbonPath graph ign chain1
      ∧ (∀ q, CarbonPath graph ign q → q.length ≤ chain1.length)
      ∧ chain2.length = chain1.length := by
  obtain ⟨chain1, hc1, hp1, hm1⟩ := double_sweep_core graph ign htree s1 h1 h1n
  obtain ⟨chain2, hc2, hp2, hm2⟩ := double_sweep_core graph ign htree s2 h2 h2n
  exact ⟨chain1, chain2, hc1, hc2, hp1, hm1, Nat.le_antisymm (hm1 chain2 hp2) (hm2 chain1 hp1)⟩

theorem isobutaneAdjacency_adj (x y : Nat) :
    y ∈ neighbors isobutaneAdjacency x
      ↔ (x = 0 ∧ y = 1) ∨ (x = 1 ∧ y = 0) ∨ (x = 1 ∧ y = 2) ∨ (x = 1 ∧ y = 3) ∨ (x = 2 ∧ y = 1) ∨ (x = 3 ∧ y = 1) := by
  have hg : isobutaneAdjacency = [(0, [1]), (1, [0, 2, 3]), (2, [1]), (3, [1])] := by decide
  rw [hg]
  unfold neighbors
  simp only [mapFind]
  by_cases h0 : x = 0
  · subst h0
    simp
  · by_cases h1 : x = 1
    · subst h1
      simp
    · by_cases h2 : x = 2
      · subst h2
        simp
      · by_cases h3 : x = 3
        · subst h3
          simp
        · rw [if_neg (fun h => h0 h.symm), if_neg (fun h => h1 h.symm),
            if_neg (fun h => h2 h.symm), if_neg (fun h => h3 h.symm)]
          simp [h0, h1, h2, h3]

theorem isobutaneAdjacency_paths (p : List Nat) (h : SimplePath isobutaneAdjacency [] p) :
    p.length ≤ 1 ∨ p = [0, 1] ∨ p = [1, 0] ∨ p = [1, 2] ∨ p = [1, 3] ∨ p = [2, 1] ∨ p = [3, 1] ∨ p = [0, 1, 2] ∨ p = [0, 1, 3] ∨ p = [2, 1, 0] ∨ p = [2, 1, 3] ∨ p = [3, 1, 0] ∨ p = [3, 1, 2] := by
  obtain ⟨hnodup, hchain, _⟩ := h
  match p, hnodup, hchain with
  | [], _, _ => exact Or.inl (by simp)
  | [_], _, _ => exact Or.inl (by simp)
  | [a, b], _, hchain =>
    have hab := (isobutaneAdjacency_adj a b).mp (List.chain'_cons.mp hchain).1
    rcases hab with ⟨rfl, rfl⟩ | ⟨rfl, rfl⟩ | ⟨rfl, rfl⟩ | ⟨rfl, rfl⟩ | ⟨rfl, rfl⟩ | ⟨rfl, rfl⟩ <;> simp
  | [a, b, c], hnodup, hchain =>
    have hab := (isobutaneAdjacency_adj a b).mp (List.chain'_cons.mp hchain).1
    have hbc := (isobutaneAdjacency_adj b c).mp
      (List.chain'_cons.mp (List.chain'_cons.mp hchain).2).1
    rcases hab with ⟨rfl, rfl⟩ | ⟨rfl, rfl⟩ | ⟨rfl, rfl⟩ | ⟨rfl, rfl⟩ | ⟨rfl, rfl⟩ | ⟨rfl, rfl⟩ <;>
      rcases hbc with ⟨h1, rfl⟩ | ⟨h1, rfl⟩ | ⟨h1, rfl⟩ | ⟨h1, rfl⟩ | ⟨h1, rfl⟩ | ⟨h1, rfl⟩ <;>
      first
        | exact absurd h1 (by decide)
        | exact absurd hnodup (by decide)
        | simp
  | a :: b :: c :: d :: rest, hnodup, hchain =>
    have hab := (isobutaneAdjacency_adj a b).mp (List.chain'_cons.mp hchain).1
    have hbc := (isobutaneAdjacency_adj b c).mp
      (List.chain'_cons.mp (List.chain'_cons.mp hchain).2).1
    have hcd := (isobutaneAdjacency_adj c d).mp
      (List.chain'_cons.mp (List.chain'_cons.mp (List.chain'_cons.mp hchain).2).2).1
    have hac : a ≠ c := by
      intro hc
      rw [hc] at hnodup
      simp at hnodup
    have hbd : b ≠ d := by
      intro hc
      rw [hc] at hnodup
      simp at hnodup
    omega

/-- The adjacency of the branched chain "CC(C)C" is a tree. -/
theorem isobutaneAdjacency_tree : IsCarbonTree isobutaneAdjacency [] := by
  refine ⟨?_, ?_, ?_⟩
  · intro x y _ _ h
    rw [isobutaneAdjacency_adj] at h ⊢
    omega
  · intro u v _ _ hu hv
    have hall : allNeighbors isobutaneAdjacency = [1, 0, 2, 3, 1, 1] := by decide
    rw [hall] at hu hv
    have hu1 : u = 0 ∨ u = 1 ∨ u = 2 ∨ u = 3 := by
      simp only [List.mem_cons, List.mem_singleton, List.not_mem_nil, or_false] at hu
      omega
    have hv1 : v = 0 ∨ v = 1 ∨ v = 2 ∨ v = 3 := by
      simp only [List.mem_cons, List.mem_singleton, List.not_mem_nil, or_false] at hv
      omega
    have hpath : ∀ p : List Nat, p ∈ [[0], [1], [2], [3], [0, 1], [1, 0], [1, 2], [1, 3], [2, 1], [3, 1], [0, 1, 2], [0, 1, 3], [2, 1, 0], [2, 1, 3], [3, 1, 0], [3, 1, 2]] →
        CarbonPath isobutaneAdjacency [] p := by
      intro p hp
      simp only [List.mem_cons, List.mem_singleton, List.not_mem_nil, or_false] at hp
      rcases hp with h | h | h | h | h | h | h | h | h | h | h | h | h | h | h | h <;> subst h <;>
        exact ⟨by decide, by decide,
          by simp [List.chain'_cons, isobutaneAdjacency_adj], by decide⟩
    rcases hu1 with rfl | rfl | rfl | rfl <;> rcases hv1 with rfl | rfl | rfl | rfl
    · exact ⟨[0], hpath _ (by decide), rfl, rfl⟩
    · exact ⟨[0, 1], hpath _ (by decide), rfl, rfl⟩
    · exact ⟨[0, 1, 2], hpath _ (by decide), rfl, rfl⟩
    · exact ⟨[0, 1, 3], hpath _ (by decide), rfl, rfl⟩
    · exact ⟨[1, 0], hpath _ (by decide), rfl, rfl⟩
    · exact ⟨[1], hpath _ (by decide), rfl, rfl⟩
    · exact ⟨[1, 2], hpath _ (by decide), rfl, rfl⟩
    · exact ⟨[1, 3], hpath _ (by decide), rfl, rfl⟩
    · exact ⟨[2, 1, 0], hpath _ (by decide), rfl, rfl⟩
    · exact ⟨[2, 1], hpath _ (by decide), rfl, rfl⟩
    · exact ⟨[2], hpath _ (by decide), rfl, rfl⟩
    · exact ⟨[2, 1, 3], hpath _ (by decide), rfl, rfl⟩
    · exact ⟨[3, 1, 0], hpath _ (by decide), rfl, rfl⟩
    · exact ⟨[3, 1], hpath _ (by decide), rfl, rfl⟩
    · exact ⟨[3, 1, 2], hpath _ (by decide), rfl, rfl⟩
    · exact ⟨[3], hpath _ (by decide), rfl, rfl⟩
  · intro p q hp hq hh hl
    have hclass : ∀ r : List Nat, CarbonPath isobutaneAdjacency [] r →
        (∃ x, r = [x]) ∨ r = [0, 1] ∨ r = [1, 0] ∨ r = [1, 2] ∨ r = [1, 3] ∨ r = [2, 1] ∨ r = [3, 1] ∨ r = [0, 1, 2] ∨ r = [0, 1, 3] ∨ r = [2, 1, 0] ∨ r = [2, 1, 3] ∨ r = [3, 1, 0] ∨ r = [3, 1, 2] := by
      intro r hr
      rcases isobutaneAdjacency_paths r hr.2 with h1 | h1
      · refine Or.inl ?_
        match r, hr.1, h1 with
        | [], h0, _ => exact absurd rfl h0
        | [x], _, _ => exact ⟨x, rfl⟩
        | _ :: _ :: _, _, h1 =>
          simp only [List.length_cons] at h1
          omega
      · exact Or.inr h1
    rcases hclass p hp with ⟨x, h1⟩ | h1 | h1 | h1 | h1 | h1 | h1 | h1 | h1 | h1 | h1 | h1 | h1 <;>
      rcases hclass q hq with ⟨y, h2⟩ | h2 | h2 | h2 | h2 | h2 | h2 | h2 | h2 | h2 | h2 | h2 | h2 <;>
      subst h1 <;> subst h2 <;>
      first
        | rfl
        | exact absurd hh (by decide)
        | exact absurd hl (by decide)
        | (simp only [List.head?_cons, List.getLast?_singleton, List.getLast?_cons_cons,
            Option.some.injEq] at hh hl
           first
            | omega
            | (rw [hh]))

theorem double_sweep_longest_witness :
    ∃ chain1 chain2,
      findLongestCarbonChain isobutaneAdjacency 1 [] = some chain1
      ∧ findLongestCarbonChain isobutaneAdjacency 3 [] = some chain2
      ∧ CarbonPath isobutaneAdjacency [] chain1
      ∧ (∀ q, CarbonPath isobutaneAdjacency [] q → q.length ≤ chain1.length)
      ∧ chain2.length = chain1.length :=
  double_sweep_longest isobutaneAdjacency [] isobutaneAdjacency_tree 1 3
    (by decide) (by decide) (by decide) (by decide)

/-! ## Theorems: what `MolecularGraph::addEdge` changes -/

/-- C21, counterexample. The parse of "CX" is the carbon 1, the fallback atom 2
labelled "X", and `addEdge(1, 2)`. Before the call both C-C counters are 0, after it
both are 1: the counters of the endpoints are not left unchanged although one
endpoint is a fallback atom with a non-carbon label. -/
theorem addEdge_counts_fallback_atom :
    parsed "CX"
        = ((MolecularGraph.fresh.addCarbon "C").addCarbon "X").addEdge 1 2
    ∧ ((MolecularGraph.fresh.addCarbon "C").addCarbon "X").carbons.map
          (fun p => (p.1, p.2.label, p.2.C_C_bonds)) = [(1, "C", 0), (2, "X", 0)]
    ∧ (parsed "CX").carbons.map (fun p => (p.1, p.2.label, p.2.C_C_bonds))
          = [(1, "C", 1), (2, "X", 1)]
    ∧ ¬ ((parsed "CX").carbons.map (fun p => p.2.C_C_bonds)
          = ((MolecularGraph.fresh.addCarbon "C").addCarbon "X").carbons.map
              (fun p => p.2.C_C_bonds)) := by
  refine ⟨by decide, by decide, by decide, by decide⟩

/-- C21, amended. `MolecularGraph::addEdge(a, b)` appends `(a, b)` to the edge list,
appends `b` to the adjacency vector of `a` and `a` to that of `b`, and adds one to
the C-C counter of `a` and one to that of `b` whatever the labels of the two atoms
are (a missing atom is default-constructed first); every other atom, every other
field of the endpoints, the input list and the id counter stay as they were. -/
theorem addEdge_effect (g : MolecularGraph) (a b : Nat) :
    (g.addEdge a b).edges = g.edges ++ [(a, b)]
    ∧ (∀ k, neighbors (g.addEdge a b).adjacencyList k
        = neighbors g.adjacencyList k ++ (if k = a then [b] else [])
            ++ (if k = b then [a] else []))
    ∧ (∀ k, mapFind (g.addEdge a b).carbons k
        = if k = a ∨ k = b then
            some { (mapFind g.carbons k).getD CarbonNode.default with
              C_C_bonds := ((mapFind g.carbons k).getD CarbonNode.default).C_C_bonds
                + (if k = a then 1 else 0) + (if k = b then 1 else 0) }
          else mapFind g.carbons k)
    ∧ (g.addEdge a b).input = g.input
    ∧ (g.addEdge a b).counter = g.counter := by
  refine ⟨rfl, ?_, ?_, rfl, rfl⟩
  · intro k
    simp only [MolecularGraph.addEdge, neighbors, mapFind_mapModify]
    by_cases hb : k = b
    · by_cases ha : k = a
      · subst hb
        subst ha
        simp
      · subst hb
        have hne : ¬ a = k := fun h => ha h.symm
        simp [ha, hne]
    · by_cases ha : k = a
      · subst ha
        have hne : ¬ b = k := fun h => hb h.symm
        simp [hb, hne]
      · simp [hb, ha]
  · intro k
    simp only [MolecularGraph.addEdge, mapFind_mapModify]
    by_cases hb : k = b
    · by_cases ha : k = a
      · subst hb
        subst ha
        simp [CarbonNode.incrementC_C]
      · subst hb
        have hne : ¬ a = k := fun h => ha h.symm
        simp [ha, hne, CarbonNode.incrementC_C]
    · by_cases ha : k = a
      · subst ha
        have hne : ¬ b = k := fun h => hb h.symm
        simp [hb, hne, CarbonNode.incrementC_C]
      · simp [hb, ha]

/-! ## Theorems: what `countBranchCarbons` counts -/

theorem setInsert_of_mem (s : List Nat) (x : Nat) (h : x ∈ s) : setInsert s x = s := by
  unfold setInsert
  rw [if_pos h]

theorem classifyLabel_count (label : String) (carbonCount halogenType : Int) :
    (classifyLabel label carbonCount halogenType).1
      = carbonCount + if label.data.head? = some 'C' ∧ (label.data.drop 1).all Char.isDigit
          then 1 else 0 := by
  unfold classifyLabel
  simp only
  split_ifs <;> simp

theorem carbonLabel_iff (label : String) :
    (label.data.head? = some 'C' ∧ (label.data.drop 1).all Char.isDigit = true)
      ↔ CarbonLabel label := by
  unfold CarbonLabel
  cases hd : label.data with
  | nil => simp
  | cons c rest =>
    simp only [List.head?_cons, Option.some.injEq, List.drop_succ_cons, List.drop_zero,
      List.all_eq_true, List.cons.injEq]
    constructor
    · rintro ⟨hc, hall⟩
      exact ⟨rest, ⟨hc, rfl⟩, hall⟩
    · rintro ⟨digits, ⟨hc, hr⟩, hall⟩
      rw [hr]
      exact ⟨hc, hall⟩

theorem pushNeighbors_spec (mainChainNodes : List Nat) :
    ∀ (nbrs visited toVisit : List Nat),
      ∃ new : List Nat,
        (pushNeighbors mainChainNodes nbrs visited toVisit).2 = new ++ toVisit
        ∧ new.Nodup
        ∧ (∀ x ∈ new, x ∈ nbrs ∧ x ∉ visited ∧ x ∉ mainChainNodes)
        ∧ (∀ x, x ∈ (pushNeighbors mainChainNodes nbrs visited toVisit).1
            ↔ x ∈ visited ∨ x ∈ new)
        ∧ (∀ y ∈ nbrs, y ∉ mainChainNodes →
            y ∈ (pushNeighbors mainChainNodes nbrs visited toVisit).1)
  | [], visited, toVisit => ⟨[], by simp [pushNeighbors]⟩
  | nb :: rest, visited, toVisit => by
    unfold pushNeighbors
    split
    · rename_i hcond
      obtain ⟨new, h2, hnd, hmem, h1, hcl⟩ :=
        pushNeighbors_spec mainChainNodes rest (setInsert visited nb) (nb :: toVisit)
      have hnb : nb ∉ new := fun hin => (hmem nb hin).2.1 ((mem_setInsert _ _ _).mpr (Or.inr rfl))
      refine ⟨new ++ [nb], ?_, ?_, ?_, ?_, ?_⟩
      · rw [h2, List.append_assoc]
        rfl
      · refine List.nodup_append.mpr ⟨hnd, List.nodup_singleton nb, ?_⟩
        intro x hx hx1
        rw [List.mem_singleton.mp hx1] at hx
        exact hnb hx
      · intro x hx
        rcases List.mem_append.mp hx with hx | hx
        · have := hmem x hx
          exact ⟨List.mem_cons_of_mem _ this.1,
            fun hv => this.2.1 ((mem_setInsert _ _ _).mpr (Or.inl hv)), this.2.2⟩
        · rw [List.mem_singleton.mp hx]
          exact ⟨List.mem_cons_self _ _, hcond.1, hcond.2⟩
      · intro x
        rw [h1 x, mem_setInsert, List.mem_append, List.mem_singleton]
        tauto
      · intro y hy hym
        rcases List.mem_cons.mp hy with hy | hy
        · rw [hy]
          exact (h1 nb).mpr (Or.inl ((mem_setInsert _ _ _).mpr (Or.inr rfl)))
        · exact hcl y hy hym
    · rename_i hcond
      obtain ⟨new, h2, hnd, hmem, h1, hcl⟩ :=
        pushNeighbors_spec mainChainNodes rest visited toVisit
      refine ⟨new, h2, hnd, ?_, h1, ?_⟩
      · intro x hx
        have := hmem x hx
        exact ⟨List.mem_cons_of_mem _ this.1, this.2⟩
      · intro y hy hym
        rcases List.mem_cons.mp hy with hy | hy
        · rw [hy] at hym ⊢
          have hv : nb ∈ visited := by
            by_contra hv
            exact hcond ⟨hv, hym⟩
          exact (h1 nb).mpr (Or.inl hv)
        · exact hcl y hy hym

theorem branchReachable_refl (graph : Adjacency) (mainChainNodes : List Nat) (s : Nat)
    (hs : s ∉ mainChainNodes) : BranchReachable graph mainChainNodes s s :=
  ⟨[s], rfl, rfl, List.chain'_singleton s, fun y hy => by
    rw [List.mem_singleton.mp hy]
    exact hs⟩

theorem branchReachable_step (graph : Adjacency) (mainChainNodes : List Nat) (node s x : Nat)
    (hnode : node ∉ mainChainNodes) (hs : s ∈ neighbors graph node)
    (h : BranchReachable graph mainChainNodes s x) :
    BranchReachable graph mainChainNodes node x := by
  obtain ⟨p, hhead, hlast, hch, hav⟩ := h
  cases p with
  | nil => simp at hhead
  | cons a rest =>
    simp only [List.head?_cons, Option.some.injEq] at hhead
    subst hhead
    refine ⟨node :: a :: rest, rfl, ?_, ?_, ?_⟩
    · rw [List.getLast?_cons_cons]
      exact hlast
    · exact List.chain'_cons.mpr ⟨hs, hch⟩
    · intro y hy
      rcases List.mem_cons.mp hy with hy | hy
      · rw [hy]
        exact hnode
      · exact hav y hy

/-- A set of nodes that holds `s` and with every node all its neighbours off the main
chain holds every node reachable from `s`. -/
theorem mem_of_branchReachable (graph : Adjacency) (mainChainNodes : List Nat) (L : List Nat)
    (hcl : ∀ x ∈ L, ∀ y ∈ neighbors graph x, y ∉ mainChainNodes → y ∈ L) :
    ∀ (p : List Nat) (s x : Nat), s ∈ L → p.head? = some s → p.getLast? = some x →
      List.Chain' (fun a b => b ∈ neighbors graph a) p → (∀ y ∈ p, y ∉ mainChainNodes) →
      x ∈ L
  | [], _, _, _, hh, _, _, _ => by simp at hh
  | [a], s, x, hs, hh, hl, _, _ => by
    simp only [List.head?_cons, Option.some.injEq] at hh
    simp only [List.getLast?_singleton, Option.some.injEq] at hl
    rw [← hl, hh]
    exact hs
  | a :: b :: rest, s, x, hs, hh, hl, hch, hav => by
    simp only [List.head?_cons, Option.some.injEq] at hh
    subst hh
    rw [List.getLast?_cons_cons] at hl
    have hab := (List.chain'_cons.mp hch).1
    have hb : b ∈ L :=
      hcl a hs b hab (hav b (List.mem_cons_of_mem _ (List.mem_cons_self _ _)))
    exact mem_of_branchReachable graph mainChainNodes L hcl (b :: rest) b x hb rfl hl
      (List.chain'_cons.mp hch).2 (fun y hy => hav y (List.mem_cons_of_mem _ hy))

/-- The loop of `countBranchCarbons` from any state in which the stack has no
repetition and holds only visited nodes off the main chain: it ends, and the nodes
`L` it pops are pairwise different, are the stacked nodes and nodes not visited
before, are reachable from a stacked node, and have all their neighbours off the
main chain visited or popped; the carbon count grows by the number of popped nodes
with a carbon label. -/
theorem countLoop_collect (graph : Adjacency) (mainChainNodes : List Nat)
    (idToLabel : List (Nat × String))
    (hlab : ∀ v ∈ allNeighbors graph, (mapFind idToLabel v).isSome = true) :
    ∀ (fuel : Nat) (toVisit visited : List Nat) (carbonCount halogenType : Int),
      toVisit.Nodup → (∀ x ∈ toVisit, x ∈ visited) →
      (∀ x ∈ toVisit, x ∉ mainChainNodes) →
      (∀ v ∈ toVisit, (mapFind idToLabel v).isSome = true) →
      toVisit.length + unvisitedCount graph visited ≤ fuel →
      ∃ (L : List Nat) (h1 : Int),
        countLoop graph mainChainNodes idToLabel fuel toVisit visited carbonCount halogenType
          = Outcome.ok (carbonCount + ((L.filter (countsAsCarbon idToLabel)).length : Int), h1)
        ∧ L.Nodup
        ∧ (∀ x ∈ toVisit, x ∈ L)
        ∧ (∀ x ∈ L, x ∈ toVisit ∨ x ∉ visited)
        ∧ (∀ x ∈ L, ∃ s ∈ toVisit, BranchReachable graph mainChainNodes s x)
        ∧ (∀ x ∈ L, ∀ y ∈ neighbors graph x, y ∉ mainChainNodes →
            y ∈ visited ∨ y ∈ L)
  | 0, [], _, carbonCount, halogenType, _, _, _, _, _ =>
    ⟨[], halogenType, by simp [countLoop]⟩
  | 0, _ :: _, _, _, _, _, _, _, _, hf => by
    simp only [List.length_cons] at hf
    omega
  | fuel + 1, [], _, carbonCount, halogenType, _, _, _, _, _ =>
    ⟨[], halogenType, by simp [countLoop]⟩
  | fuel + 1, node :: rest, visited, carbonCount, halogenType, hnd, hvis, hmain, hs, hf => by
    obtain ⟨label, hl⟩ := Option.isSome_iff_exists.mp (hs node (List.mem_cons_self _ _))
    have hnv : node ∈ visited := hvis node (List.mem_cons_self _ _)
    have hnm : node ∉ mainChainNodes := hmain node (List.mem_cons_self _ _)
    have hnr : node ∉ rest := (List.nodup_cons.mp hnd).1
    unfold countLoop
    rw [hl]
    simp only
    rw [setInsert_of_mem visited node hnv]
    obtain ⟨hb1, hb2⟩ := pushNeighbors_bound graph mainChainNodes (neighbors graph node)
      visited rest (fun nb hnb => mem_allNeighbors graph node nb hnb)
    obtain ⟨new, h2, hnew, hmem, hv1, hcl⟩ :=
      pushNeighbors_spec mainChainNodes (neighbors graph node) visited rest
    have hrv : ∀ x ∈ rest, x ∈ visited := fun x hx => hvis x (List.mem_cons_of_mem _ hx)
    obtain ⟨L, h1, hres, hLnd, hLstack, hLnew, hLreach, hLcl⟩ :=
      countLoop_collect graph mainChainNodes idToLabel hlab fuel
        (pushNeighbors mainChainNodes (neighbors graph node) visited rest).2
        (pushNeighbors mainChainNodes (neighbors graph node) visited rest).1
        (classifyLabel label carbonCount halogenType).1
        (classifyLabel label carbonCount halogenType).2
        (by
          rw [h2]
          refine List.nodup_append.mpr ⟨hnew, (List.nodup_cons.mp hnd).2, ?_⟩
          intro x hx hx1
          exact (hmem x hx).2.1 (hrv x hx1))
        (by
          intro x hx
          rw [h2] at hx
          rcases List.mem_append.mp hx with hx | hx
          · exact (hv1 x).mpr (Or.inr hx)
          · exact (hv1 x).mpr (Or.inl (hrv x hx)))
        (by
          intro x hx
          rw [h2] at hx
          rcases List.mem_append.mp hx with hx | hx
          · exact (hmem x hx).2.2
          · exact hmain x (List.mem_cons_of_mem _ hx))
        (by
          intro v hv
          rcases hb2 v hv with h3 | h3
          · exact hs v (List.mem_cons_of_mem _ h3)
          · exact hlab v (mem_allNeighbors graph node v h3))
        (by
          simp only [List.length_cons] at hf
          omega)
    have hnL : node ∉ L := by
      intro hin
      rcases hLnew node hin with h3 | h3
      · rw [h2] at h3
        rcases List.mem_append.mp h3 with h3 | h3
        · exact (hmem node h3).2.1 hnv
        · exact hnr h3
      · exact h3 ((hv1 node).mpr (Or.inl hnv))
    refine ⟨node :: L, h1, ?_, List.nodup_cons.mpr ⟨hnL, hLnd⟩, ?_, ?_, ?_, ?_⟩
    · rw [hres, classifyLabel_count]
      have hc : countsAsCarbon idToLabel node
          = decide (label.data.head? = some 'C'
              ∧ (label.data.drop 1).all Char.isDigit = true) := by
        unfold countsAsCarbon
        rw [hl]
      rw [List.filter_cons, hc]
      by_cases hcond : label.data.head? = some 'C' ∧ (label.data.drop 1).all Char.isDigit = true
      · rw [if_pos hcond, if_pos (decide_eq_true hcond), List.length_cons]
        push_cast
        rw [Int.add_assoc, Int.add_comm 1]
      · rw [if_neg hcond, if_neg (by simpa using hcond), Int.add_zero]
    · intro x hx
      rcases List.mem_cons.mp hx with hx | hx
      · rw [hx]
        exact List.mem_cons_self _ _
      · exact List.mem_cons_of_mem _ (hLstack x (by
          rw [h2]
          exact List.mem_append_right _ hx))
    · intro x hx
      rcases List.mem_cons.mp hx with hx | hx
      · rw [hx]
        exact Or.inl (List.mem_cons_self _ _)
      · rcases hLnew x hx with h3 | h3
        · rw [h2] at h3
          rcases List.mem_append.mp h3 with h3 | h3
          · exact Or.inr (hmem x h3).2.1
          · exact Or.inl (List.mem_cons_of_mem _ h3)
        · exact Or.inr (fun hv => h3 ((hv1 x).mpr (Or.inl hv)))
    · intro x hx
      rcases List.mem_cons.mp hx with hx | hx
      · rw [hx]
        exact ⟨node, List.mem_cons_self _ _, branchReachable_refl graph mainChainNodes node hnm⟩
      · obtain ⟨s, hs1, hs2⟩ := hLreach x hx
        rw [h2] at hs1
        rcases List.mem_append.mp hs1 with hs1 | hs1
        · exact ⟨node, List.mem_cons_self _ _,
            branchReachable_step graph mainChainNodes node s x hnm (hmem s hs1).1 hs2⟩
        · exact ⟨s, List.mem_cons_of_mem _ hs1, hs2⟩
    · intro x hx y hy hym
      have hnewL : ∀ z ∈ new, z ∈ L := fun z hz => hLstack z (by
        rw [h2]
        exact List.mem_append_left _ hz)
      have hfin : y ∈ (pushNeighbors mainChainNodes (neighbors graph node) visited rest).1 →
          y ∈ visited ∨ y ∈ node :: L := by
        intro h3
        rcases (hv1 y).mp h3 with h3 | h3
        · exact Or.inl h3
        · exact Or.inr (List.mem_cons_of_mem _ (hnewL y h3))
      rcases List.mem_cons.mp hx with hx | hx
      · rw [hx] at hy
        exact hfin (hcl y hy hym)
      · rcases hLcl x hx y hy hym with h3 | h3
        · exact hfin h3
        · exact Or.inr (List.mem_cons_of_mem _ h3)

theorem countLoop_start (graph : Adjacency) (mainChainNodes : List Nat)
    (idToLabel : List (Nat × String)) (fuel start : Nat) (carbonCount halogenType : Int) :
    countLoop graph mainChainNodes idToLabel fuel [start] [] carbonCount halogenType
      = countLoop graph mainChainNodes idToLabel fuel [start] [start] carbonCount halogenType := by
  cases fuel with
  | zero => rfl
  | succ fuel =>
    unfold countLoop
    have h1 : setInsert [] start = [start] := rfl
    have h2 : setInsert [start] start = [start] :=
      setInsert_of_mem _ _ (List.mem_singleton_self start)
    rw [h1, h2]

theorem countsAsCarbon_iff (idToLabel : List (Nat × String)) (x : Nat) :
    countsAsCarbon idToLabel x = true
      ↔ ∃ label, mapFind idToLabel x = some label ∧ CarbonLabel label := by
  unfold countsAsCarbon
  cases h : mapFind idToLabel x with
  | none => simp
  | some label =>
    simp only [decide_eq_true_eq, Option.some.injEq, exists_eq_left']
    exact carbonLabel_iff label

theorem not_carbonLabel_of_cooh (label : String) (h : isCOOHGroup label = true) :
    ¬ CarbonLabel label := by
  rintro ⟨digits, hd, hall⟩
  unfold isCOOHGroup at h
  rw [hd] at h
  cases digits with
  | nil => simp at h
  | cons d rest =>
    have hO : d = 'O' := by
      simp only [decide_eq_true_eq] at h
      have := h.1
      simp only [List.take_succ_cons] at this
      exact (List.cons.inj (List.cons.inj this).2).1
    have := hall d (List.mem_cons_self _ _)
    rw [hO] at this
    exact absurd this (by decide)

/-- C22. When the start node and every stored neighbour have a label and the start
node is off the main chain, `countBranchCarbons` returns, and its carbon count is the
number of nodes of a repetition-free list `nodes` that holds exactly the nodes
reachable from the start along paths avoiding the main chain whose label is C
followed only by digits. Repeated adjacency entries do not change that. A carboxyl
label and a label that does not start with C are not such labels, so they add
nothing. -/
theorem countBranchCarbons_counts_reachable (graph : Adjacency) (start : Nat)
    (mainChainNodes : List Nat) (idToLabel : List (Nat × String))
    (hstartLabel : (mapFind idToLabel start).isSome = true)
    (hlab : ∀ v ∈ allNeighbors graph, (mapFind idToLabel v).isSome = true)
    (hstart : start ∉ mainChainNodes) :
    (∃ (nodes : List Nat) (halogenType : Int),
      countBranchCarbons graph start mainChainNodes idToLabel
        = Outcome.ok ((nodes.length : Int), halogenType)
      ∧ nodes.Nodup
      ∧ ∀ x, x ∈ nodes ↔ (BranchReachable graph mainChainNodes start x
          ∧ ∃ label, mapFind idToLabel x = some label ∧ CarbonLabel label))
    ∧ ∀ label, (isCOOHGroup label = true ∨ label.data.head? ≠ some 'C') →
        ¬ CarbonLabel label := by
  constructor
  · unfold countBranchCarbons
    rw [countLoop_start]
    obtain ⟨L, h1, hres, hLnd, hLstack, _, hLreach, hLcl⟩ :=
      countLoop_collect graph mainChainNodes idToLabel hlab (searchFuel graph + 1)
        [start] [start] 0 0 (List.nodup_singleton start) (fun x hx => hx)
        (fun x hx => by
          rw [List.mem_singleton.mp hx]
          exact hstart)
        (fun v hv => by
          rw [List.mem_singleton.mp hv]
          exact hstartLabel)
        (by
          have := unvisitedCount_le graph [start]
          rw [searchFuel_eq]
          simp only [List.length_singleton]
          omega)
    have hsL : start ∈ L := hLstack start (List.mem_singleton_self start)
    refine ⟨L.filter (countsAsCarbon idToLabel), h1, ?_, hLnd.filter _, ?_⟩
    · rw [hres, Int.zero_add]
    · intro x
      rw [List.mem_filter, countsAsCarbon_iff]
      refine and_congr_left (fun _ => ⟨?_, ?_⟩)
      · intro hx
        obtain ⟨s, hs1, hs2⟩ := hLreach x hx
        rw [List.mem_singleton.mp hs1] at hs2
        exact hs2
      · rintro ⟨p, hh, hl, hch, hav⟩
        refine mem_of_branchReachable graph mainChainNodes L ?_ p start x hsL hh hl hch hav
        intro a ha y hy hym
        rcases hLcl a ha y hy hym with h3 | h3
        · rw [List.mem_singleton.mp h3]
          exact hsL
        · exact h3
  · intro label h
    rcases h with h | h
    · exact not_carbonLabel_of_cooh label h
    · rintro ⟨digits, hd, _⟩
      rw [hd] at h
      exact h rfl

theorem countBranchCarbons_counts_reachable_witness :
    countBranchCarbons doubledBondAdjacency 1 [0]
        [(0, "C1"), (1, "C2"), (2, "C3"), (3, "COOH4")] = Outcome.ok (2, 0)
    ∧ neighbors doubledBondAdjacency 1 = [0, 2, 2]
    ∧ ((∃ (nodes : List Nat) (halogenType : Int),
        countBranchCarbons doubledBondAdjacency 1 [0]
            [(0, "C1"), (1, "C2"), (2, "C3"), (3, "COOH4")]
          = Outcome.ok ((nodes.length : Int), halogenType)
        ∧ nodes.Nodup
        ∧ ∀ x, x ∈ nodes ↔ (BranchReachable doubledBondAdjacency [0] 1 x
            ∧ ∃ label, mapFind [(0, "C1"), (1, "C2"), (2, "C3"), (3, "COOH4")] x = some label
              ∧ CarbonLabel label))
      ∧ ∀ label, (isCOOHGroup label = true ∨ label.data.head? ≠ some 'C') →
          ¬ CarbonLabel label) :=
  ⟨by decide, by decide,
    countBranchCarbons_counts_reachable doubledBondAdjacency 1 [0]
      [(0, "C1"), (1, "C2"), (2, "C3"), (3, "COOH4")] (by decide) (by decide) (by decide)⟩

/-! ## Theorems: the parsed graph is a forest -/

theorem forestUpTo_mono (g : MolecularGraph) (b b1 : Nat) (h : ForestUpTo g b)
    (hb : b ≤ b1) (hb1 : b1 ≤ g.counter) : ForestUpTo g b1 :=
  ⟨h.keys, h.counter_pos, hb1,
    fun e he => ⟨(h.edge_order e he).1, (h.edge_order e he).2.1,
      Nat.lt_of_lt_of_le (h.edge_order e he).2.2 hb⟩,
    h.larger_once⟩

theorem forestUpTo_addCarbon (g : MolecularGraph) (label : String)
    (h : ForestUpTo g g.counter) :
    ForestUpTo (g.addCarbon label) ((g.addCarbon label).counter - 1) := by
  have hc := h.counter_pos
  refine ⟨?_, ?_, ?_, ?_, h.larger_once⟩
  · show (mapSet g.carbons g.counter _).map Prod.fst = List.range' 1 (g.counter + 1 - 1)
    rw [keys_mapSet, h.keys, if_neg, Nat.add_sub_cancel]
    · have : g.counter = (g.counter - 1) + 1 := by omega
      conv => rhs; rw [this, List.range'_concat]
      congr 2
      omega
    · intro hm
      have := (List.mem_range'_1.mp hm).2
      omega
  · show 1 ≤ g.counter + 1
    omega
  · show g.counter + 1 - 1 ≤ g.counter + 1
    omega
  · intro e he
    have := h.edge_order e he
    show _ ∧ _ ∧ e.2 < g.counter + 1 - 1
    refine ⟨this.1, this.2.1, ?_⟩
    omega

theorem keys_of_mem_range (keys : List Nat) (k n : Nat) (h : keys = List.range' 1 n)
    (h1 : 1 ≤ k) (h2 : k ≤ n) :
    (if k ∈ keys then keys else keys ++ [k]) = keys := by
  rw [if_pos]
  rw [h]
  exact List.mem_range'_1.mpr ⟨h1, by omega⟩

theorem forestUpTo_incrementC_X (g : MolecularGraph) (b id : Nat) (h : ForestUpTo g b)
    (h1 : 1 ≤ id) (h2 : id < g.counter) : ForestUpTo (g.incrementC_X id) b := by
  refine ⟨?_, h.counter_pos, h.bound_le, h.edge_order, h.larger_once⟩
  show (mapModify _ _ g.carbons id).map Prod.fst = List.range' 1 (g.counter - 1)
  rw [keys_mapModify, keys_of_mem_range _ id _ h.keys h1 (by omega)]
  exact h.keys

theorem forestUpTo_incrementC_H (g : MolecularGraph) (b id numH : Nat) (h : ForestUpTo g b)
    (h1 : 1 ≤ id) (h2 : id < g.counter) : ForestUpTo (g.incrementC_H id numH) b := by
  refine ⟨?_, h.counter_pos, h.bound_le, h.edge_order, h.larger_once⟩
  show (mapModify _ _ g.carbons id).map Prod.fst = List.range' 1 (g.counter - 1)
  rw [keys_mapModify, keys_of_mem_range _ id _ h.keys h1 (by omega)]
  exact h.keys

theorem forestUpTo_addEdge (g : MolecularGraph) (b a c : Nat) (h : ForestUpTo g b)
    (h1 : 1 ≤ a) (h2 : a < c) (hb : b ≤ c) (hc : c < g.counter) :
    ForestUpTo (g.addEdge a c) (c + 1) := by
  refine ⟨?_, h.counter_pos, hc, ?_, ?_⟩
  · show (mapModify _ _ (mapModify _ _ g.carbons a) c).map Prod.fst
      = List.range' 1 (g.counter - 1)
    have ha : (mapModify CarbonNode.default CarbonNode.incrementC_C g.carbons a).map Prod.fst
        = List.range' 1 (g.counter - 1) := by
      rw [keys_mapModify, keys_of_mem_range _ a _ h.keys h1 (by omega)]
      exact h.keys
    rw [keys_mapModify, keys_of_mem_range _ c _ ha (by omega) (by omega)]
    exact ha
  · intro e he
    have he1 : e ∈ g.edges ++ [(a, c)] := he
    rcases List.mem_append.mp he1 with hin | hin
    · have := h.edge_order e hin
      exact ⟨this.1, this.2.1, by omega⟩
    · rw [List.mem_singleton.mp hin]
      exact ⟨h1, h2, Nat.lt_succ_self c⟩
  · show ((g.edges ++ [(a, c)]).map Prod.snd).Nodup
    rw [List.map_append]
    refine List.nodup_append.mpr ⟨h.larger_once, List.nodup_singleton _, ?_⟩
    intro x hx hx1
    obtain ⟨e, he, hex⟩ := List.mem_map.mp hx
    have := (h.edge_order e he).2.2
    simp only [List.map_cons, List.map_nil, List.mem_singleton] at hx1
    omega

theorem parserInv_newAtom (st : ParseState) (h : ParserInv st) (g1 : MolecularGraph)
    (hg1 : ForestUpTo g1 st.graph.counter) (hc1 : g1.counter = st.graph.counter + 1) :
    ParserInv ⟨g1, st.graph.counter, st.branchPoints⟩ := by
  refine ⟨?_, ?_, ?_⟩
  · show ForestUpTo g1 g1.counter
    exact forestUpTo_mono g1 _ _ hg1 (by omega) (Nat.le_refl _)
  · show st.graph.counter < g1.counter
    omega
  · intro x hx
    show x < g1.counter
    have := h.branch x hx
    omega

theorem parserInv_bondedAtom (st : ParseState) (h : ParserInv st) (g1 : MolecularGraph)
    (hg1 : ForestUpTo g1 st.graph.counter) (hc1 : g1.counter = st.graph.counter + 1)
    (hprev : st.previousCarbon ≠ 0) :
    ParserInv ⟨g1.addEdge st.previousCarbon st.graph.counter, st.graph.counter,
      st.branchPoints⟩ := by
  have := forestUpTo_addEdge g1 _ st.previousCarbon st.graph.counter hg1
    (Nat.pos_of_ne_zero hprev) h.previous (Nat.le_refl _) (by omega)
  refine ⟨?_, ?_, ?_⟩
  · show ForestUpTo _ g1.counter
    rw [hc1]
    exact this
  · show st.graph.counter < g1.counter
    omega
  · intro x hx
    show x < g1.counter
    have := h.branch x hx
    omega

theorem parseStep_inv (cs : List Char) (st : ParseState) (h : ParserInv st) :
    ParserInv (parseStep cs st).2 := by
  have hf := h.forest
  have hp := h.previous
  have hcp := hf.counter_pos
  have hadd : ∀ (label : String), ForestUpTo (st.graph.addCarbon label) st.graph.counter :=
    fun label => forestUpTo_addCarbon st.graph label hf
  have hH : ∀ (g1 : MolecularGraph) (n : Nat), ForestUpTo g1 st.graph.counter →
      g1.counter = st.graph.counter + 1 →
      ForestUpTo (g1.incrementC_H st.graph.counter n) st.graph.counter :=
    fun g1 n hg hc => forestUpTo_incrementC_H g1 _ _ n hg hcp (by omega)
  have hX : ∀ (g1 : MolecularGraph), ForestUpTo g1 st.graph.counter →
      g1.counter = st.graph.counter + 1 →
      ForestUpTo (g1.incrementC_X st.graph.counter) st.graph.counter :=
    fun g1 hg hc => forestUpTo_incrementC_X g1 _ _ hg hcp (by omega)
  have hxp : st.previousCarbon ≠ 0 →
      ParserInv ⟨st.graph.incrementC_X st.previousCarbon, st.previousCarbon,
        st.branchPoints⟩ :=
    fun hprev =>
      ⟨forestUpTo_incrementC_X _ _ _ hf (Nat.pos_of_ne_zero hprev) hp, hp, h.branch⟩
  have hpop : ∀ (top : Nat) (below : List Nat), st.branchPoints = top :: below →
      ParserInv ⟨st.graph, top, below⟩ := by
    intro top below heq
    have hb := h.branch
    rw [heq] at hb
    exact ⟨hf, hb top (List.mem_cons_self _ _),
      fun x hx => hb x (List.mem_cons_of_mem _ hx)⟩
  have hpush : ParserInv ⟨st.graph, st.previousCarbon, st.previousCarbon :: st.branchPoints⟩ :=
    ⟨hf, hp, fun x hx => by
      rcases List.mem_cons.mp hx with hx | hx
      · rw [hx]
        exact hp
      · exact h.branch x hx⟩
  unfold parseStep
  cases cs with
  | nil => exact h
  | cons ch rest =>
    simp only
    split_ifs
    all_goals try split
    all_goals simp only
    all_goals first
      | exact h
      | exact hpush
      | exact hpop _ _ (by assumption)
      | exact hxp (by assumption)
      | exact parserInv_newAtom st h _ (hadd _) rfl
      | exact parserInv_newAtom st h _ (hH _ _ (hadd _) rfl) rfl
      | exact parserInv_newAtom st h _ (hX _ (hadd _) rfl) rfl
      | exact parserInv_newAtom st h _ (hX _ (hH _ _ (hadd _) rfl) rfl) rfl
      | exact parserInv_bondedAtom st h _ (hadd _) rfl (by assumption)
      | exact parserInv_bondedAtom st h _ (hH _ _ (hadd _) rfl) rfl (by assumption)
      | exact parserInv_bondedAtom st h _ (hX _ (hadd _) rfl) rfl (by assumption)
      | exact parserInv_bondedAtom st h _ (hX _ (hH _ _ (hadd _) rfl) rfl) rfl (by assumption)

theorem parseLoop_inv :
    ∀ (cs : List Char) (skip : Nat) (st : ParseState), ParserInv st →
      ParserInv (parseLoop cs skip st)
  | [], _, _, h => h
  | _ :: cs, skip + 1, st, h => by
    rw [parseLoop]
    exact parseLoop_inv cs skip st h
  | c :: cs, 0, st, h => by
    rw [parseLoop]
    exact parseLoop_inv cs _ _ (parseStep_inv (c :: cs) st h)

/-- The parser's loop invariant holds for the graph of every formula. -/
theorem parsed_inv (formula : String) :
    ForestUpTo (parsed formula) (parsed formula).counter := by
  have h0 : ParserInv ⟨MolecularGraph.fresh, 0, []⟩ :=
    ⟨⟨rfl, Nat.le_refl 1, Nat.le_refl 1, fun e he => absurd he (List.not_mem_nil e),
      List.nodup_nil⟩, Nat.zero_lt_one, fun x hx => absurd hx (List.not_mem_nil x)⟩
  exact (parseLoop_inv formula.data 0 _ h0).forest

theorem exists_max_of_ne_nil : ∀ (c : List Nat), c ≠ [] → ∃ m ∈ c, ∀ x ∈ c, x ≤ m
  | [], h => absurd rfl h
  | [a], _ => ⟨a, List.mem_singleton_self a, fun x hx => by
      rw [List.mem_singleton.mp hx]⟩
  | a :: b :: rest, _ => by
    obtain ⟨m, hm, hmax⟩ := exists_max_of_ne_nil (b :: rest) (List.cons_ne_nil b rest)
    by_cases ham : a ≤ m
    · refine ⟨m, List.mem_cons_of_mem a hm, fun x hx => ?_⟩
      rcases List.mem_cons.mp hx with hx | hx
      · rw [hx]
        exact ham
      · exact hmax x hx
    · refine ⟨a, List.mem_cons_self a _, fun x hx => ?_⟩
      rcases List.mem_cons.mp hx with hx | hx
      · rw [hx]
      · have := hmax x hx
        omega

theorem cycle_neighbours {R : Nat → Nat → Prop} (hsymm : ∀ x y, R x y → R y x)
    (c : List Nat) (hlen : 3 ≤ c.length) (hnd : c.Nodup) (hch : List.Chain' R c)
    (hclose : ∀ x ∈ c.head?, ∀ y ∈ c.getLast?, R y x) (m : Nat) (hm : m ∈ c) :
    ∃ u w, u ∈ c ∧ w ∈ c ∧ u ≠ w ∧ u ≠ m ∧ w ≠ m ∧ R u m ∧ R w m := by
  obtain ⟨l1, l2, rfl⟩ := List.append_of_mem hm
  rcases List.eq_nil_or_concat l1 with rfl | ⟨l1a, p, rfl⟩
  · match l2, hlen, hnd, hch, hclose with
    | [], hlen, _, _, _ => simp at hlen
    | [s], hlen, _, _, _ => simp at hlen
    | s :: t :: l2b, _, hnd, hch, hclose =>
      obtain ⟨y, hy⟩ : ∃ y, (t :: l2b).getLast? = some y :=
        ⟨(t :: l2b).getLast (List.cons_ne_nil _ _), List.getLast?_eq_getLast _ _⟩
      have hyt : y ∈ t :: l2b := List.mem_of_getLast?_eq_some hy
      have hlast : ([] ++ m :: s :: t :: l2b).getLast? = some y := by
        simpa using hy
      have hRym : R y m := hclose m (by simp) y hlast
      have hRms : R m s := by
        simp only [List.nil_append, List.chain'_cons] at hch
        exact hch.1
      simp only [List.nil_append, List.nodup_cons] at hnd
      refine ⟨y, s, by simp [hyt], by simp, ?_, ?_, ?_, hRym, hsymm _ _ hRms⟩
      · intro h
        exact hnd.2.1 (h ▸ hyt)
      · intro h
        exact hnd.1 (List.mem_cons_of_mem _ (h ▸ hyt))
      · intro h
        exact hnd.1 (h ▸ List.mem_cons_self _ _)
  · rw [List.concat_eq_append] at hlen hnd hch hclose ⊢
    have hRpm : R p m := by
      rw [List.append_assoc] at hch
      have := (List.chain'_append.mp hch).2.1
      simp only [List.singleton_append, List.chain'_cons] at this
      exact this.1
    match l2, hlen, hnd, hch, hclose with
    | s :: l2b, _, hnd, hch, _ =>
      have hRms : R m s := by
        have := (List.chain'_append.mp hch).2.1
        simp only [List.chain'_cons] at this
        exact this.1
      refine ⟨p, s, by simp, by simp, ?_, ?_, ?_, hRpm, hsymm _ _ hRms⟩
      · intro h
        have := List.nodup_append.mp hnd
        exact this.2.2 (List.mem_append_right _ (List.mem_singleton_self p))
          (List.mem_cons_of_mem _ (h ▸ List.mem_cons_self s l2b))
      · intro h
        have := List.nodup_append.mp hnd
        exact this.2.2 (List.mem_append_right _ (List.mem_singleton_self p))
          (h ▸ List.mem_cons_self m _)
      · intro h
        have := (List.nodup_append.mp hnd).2.1
        simp only [List.nodup_cons] at this
        exact this.1 (h ▸ List.mem_cons_self s l2b)
    | [], hlen, hnd, _, hclose =>
      match l1a, hlen, hnd, hclose with
      | [], hlen, _, _ => simp at hlen
      | x :: l1b, _, hnd, hclose =>
        have hRmx : R m x := hclose x (by simp) m
          (by rw [Option.mem_def, List.getLast?_append]; rfl)
        refine ⟨p, x, by simp, by simp, ?_, ?_, ?_, hRpm, hsymm _ _ hRmx⟩
        · intro h
          subst h
          simp at hnd
        · intro h
          subst h
          exact (List.nodup_append.mp hnd).2.2
            (List.mem_append_right _ (List.mem_singleton_self p)) (List.mem_singleton_self p)
        · intro h
          subst h
          simp at hnd

theorem neighbors_mapModify_pair (adj : Adjacency) (a b k : Nat) :
    neighbors (mapModify [] (fun l => l ++ [a]) (mapModify [] (fun l => l ++ [b]) adj a) b) k
      = neighbors adj k ++ (if k = a then [b] else []) ++ (if k = b then [a] else []) := by
  simp only [neighbors, mapFind_mapModify]
  by_cases hb : k = b
  · by_cases ha : k = a
    · subst hb
      subst ha
      simp
    · subst hb
      have hne : ¬ a = k := fun h => ha h.symm
      simp [ha, hne]
  · by_cases ha : k = a
    · subst ha
      have hne : ¬ b = k := fun h => hb h.symm
      simp [hb, hne]
    · simp [hb, ha]

theorem adjacency_addEdge (g : MolecularGraph) (a b : Nat)
    (h : ∀ x y, y ∈ neighbors g.adjacencyList x ↔ Bonded g.edges x y) :
    ∀ x y, y ∈ neighbors (g.addEdge a b).adjacencyList x
      ↔ Bonded (g.addEdge a b).edges x y := by
  intro x y
  show y ∈ neighbors (mapModify [] (fun l => l ++ [a])
      (mapModify [] (fun l => l ++ [b]) g.adjacencyList a) b) x
    ↔ Bonded (g.edges ++ [(a, b)]) x y
  rw [neighbors_mapModify_pair]
  unfold Bonded
  simp only [List.mem_append, h x y, Bonded, List.mem_singleton, Prod.mk.injEq]
  by_cases hxa : x = a <;> by_cases hxb : x = b <;> simp [hxa, hxb] <;> tauto

theorem parseStep_adjacency (cs : List Char) (st : ParseState)
    (h : ∀ x y, y ∈ neighbors st.graph.adjacencyList x ↔ Bonded st.graph.edges x y) :
    ∀ x y, y ∈ neighbors (parseStep cs st).2.graph.adjacencyList x
      ↔ Bonded (parseStep cs st).2.graph.edges x y := by
  have hedge : ∀ (g : MolecularGraph) (a b : Nat),
      (∀ x y, y ∈ neighbors g.adjacencyList x ↔ Bonded g.edges x y) →
      ∀ x y, y ∈ neighbors (g.addEdge a b).adjacencyList x
        ↔ Bonded (g.addEdge a b).edges x y :=
    adjacency_addEdge
  unfold parseStep
  cases cs with
  | nil => exact h
  | cons ch rest =>
    simp only
    split_ifs
    all_goals try split
    all_goals simp only
    all_goals first
      | exact h
      | exact hedge _ _ _ h

theorem parseLoop_adjacency :
    ∀ (cs : List Char) (skip : Nat) (st : ParseState),
      (∀ x y, y ∈ neighbors st.graph.adjacencyList x ↔ Bonded st.graph.edges x y) →
      ∀ x y, y ∈ neighbors (parseLoop cs skip st).graph.adjacencyList x
        ↔ Bonded (parseLoop cs skip st).graph.edges x y
  | [], _, _, h => h
  | _ :: cs, skip + 1, st, h => by
    rw [parseLoop]
    exact parseLoop_adjacency cs skip st h
  | c :: cs, 0, st, h => by
    rw [parseLoop]
    exact parseLoop_adjacency cs _ _ (parseStep_adjacency (c :: cs) st h)

/-- The adjacency lists of a parsed graph hold exactly the bonds of its edge list. -/
theorem parsed_adjacency (formula : String) (x y : Nat) :
    y ∈ neighbors (parsed formula).adjacencyList x ↔ Bonded (parsed formula).edges x y := by
  apply parseLoop_adjacency
  intro x y
  simp [neighbors, mapFind, Bonded, MolecularGraph.fresh]

theorem bonded_symm (edges : List (Nat × Nat)) (x y : Nat) (h : Bonded edges x y) :
    Bonded edges y x :=
  Or.symm h

theorem no_cycle_of_ordered (edges : List (Nat × Nat)) (hord : ∀ e ∈ edges, e.1 < e.2)
    (hone : (edges.map Prod.snd).Nodup) (c : List Nat) : ¬ IsCycle edges c := by
  rintro ⟨hlen, hnd, hch, hclose⟩
  have hne : c ≠ [] := by
    intro h
    rw [h] at hlen
    simp at hlen
  obtain ⟨m, hm, hmax⟩ := exists_max_of_ne_nil c hne
  obtain ⟨u, w, hu, hw, huw, hum, hwm, hRu, hRw⟩ :=
    cycle_neighbours (bonded_symm edges) c hlen hnd hch hclose m hm
  have hin : ∀ x, x ∈ c → x ≠ m → Bonded edges x m → (x, m) ∈ edges := by
    intro x hx hxm hb
    rcases hb with hb | hb
    · exact hb
    · have h1 := hord _ hb
      have h2 := hmax x hx
      simp only at h1
      omega
  have := List.inj_on_of_nodup_map hone (hin u hu hum hRu) (hin w hw hwm hRw) rfl
  exact huw (congrArg Prod.fst this)

theorem length_le_of_larger_once (edges : List (Nat × Nat)) (n : Nat)
    (hord : ∀ e ∈ edges, 1 ≤ e.1 ∧ e.1 < e.2 ∧ e.2 ≤ n)
    (hone : (edges.map Prod.snd).Nodup) : edges.length ≤ n - 1 := by
  have hsub : edges.map Prod.snd ⊆ List.range' 2 (n - 1) := by
    intro x hx
    obtain ⟨e, he, hex⟩ := List.mem_map.mp hx
    have := hord e he
    rw [List.mem_range'_1]
    omega
  have := (List.subperm_of_subset hone hsub).length_le
  simpa using this

theorem larger_endpoint_count (edges : List (Nat × Nat)) (hord : ∀ e ∈ edges, e.1 < e.2)
    (hone : (edges.map Prod.snd).Nodup) (b : Nat) :
    edges.countP (fun e => max e.1 e.2 = b) ≤ 1 := by
  have h1 := List.nodup_iff_count_le_one.mp hone b
  rw [List.count_eq_countP, List.countP_map] at h1
  refine Nat.le_trans (Nat.le_of_eq ?_) h1
  apply List.countP_congr
  intro e he
  have := hord e he
  simp only [Function.comp_apply, decide_eq_true_eq, beq_iff_eq]
  rw [Nat.max_eq_right (Nat.le_of_lt this)]

/-- C23. For every formula the parsed graph is a forest on the atoms 1..n, where n
is the number of atoms: the atom keys are 1, 2, ..., n in creation order; every edge
(a, b) has 1 <= a < b <= n; every atom is the larger endpoint of at most one edge;
hence no edge is a self-loop, no edge occurs twice in either orientation, no cycle
exists, and there are at most n - 1 edges. The adjacency lists hold exactly the bonds
of the edge list. -/
theorem parsed_is_forest (formula : String) :
    (parsed formula).carbons.map Prod.fst = List.range' 1 (parsed formula).carbons.length
    ∧ (parsed formula).counter = (parsed formula).carbons.length + 1
    ∧ (∀ e ∈ (parsed formula).edges,
        1 ≤ e.1 ∧ e.1 < e.2 ∧ e.2 ≤ (parsed formula).carbons.length)
    ∧ (∀ b, (parsed formula).edges.countP (fun e => max e.1 e.2 = b) ≤ 1)
    ∧ (∀ e ∈ (parsed formula).edges, e.1 ≠ e.2)
    ∧ (parsed formula).edges.Nodup
    ∧ (∀ a b, (a, b) ∈ (parsed formula).edges → (b, a) ∉ (parsed formula).edges)
    ∧ (∀ c, ¬ IsCycle (parsed formula).edges c)
    ∧ (parsed formula).edges.length ≤ (parsed formula).carbons.length - 1
    ∧ (∀ x y, y ∈ neighbors (parsed formula).adjacencyList x
        ↔ Bonded (parsed formula).edges x y) := by
  have h := parsed_inv formula
  have hlen : (parsed formula).carbons.length = (parsed formula).counter - 1 := by
    have := congrArg List.length h.keys
    simpa using this
  have hcp := h.counter_pos
  have hord : ∀ e ∈ (parsed formula).edges,
      1 ≤ e.1 ∧ e.1 < e.2 ∧ e.2 ≤ (parsed formula).carbons.length := by
    intro e he
    have := h.edge_order e he
    omega
  have hlt : ∀ e ∈ (parsed formula).edges, e.1 < e.2 := fun e he => (hord e he).2.1
  refine ⟨?_, by omega, hord, larger_endpoint_count _ hlt h.larger_once, ?_, ?_, ?_,
    no_cycle_of_ordered _ hlt h.larger_once, length_le_of_larger_once _ _ hord h.larger_once,
    parsed_adjacency formula⟩
  · rw [hlen]
    exact h.keys
  · intro e he
    exact Nat.ne_of_lt (hlt e he)
  · exact List.Nodup.of_map _ h.larger_once
  · intro a b hab hba
    have h1 := hlt _ hab
    have h2 := hlt _ hba
    simp only at h1 h2
    omega

end IUPAC
